import Mathlib

/-!
# State analysis: lineage grouping and snapshot diffing

A shallow embedding of `cmd/analyze-states/main.go` (and of the file naming of
`cmd/download-s3/main.go`), followed by theorems about it.

Conventions of the embedding:

* a Go `string` is a `String` where it is only stored and compared, and a
  `List Char` where the program slices it (file names); every delimiter the
  program looks for (`-`, `.`, `/`, digits, `T`, `Z`) is ASCII;
* a Go `map` is an association list whose keys are kept distinct by the
  operations below; Go leaves the iteration order of a map unspecified, so the
  theorems about map iteration speak of membership, not of positions;
* `report(...)` appends one `Line` to the report; a `Line` keeps the arguments
  of the format string rather than the formatted text;
* a run-time panic is the `none` of an `Option`.
-/

namespace StateAnalysis

/-! ## File names -/

/-- Go `os.IsPathSeparator` on Unix. -/
def isPathSeparator (c : Char) : Bool := c == '/'

/-- The loop of Go `filepath.Ext`: `i + 1` is the number of characters still to
be examined, from the end of `path` towards its start. -/
def extScan (path : List Char) : Nat → List Char
  | 0 => []
  | i + 1 =>
    match path[i]? with
    | none => []
    | some c =>
      if isPathSeparator c then []
      else if c = '.' then path.drop i
      else extScan path i

/-- Go `filepath.Ext`: the suffix beginning at the final dot of the final
element of `path`, empty if there is no dot. -/
def Ext (path : List Char) : List Char := extScan path path.length

/-- Go `strings.HasSuffix`. -/
def HasSuffix (s suffix : List Char) : Bool :=
  decide (suffix.length ≤ s.length) && s.drop (s.length - suffix.length) == suffix

/-- Go `strings.TrimSuffix`. -/
def TrimSuffix (s suffix : List Char) : List Char :=
  if HasSuffix s suffix then s.take (s.length - suffix.length) else s

/-- The loop of Go `strings.LastIndexByte`: `i + 1` is the number of characters
still to be examined; `-1` when `c` does not occur. -/
def lastIndexScan (s : List Char) (c : Char) : Nat → Int
  | 0 => -1
  | i + 1 => if s[i]? = some c then (i : Int) else lastIndexScan s c i

/-- Go `strings.LastIndex(s, "-")` for a one-character separator. -/
def LastIndex (s : List Char) (c : Char) : Int := lastIndexScan s c s.length

/-- Go slice expression `s[k:]`; `none` is the out-of-range panic. -/
def sliceFrom (s : List Char) (k : Int) : Option (List Char) :=
  if 0 ≤ k ∧ k ≤ (s.length : Int) then some (s.drop k.toNat) else none

/-- Lines 113-115 of the analyzer: the file name without its extension, then
the part after the last hyphen. -/
def timestampStr (name : List Char) : Option (List Char) :=
  let stem := TrimSuffix name (Ext name)
  sliceFrom stem (LastIndex stem '-' + 1)

/-! ## Time -/

/-- A Go `time.Time` in UTC without monotonic reading: seconds since
0001-01-01T00:00:00Z and nanoseconds within the second. -/
structure Time where
  sec : Int
  nsec : Nat
deriving DecidableEq, Repr

/-- The zero value of `time.Time`. -/
def Time.zero : Time := ⟨0, 0⟩

/-- Go `Time.IsZero`. -/
def Time.IsZero (t : Time) : Bool := t.sec == 0 && t.nsec == 0

/-- The smallest `time.Duration` (an `int64` count of nanoseconds). -/
def minDuration : Int := -(2 ^ 63)

/-- The largest `time.Duration`. -/
def maxDuration : Int := 2 ^ 63 - 1

/-- The exact difference of two instants in nanoseconds. -/
def Time.nanosBetween (t u : Time) : Int :=
  (t.sec - u.sec) * 1000000000 + ((t.nsec : Int) - (u.nsec : Int))

/-- Go `Time.Sub`: the duration `t - u`; a result outside the range of
`Duration` is replaced by the minimum or maximum duration. -/
def Time.Sub (t u : Time) : Int :=
  let d := t.nanosBetween u
  if d < minDuration then minDuration
  else if maxDuration < d then maxDuration
  else d

/-- The test `'0' <= c && c <= '9'`. -/
def isDigitChar (c : Char) : Bool := decide (48 ≤ c.toNat) && decide (c.toNat ≤ 57)

/-- Go `time.isDigit`: is there a decimal digit at index `i`. -/
def isDigit (s : List Char) (i : Nat) : Bool :=
  match s[i]? with
  | none => false
  | some c => isDigitChar c

/-- The value of the digit at index `i` (`s[i] - '0'`). -/
def digitAt (s : List Char) (i : Nat) : Nat :=
  match s[i]? with
  | none => 0
  | some c => c.toNat - 48

/-- Go `time.getnum`: one or two digits (`fixed` forces two) and the rest. -/
def getnum (s : List Char) (fixed : Bool) : Option (Nat × List Char) :=
  if !isDigit s 0 then none
  else if !isDigit s 1 then
    if fixed then none else some (digitAt s 0, s.drop 1)
  else some (digitAt s 0 * 10 + digitAt s 1, s.drop 2)

/-- Go `time.atoi` on an unsigned numeral of at most nine characters: every
character has to be a digit. -/
def atoi (s : List Char) : Option Nat :=
  s.foldl (fun acc c =>
    match acc with
    | none => none
    | some x => if isDigitChar c then some (x * 10 + (c.toNat - 48)) else none)
    (some 0)

/-- Go `time.skip` for a one-character literal of the layout. -/
def skip (value : List Char) (lit : Char) : Option (List Char) :=
  match value with
  | [] => none
  | c :: rest => if c = lit then some rest else none

/-- Go `time.commaOrPeriod`. -/
def commaOrPeriod (c : Char) : Bool := c == '.' || c == ','

/-- The number of leading characters of `value` that belong to a fractional
second: the separator, one digit, and the digits that follow (the loop
`for ; n < len(value) && isDigit(value, n); n++`). -/
def fracLength (value : List Char) : Nat :=
  2 + ((value.drop 2).takeWhile isDigitChar).length

/-- Go `time.parseNanoseconds`: at most nine digits are read and scaled to
nanoseconds. -/
def parseNanoseconds (value : List Char) (nbytes : Nat) : Option Nat :=
  let nbytes := if nbytes > 10 then 10 else nbytes
  match atoi ((value.take nbytes).drop 1) with
  | none => none
  | some ns => some (ns * 10 ^ (10 - nbytes))

/-- The fractional second Go accepts after the seconds field although the
layout has none: the nanoseconds and the rest of the value. -/
def parseFraction (value : List Char) : Option (Nat × List Char) :=
  match value with
  | c :: _ :: _ =>
    if commaOrPeriod c && isDigit value 1 then
      match parseNanoseconds value (fracLength value) with
      | none => none
      | some nsec => some (nsec, value.drop (fracLength value))
    else some (0, value)
  | _ => some (0, value)

/-- Go `time.isLeap`. -/
def isLeap (year : Nat) : Bool :=
  year % 4 == 0 && (year % 100 != 0 || year % 400 == 0)

/-- Go `time.daysBefore`: days of a non-leap year before the end of month `m`. -/
def daysBefore (m : Nat) : Nat :=
  [0, 31, 59, 90, 120, 151, 181, 212, 243, 273, 304, 334, 365].getD m 0

/-- Go `time.daysIn`. -/
def daysIn (m year : Nat) : Nat :=
  if m = 2 ∧ isLeap year then 29 else daysBefore m - daysBefore (m - 1)

/-- Go `time.Date` in UTC for a valid calendar date of the years 0 to 9999. -/
def Date (year month day hour min sec nsec : Nat) : Time :=
  let leapsBefore : Int := ((year + 3) / 4 : Nat) - ((year + 99) / 100 : Nat) + ((year + 399) / 400 : Nat)
  let days : Int := 365 * (year : Int) + leapsBefore - 366 + (daysBefore (month - 1) : Nat)
    + (if 2 < month ∧ isLeap year then 1 else 0) + ((day : Int) - 1)
  ⟨days * 86400 + ((hour * 3600 + min * 60 + sec : Nat) : Int), nsec⟩

/-- Go `time.Parse("20060102T150405Z", value)`; `none` when Go returns an
error. The layout is: four-digit year, two-digit month and day, `T`, hour,
two-digit minute and second, `Z`; as documented for `time.Parse`, a fractional
second after the seconds field is accepted although the layout has none. -/
def parseTimestamp (value : List Char) : Option Time :=
  if value.length < 4 || !isDigit value 0 then none else
  match atoi (value.take 4) with
  | none => none
  | some year =>
  match getnum (value.drop 4) true with
  | none => none
  | some (month, value) =>
  if month ≤ 0 ∨ 12 < month then none else
  match getnum value true with
  | none => none
  | some (day, value) =>
  match skip value 'T' with
  | none => none
  | some value =>
  match getnum value false with
  | none => none
  | some (hour, value) =>
  if 24 ≤ hour then none else
  match getnum value true with
  | none => none
  | some (min, value) =>
  if 60 ≤ min then none else
  match getnum value true with
  | none => none
  | some (sec, value) =>
  if 60 ≤ sec then none else
  match parseFraction value with
  | none => none
  | some (nsec, value) =>
  match skip value 'Z' with
  | none => none
  | some value =>
  if value ≠ [] then none else
  if day < 1 ∨ daysIn month year < day then none else
  some (Date year month day hour min sec nsec)

/-! ## Go maps -/

section GoMap
variable {V : Type}

/-- Go `m[k]` read with the comma-ok form: the value stored under `k`, if any.
A nil map behaves as the empty one. -/
def mapGet (m : List (String × V)) (k : String) : Option V :=
  match m with
  | [] => none
  | (k', v) :: rest => if k' = k then some v else mapGet rest k

/-- Go `m[k] = v`. -/
def mapSet (m : List (String × V)) (k : String) (v : V) : List (String × V) :=
  match m with
  | [] => [(k, v)]
  | (k', v') :: rest => if k' = k then (k', v) :: rest else (k', v') :: mapSet rest k v

end GoMap

/-! ## The data model -/

/-- A decoded JSON value as `encoding/json` stores it in an `interface{}`.
The payload of a number is never inspected by the program; it is kept as the
literal it was decoded from. -/
inductive JVal where
  | null
  | bool (b : Bool)
  | number (literal : String)
  | str (s : String)
  | array (xs : List JVal)
  | object (m : List (String × JVal))

/-- One element of `StateFile.Resources`. -/
structure Resource where
  Mode : String
  Typ : String
  Name : String
  Provider : String
deriving DecidableEq, Repr

/-- What the program uses of an `os.FileInfo`. -/
structure OsFileInfo where
  Name : List Char
  IsDir : Bool
deriving DecidableEq, Repr

/-- The Go struct `StateFile`. `Values` is `none` for the nil map. -/
structure StateFile where
  Version : Int
  TerraformVersion : String
  Serial : Int
  Lineage : String
  Resources : List Resource
  FileInfo : OsFileInfo
  Values : Option (List (String × JVal))

/-- One call of `report`, with the arguments of its format string. -/
inductive Line where
  | statesDirectory (dir : String)
  | lineageHeader (lineage : String)
  | found (n : Nat)
  | file (name : List Char)
  | serial (n : Int)
  | lineage (l : String)
  | timestamp (t : Time)
  | timeDelta (d : Int)
  | timestampError
  | callerId (userId : String)
  | resourceCount (n : Int)
  | change (diff : Int)
  | typeChangesHeader
  | typeChange (rType : String) (count prev : Int)
  | separator
deriving DecidableEq, Repr

/-! ## Identity extraction (lines 128-139) -/

/-- Go type assertion `v.(map[string]interface{})` on the result of a map read;
a missing key reads as the nil interface, for which the assertion fails. -/
def asObject (v : Option JVal) : Option (List (String × JVal)) :=
  match v with
  | some (JVal.object m) => some m
  | _ => none

/-- Go type assertion `v.(string)` on the result of a map read. -/
def asString (v : Option JVal) : Option String :=
  match v with
  | some (JVal.str s) => some s
  | _ => none

/-- The nested `if ..., ok := ...` chain of lines 129-139: the user id that is
reported, if any. -/
def callerIdentity (values : Option (List (String × JVal))) : Option String :=
  match values with
  | none => none
  | some values =>
    match asObject (mapGet values "data") with
    | none => none
    | some data =>
      match asObject (mapGet data "aws_caller_identity") with
      | none => none
      | some aws =>
        match asObject (mapGet aws "current") with
        | none => none
        | some current => asString (mapGet current "user_id")

/-! ## The loop over one lineage (lines 104-165) -/

/-- The variables declared before the inner loop: `prevCount`,
`prevResourceTypes`, `prevTimestamp`. -/
structure LoopVars where
  prevCount : Int
  prevResourceTypes : List (String × Int)
  prevTimestamp : Time

/-- The zero values the three variables start from for every lineage. -/
def LoopVars.init : LoopVars := ⟨0, [], Time.zero⟩

/-- Lines 141-144: `resourceTypes[r.Type]++` over the resources. -/
def countTypes (resources : List Resource) : List (String × Int) :=
  resources.foldl (fun m r => mapSet m r.Typ ((mapGet m r.Typ).getD 0 + 1)) []

/-- Lines 154-159: one line per type of the current map that is missing from
the previous map or has another count there. -/
def typeChangeLines (resourceTypes prevResourceTypes : List (String × Int)) : List Line :=
  resourceTypes.filterMap (fun entry =>
    let prevCount := (mapGet prevResourceTypes entry.1).getD 0
    let present := (mapGet prevResourceTypes entry.1).isSome
    if !present || prevCount != entry.2 then some (Line.typeChange entry.1 entry.2 prevCount)
    else none)

/-- Lines 116-126: the lines about the timestamp and the new `prevTimestamp`. -/
def timestampLines (prevTimestamp : Time) (tsStr : List Char) : List Line × Time :=
  match parseTimestamp tsStr with
  | some timestamp =>
    ([Line.timestamp timestamp] ++
      (if !prevTimestamp.IsZero then [Line.timeDelta (timestamp.Sub prevTimestamp)] else []),
     timestamp)
  | none => ([Line.timestampError], prevTimestamp)

/-- Lines 149-161: the change in the resource count and the type changes. -/
def changeLines (i : Nat) (vars : LoopVars) (resourceCount : Int)
    (resourceTypes : List (String × Int)) : List Line :=
  if i > 0 then
    let diff := resourceCount - vars.prevCount
    if diff ≠ 0 then
      [Line.change diff, Line.typeChangesHeader] ++ typeChangeLines resourceTypes vars.prevResourceTypes
    else []
  else []

/-- One iteration of `for i, state := range states`: the lines reported and the
variables afterwards; `none` if the slice expression of line 115 panics. -/
def loopBody (vars : LoopVars) (i : Nat) (state : StateFile) : Option (List Line × LoopVars) :=
  match timestampStr state.FileInfo.Name with
  | none => none
  | some tsStr =>
    let ts := timestampLines vars.prevTimestamp tsStr
    let idLines :=
      match callerIdentity state.Values with
      | some userId => [Line.callerId userId]
      | none => []
    let resourceTypes := countTypes state.Resources
    let resourceCount : Int := state.Resources.length
    some ([Line.file state.FileInfo.Name, Line.serial state.Serial, Line.lineage state.Lineage]
        ++ ts.1 ++ idLines ++ [Line.resourceCount resourceCount]
        ++ changeLines i vars resourceCount resourceTypes ++ [Line.separator],
      ⟨resourceCount, resourceTypes, ts.2⟩)

/-- The loop `for i, state := range states` from index `i` on, with the current
variables: the block of lines of every snapshot, in order. -/
def diffLoop (vars : LoopVars) (i : Nat) : List StateFile → Option (List (List Line))
  | [] => some []
  | state :: rest =>
    match loopBody vars i state with
    | none => none
    | some (block, vars') =>
      match diffLoop vars' (i + 1) rest with
      | none => none
      | some blocks => some (block :: blocks)

/-- The diff loop of one lineage, from the zero values of its variables. -/
def diff (states : List StateFile) : Option (List (List Line)) :=
  diffLoop LoopVars.init 0 states

/-! ## `sort.Slice`

The analyzer orders a lineage with `sort.Slice`, which runs the pattern-defeating
quicksort of the Go standard library (`pdqsort_func` and its helpers in package
`sort`, Go 1.19 and later) on the pair of callbacks `Less(i, j)` and
`Swap(i, j)`. The slice is a list; loops carry a counter on which they recurse. Every index passed to `Less`
and `Swap` below is in range, where Go would otherwise panic; for an index out
of range `Less` answers `false` and `Swap` does nothing. -/

section SortSlice
variable {α : Type}

/-- The callback `data.Less(i, j)`. -/
def Less (less : α → α → Bool) (data : List α) (i j : Nat) : Bool :=
  match data[i]?, data[j]? with
  | some x, some y => less x y
  | _, _ => false

/-- The callback `data.Swap(i, j)`. -/
def Swap (data : List α) (i j : Nat) : List α :=
  match data[i]?, data[j]? with
  | some x, some y => (data.set i y).set j x
  | _, _ => data

/-- The inner loop of `insertionSort_func`:
`for j := i; j > a && data.Less(j, j-1); j-- { data.Swap(j, j-1) }`. -/
def insertionInner (less : α → α → Bool) (a : Nat) (data : List α) : Nat → List α
  | 0 => data
  | j + 1 =>
    if j + 1 > a && Less less data (j + 1) j then
      insertionInner less a (Swap data (j + 1) j) j
    else data

/-- The outer loop of `insertionSort_func` from index `i`, with `n` iterations
to go. -/
def insertionOuter (less : α → α → Bool) (a : Nat) (data : List α) (i : Nat) : Nat → List α
  | 0 => data
  | n + 1 => insertionOuter less a (insertionInner less a data i) (i + 1) n

/-- Go `insertionSort_func`: sorts `data[a:b]` by insertion. -/
def insertionSort (less : α → α → Bool) (data : List α) (a b : Nat) : List α :=
  insertionOuter less a data (a + 1) (b - (a + 1))

/-- Go `siftDown_func`; the last argument bounds the number of iterations. -/
def siftDown (less : α → α → Bool) (hi first : Nat) (data : List α) (root : Nat) :
    Nat → List α
  | 0 => data
  | n + 1 =>
    let child := 2 * root + 1
    if child ≥ hi then data
    else
      let child := if child + 1 < hi && Less less data (first + child) (first + child + 1)
        then child + 1 else child
      if !Less less data (first + root) (first + child) then data
      else siftDown less hi first (Swap data (first + root) (first + child)) child n

/-- The first loop of `heapSort_func`:
`for i := (hi - 1) / 2; i >= 0; i-- { siftDown_func(data, i, hi, first) }`,
with `k = i + 1`. -/
def heapBuild (less : α → α → Bool) (hi first : Nat) (data : List α) : Nat → List α
  | 0 => data
  | i + 1 => heapBuild less hi first (siftDown less hi first data i hi) i

/-- The second loop of `heapSort_func`:
`for i := hi - 1; i >= 0; i-- { data.Swap(first, first+i); siftDown_func(data, lo, i, first) }`,
with `k = i + 1`. -/
def heapPop (less : α → α → Bool) (first : Nat) (data : List α) : Nat → List α
  | 0 => data
  | i + 1 => heapPop less first (siftDown less i first (Swap data first (first + i)) 0 i) i

/-- Go `heapSort_func`. -/
def heapSort (less : α → α → Bool) (data : List α) (a b : Nat) : List α :=
  let hi := b - a
  heapPop less a (heapBuild less hi a data ((hi - 1) / 2 + 1)) hi

/-- The loop `for i <= j && data.Less(i, a) { i++ }` of `partition_func`; the
first argument bounds the number of iterations. -/
def partitionUp (less : α → α → Bool) (data : List α) (a j : Nat) : Nat → Nat → Nat
  | 0, i => i
  | n + 1, i => if i ≤ j && Less less data i a then partitionUp less data a j n (i + 1) else i

/-- The loop `for i <= j && !data.Less(j, a) { j-- }` of `partition_func`
(`i` is at least `a + 1`, so the loop ends before `j` would pass zero). -/
def partitionDown (less : α → α → Bool) (data : List α) (a i : Nat) : Nat → Nat
  | 0 => 0
  | j + 1 => if i ≤ j + 1 && !Less less data (j + 1) a then partitionDown less data a i j else j + 1

/-- The `for { ... }` loop of `partition_func`; the first argument bounds the
number of iterations. Returns the slice and `j`. -/
def partitionLoop (less : α → α → Bool) (a : Nat) : Nat → List α → Nat → Nat → List α × Nat
  | 0, data, _, j => (data, j)
  | n + 1, data, i, j =>
    let i := partitionUp less data a j (j + 1 - i) i
    let j := partitionDown less data a i j
    if i > j then (data, j)
    else partitionLoop less a n (Swap data i j) (i + 1) (j - 1)

/-- Go `partition_func`: the slice, the new index of the pivot and whether the
slice was already partitioned. -/
def partition (less : α → α → Bool) (data : List α) (a b pivot : Nat) : List α × Nat × Bool :=
  let data := Swap data a pivot
  let i := a + 1
  let j := b - 1
  let i := partitionUp less data a j (j + 1 - i) i
  let j := partitionDown less data a i j
  if i > j then (Swap data j a, j, true)
  else
    let r := partitionLoop less a (j + 1 - i) (Swap data i j) (i + 1) (j - 1)
    (Swap r.1 r.2 a, r.2, false)

/-- The loop `for i <= j && !data.Less(a, i) { i++ }` of `partitionEqual_func`. -/
def partitionEqualUp (less : α → α → Bool) (data : List α) (a j : Nat) : Nat → Nat → Nat
  | 0, i => i
  | n + 1, i =>
    if i ≤ j && !Less less data a i then partitionEqualUp less data a j n (i + 1) else i

/-- The loop `for i <= j && data.Less(a, j) { j-- }` of `partitionEqual_func`. -/
def partitionEqualDown (less : α → α → Bool) (data : List α) (a i : Nat) : Nat → Nat
  | 0 => 0
  | j + 1 =>
    if i ≤ j + 1 && Less less data a (j + 1) then partitionEqualDown less data a i j else j + 1

/-- The `for { ... }` loop of `partitionEqual_func`. Returns the slice and `i`. -/
def partitionEqualLoop (less : α → α → Bool) (a : Nat) :
    Nat → List α → Nat → Nat → List α × Nat
  | 0, data, i, _ => (data, i)
  | n + 1, data, i, j =>
    let i := partitionEqualUp less data a j (j + 1 - i) i
    let j := partitionEqualDown less data a i j
    if i > j then (data, i)
    else partitionEqualLoop less a n (Swap data i j) (i + 1) (j - 1)

/-- Go `partitionEqual_func`: the slice and the index after the elements equal
to the pivot. -/
def partitionEqual (less : α → α → Bool) (data : List α) (a b pivot : Nat) : List α × Nat :=
  let data := Swap data a pivot
  partitionEqualLoop less a (b - a) data (a + 1) (b - 1)

/-- The scan `for i < b && !data.Less(i, i-1) { i++ }` of
`partialInsertionSort_func`. -/
def sortedScan (less : α → α → Bool) (data : List α) (b : Nat) : Nat → Nat → Nat
  | 0, i => i
  | n + 1, i => if i < b && !Less less data i (i - 1) then sortedScan less data b n (i + 1) else i

/-- The loop of `partialInsertionSort_func` that shifts the smaller element to
the left: `for j := i - 1; j >= 1; j-- { if !data.Less(j, j-1) { break }; data.Swap(j, j-1) }`. -/
def shiftLeft (less : α → α → Bool) (data : List α) : Nat → List α
  | 0 => data
  | j + 1 =>
    if !Less less data (j + 1) j then data
    else shiftLeft less (Swap data (j + 1) j) j

/-- The loop of `partialInsertionSort_func` that shifts the greater element to
the right: `for j := i + 1; j < b; j++ { if !data.Less(j, j-1) { break }; data.Swap(j, j-1) }`. -/
def shiftRight (less : α → α → Bool) (b : Nat) : Nat → List α → Nat → List α
  | 0, data, _ => data
  | n + 1, data, j =>
    if j < b then
      if !Less less data j (j - 1) then data
      else shiftRight less b n (Swap data j (j - 1)) (j + 1)
    else data

/-- The loop `for j := 0; j < maxSteps; j++` of `partialInsertionSort_func`
with `steps` iterations to go. -/
def partialInsertionLoop (less : α → α → Bool) (a b : Nat) : Nat → List α → Nat → List α × Bool
  | 0, data, _ => (data, false)
  | steps + 1, data, i =>
    let i := sortedScan less data b (b - i) i
    if i = b then (data, true)
    else if b - a < 50 then (data, false)
    else
      let data := Swap data i (i - 1)
      let data := if i - a ≥ 2 then shiftLeft less data (i - 1) else data
      let data := if b - i ≥ 2 then shiftRight less b (b - (i + 1)) data (i + 1) else data
      partialInsertionLoop less a b steps data i

/-- Go `partialInsertionSort_func` (`maxSteps = 5`, `shortestShifting = 50`):
the slice and whether it is sorted at the end. -/
def partialInsertionSort (less : α → α → Bool) (data : List α) (a b : Nat) : List α × Bool :=
  partialInsertionLoop less a b 5 data (a + 1)

/-- The `uint64` step of Go `xorshift.Next`. Its values only select which
elements `breakPatterns_func` swaps. -/
def xorshiftNext (r : Nat) : Nat :=
  let r := r ^^^ ((r <<< 13) % 2 ^ 64)
  let r := r ^^^ (r >>> 7)
  r ^^^ ((r <<< 17) % 2 ^ 64)

/-- Go `bits.Len`, by halving; the first argument bounds the number of steps. -/
def bitsLenAux : Nat → Nat → Nat
  | 0, _ => 0
  | n + 1, x => if x = 0 then 0 else 1 + bitsLenAux n (x / 2)

/-- Go `bits.Len`: the number of bits needed to write `x`. -/
def bitsLen (x : Nat) : Nat := bitsLenAux x x

/-- The loop `for i := 0; i < 3; i++` of `breakPatterns_func` from `i`, with
`n` iterations to go. -/
def breakPatternsLoop (a length modulus idx : Nat) : Nat → List α → Nat → Nat → List α
  | 0, data, _, _ => data
  | n + 1, data, random, i =>
    let random := xorshiftNext random
    let other := random % 2 ^ 64 % modulus
    let other := if other ≥ length then other - length else other
    breakPatternsLoop a length modulus idx n (Swap data (idx + i) (a + other)) random (i + 1)

/-- Go `breakPatterns_func`: scatters three elements around the middle. -/
def breakPatterns (data : List α) (a b : Nat) : List α :=
  let length := b - a
  if length ≥ 8 then
    breakPatternsLoop a length (2 ^ bitsLen length) (a + (length / 4) * 2 - 1) 3 data length 0
  else data

/-- Go `sortedHint`. -/
inductive SortedHint where
  | unknownHint
  | increasingHint
  | decreasingHint
deriving DecidableEq, Repr

/-- Go `order2_func`: the two indices in the order of their elements, and the
updated count of swaps. -/
def order2 (less : α → α → Bool) (data : List α) (a b swaps : Nat) : Nat × Nat × Nat :=
  if Less less data b a then (b, a, swaps + 1) else (a, b, swaps)

/-- Go `median_func`: the index of the median of three, and the count of swaps. -/
def median (less : α → α → Bool) (data : List α) (a b c swaps : Nat) : Nat × Nat :=
  let r1 := order2 less data a b swaps
  let r2 := order2 less data r1.2.1 c r1.2.2
  let r3 := order2 less data r1.1 r2.1 r2.2.2
  (r3.2.1, r3.2.2)

/-- Go `medianAdjacent_func`. -/
def medianAdjacent (less : α → α → Bool) (data : List α) (a swaps : Nat) : Nat × Nat :=
  median less data (a - 1) a (a + 1) swaps

/-- Go `choosePivot_func` (`shortestNinther = 50`, `maxSwaps = 4 * 3`). -/
def choosePivot (less : α → α → Bool) (data : List α) (a b : Nat) : Nat × SortedHint :=
  let l := b - a
  let i := a + l / 4 * 1
  let j := a + l / 4 * 2
  let k := a + l / 4 * 3
  let r :=
    if l ≥ 8 then
      if l ≥ 50 then
        let ri := medianAdjacent less data i 0
        let rj := medianAdjacent less data j ri.2
        let rk := medianAdjacent less data k rj.2
        median less data ri.1 rj.1 rk.1 rk.2
      else median less data i j k 0
    else (j, 0)
  if r.2 = 0 then (r.1, SortedHint.increasingHint)
  else if r.2 = 12 then (r.1, SortedHint.decreasingHint)
  else (r.1, SortedHint.unknownHint)

/-- Go `reverseRange_func` as a loop on `i` and `j`, with `n` iterations to go. -/
def reverseLoop : Nat → List α → Nat → Nat → List α
  | 0, data, _, _ => data
  | n + 1, data, i, j => if i < j then reverseLoop n (Swap data i j) (i + 1) (j - 1) else data

/-- Go `reverseRange_func`. -/
def reverseRange (data : List α) (a b : Nat) : List α :=
  reverseLoop (b - a) data a (b - 1)

/-- Go `pdqsort_func` (`maxInsertion = 12`). The `for` loop and the recursive
calls both take one unit of the first argument; `wasBalanced` and
`wasPartitioned` are the two flags of the loop, fresh in a recursive call. -/
def pdqsort (less : α → α → Bool) :
    Nat → List α → Nat → Nat → Nat → Bool → Bool → List α
  | 0, data, _, _, _, _, _ => data
  | fuel + 1, data, a, b, limit, wasBalanced, wasPartitioned =>
    let length := b - a
    if length ≤ 12 then insertionSort less data a b
    else if limit = 0 then heapSort less data a b
    else
      let limit := if !wasBalanced then limit - 1 else limit
      let data := if !wasBalanced then breakPatterns data a b else data
      let ph := choosePivot less data a b
      let decreasing := decide (ph.2 = SortedHint.decreasingHint)
      let data := if decreasing then reverseRange data a b else data
      let pivot := if decreasing then (b - 1) - (ph.1 - a) else ph.1
      let hint := if decreasing then SortedHint.increasingHint else ph.2
      let tryPartial := wasBalanced && wasPartitioned && decide (hint = SortedHint.increasingHint)
      let pr := if tryPartial then partialInsertionSort less data a b else (data, false)
      if pr.2 then pr.1
      else
        let data := pr.1
        if a > 0 && !Less less data (a - 1) pivot then
          let r := partitionEqual less data a b pivot
          pdqsort less fuel r.1 r.2 b limit wasBalanced wasPartitioned
        else
          let r := partition less data a b pivot
          let mid := r.2.1
          let leftLen := mid - a
          let rightLen := b - mid
          let balanceThreshold := length / 8
          if leftLen < rightLen then
            pdqsort less fuel (pdqsort less fuel r.1 a mid limit true true) (mid + 1) b limit
              (decide (leftLen ≥ balanceThreshold)) r.2.2
          else
            pdqsort less fuel (pdqsort less fuel r.1 (mid + 1) b limit true true) a mid limit
              (decide (rightLen ≥ balanceThreshold)) r.2.2

/-- Go `sort.Slice(x, less)`: `pdqsort_func(data, 0, length, bits.Len(length))`.
Every turn of the loop narrows the range, so `length + 1` units suffice. -/
def Slice (less : α → α → Bool) (data : List α) : List α :=
  pdqsort less (data.length + 1) data 0 data.length (bitsLen data.length) true true

end SortSlice

/-! ## The directory walk (lines 42-77) -/

/-- One call of the function handed to `filepath.Walk`: the path, whether Walk
passes an error for it, its `os.FileInfo`, and what `os.ReadFile` returns for
it (`none` is a read error). -/
structure WalkEntry where
  path : List Char
  walkErr : Bool
  info : OsFileInfo
  contents : Option (List UInt8)

/-- The error a call of the walk function returns. -/
inductive WalkError where
  | walk (path : List Char)
  | reading (path : List Char)
  | parsing (path : List Char)
deriving DecidableEq, Repr

/-- The body of the walk function (lines 44-72) on the lineage map so far.
`unmarshal` is `json.Unmarshal(data, &state)` on a fresh `StateFile`, `none`
when it returns an error. -/
def walkFn (unmarshal : List UInt8 → Option StateFile)
    (lineageMap : List (String × List StateFile)) (entry : WalkEntry) :
    Except WalkError (List (String × List StateFile)) :=
  if entry.walkErr then Except.error (WalkError.walk entry.path)
  else if entry.info.IsDir then Except.ok lineageMap
  else if Ext entry.path ≠ ".tfstate".toList then Except.ok lineageMap
  else
    match entry.contents with
    | none => Except.error (WalkError.reading entry.path)
    | some data =>
      match unmarshal data with
      | none => Except.error (WalkError.parsing entry.path)
      | some parsed =>
        let state := { parsed with FileInfo := entry.info }
        Except.ok (mapSet lineageMap state.Lineage
          ((mapGet lineageMap state.Lineage).getD [] ++ [state]))

/-- Go `filepath.Walk` over the entries in the order it visits them: it stops
at the first call that returns an error and returns that error. -/
def Walk (unmarshal : List UInt8 → Option StateFile) :
    List (String × List StateFile) → List WalkEntry →
    Except WalkError (List (String × List StateFile))
  | lineageMap, [] => Except.ok lineageMap
  | lineageMap, entry :: rest =>
    match walkFn unmarshal lineageMap entry with
    | Except.error e => Except.error e
    | Except.ok lineageMap' => Walk unmarshal lineageMap' rest

/-! ## The report (lines 93-166) -/

/-- The ordering step of lines 99-102: `sort.Slice` with
`less = states[i].Serial < states[j].Serial`. -/
def sortBySerial (states : List StateFile) : List StateFile :=
  Slice (fun x y => decide (x.Serial < y.Serial)) states

/-- Lines 96-165 for one entry of the lineage map. -/
def reportLineage (lineage : String) (states : List StateFile) : Option (List Line) :=
  match diff (sortBySerial states) with
  | none => none
  | some blocks =>
    some ([Line.lineageHeader lineage, Line.found states.length] ++ blocks.flatten)

/-- The loop `for lineage, states := range lineageMap`. -/
def reportLineages : List (String × List StateFile) → Option (List Line)
  | [] => some []
  | (lineage, states) :: rest =>
    match reportLineage lineage states with
    | none => none
    | some ls =>
      match reportLineages rest with
      | none => none
      | some more => some (ls ++ more)

/-- How a run of the analyzer ends. -/
inductive Outcome where
  | exited (code : Nat) (walkError : Option WalkError)
  | panicked
  | finished (report : List Line)
deriving DecidableEq

/-- What the analyzer reads from its environment: whether `.env` loads, the
value of `STATES_DIR`, what the walk visits, whether the report file can be
created. -/
structure Env where
  dotenvOk : Bool
  statesDir : String
  entries : List WalkEntry
  reportFileOk : Bool

/-- The function `main` of the analyzer. -/
def analyze (unmarshal : List UInt8 → Option StateFile) (env : Env) : Outcome :=
  if !env.dotenvOk then Outcome.exited 1 none
  else if env.statesDir = "" then Outcome.exited 1 none
  else
    match Walk unmarshal [] env.entries with
    | Except.error e => Outcome.exited 1 (some e)
    | Except.ok lineageMap =>
      if !env.reportFileOk then Outcome.exited 1 none
      else
        match reportLineages lineageMap with
        | none => Outcome.panicked
        | some ls => Outcome.finished (Line.statesDirectory env.statesDir :: ls)

/-! ## The downloader's file naming (download-s3, lines 106-122) -/

/-- The base name `fmt.Sprintf("%s-%s.tfstate", versionID, lastModified)` of
the file the downloader writes for one object version. -/
def outputFileName (versionID lastModified : List Char) : List Char :=
  versionID ++ "-".toList ++ lastModified ++ ".tfstate".toList

/-! ## Definitions that follow the words of the specification -/

/-- The substring after the last `-` of a stem; the whole stem when it has no
hyphen. -/
def afterLastHyphen (stem : List Char) : List Char :=
  (stem.reverse.takeWhile (fun c => c != '-')).reverse

/-- The pattern `YYYYMMDDThhmmssZ`: sixteen characters, digits except for the
`T` and the `Z`. -/
def matchesPattern (s : List Char) : Bool :=
  match s with
  | [y1, y2, y3, y4, m1, m2, d1, d2, t, h1, h2, n1, n2, s1, s2, z] =>
    [y1, y2, y3, y4, m1, m2, d1, d2, h1, h2, n1, n2, s1, s2].all isDigitChar
      && t == 'T' && z == 'Z'
  | _ => false

/-- The pattern `YYYYMMDDThhmmss` followed by a fractional second (a period or
a comma and at least one digit) and `Z`. -/
def matchesPatternWithFraction (s : List Char) : Bool :=
  match s with
  | y1 :: y2 :: y3 :: y4 :: m1 :: m2 :: d1 :: d2 :: t :: h1 :: h2 :: n1 :: n2 :: s1 :: s2
      :: c :: f :: rest =>
    [y1, y2, y3, y4, m1, m2, d1, d2, h1, h2, n1, n2, s1, s2].all isDigitChar
      && t == 'T' && commaOrPeriod c && isDigitChar f && rest.dropWhile isDigitChar == ['Z']
  | _ => false

/-- The timestamp derived from the file name of a snapshot (lines 113-116),
absent when the file name does not yield one. -/
def capturedAt (state : StateFile) : Option Time :=
  (timestampStr state.FileInfo.Name).bind parseTimestamp

/-- The timestamp of the most recent of the earlier snapshots whose timestamp
parsed. -/
def lastCaptured (earlier : List StateFile) : Option Time :=
  (earlier.filterMap capturedAt).getLast?

/-- The occurrence count of a resource type in a resource list. -/
def typeCount (resources : List Resource) (rType : String) : Int :=
  ((resources.filter (fun r => r.Typ = rType)).length : Int)

/-- The variables of the loop after the iterations for `states`, started from
`vars`. -/
def varsAfter (vars : LoopVars) : List StateFile → LoopVars
  | [] => vars
  | state :: rest =>
    match loopBody vars 0 state with
    | some r => varsAfter r.2 rest
    | none => varsAfter vars rest

/-- A line of the report that speaks of the previous snapshot: an elapsed
time, a change of the resource count, or a type change. -/
def Line.isDelta : Line → Bool
  | Line.timeDelta _ => true
  | Line.change _ => true
  | Line.typeChangesHeader => true
  | Line.typeChange _ _ _ => true
  | _ => false

/-- A stable ascending sort by serial, in the words of the specification:
a permutation of the input with non-decreasing serials in which snapshots of
equal serial keep their relative order. -/
def IsStableSortBySerial (input output : List StateFile) : Prop :=
  output.Perm input ∧ output.Pairwise (fun x y => x.Serial ≤ y.Serial) ∧
    ∀ serial : Int, output.filter (fun x => x.Serial = serial)
      = input.filter (fun x => x.Serial = serial)

/-- The snapshots the walk function appends to the lineage map, in walk order:
one for every entry that is a regular `.tfstate` file whose contents are read
and decoded, with the entry's `FileInfo`. -/
def parsedSnapshots (unmarshal : List UInt8 → Option StateFile) (entries : List WalkEntry) :
    List StateFile :=
  entries.filterMap (fun entry =>
    if entry.info.IsDir then none
    else if Ext entry.path ≠ ".tfstate".toList then none
    else
      match entry.contents with
      | none => none
      | some data =>
        match unmarshal data with
        | none => none
        | some parsed => some { parsed with FileInfo := entry.info })

/-! ## Concrete inputs for the instances below -/

/-- A snapshot with the given file name, serial and resource types. -/
def snapshot (name : String) (serial : Int) (types : List String) : StateFile :=
  { Version := 4, TerraformVersion := "1.5.0", Serial := serial, Lineage := "lineage",
    Resources := types.map (fun t => ⟨"managed", t, "this", "aws"⟩),
    FileInfo := ⟨name.toList, false⟩, Values := none }

/-- Five snapshots with 5, 5, 8, 8 and 3 resources. -/
def exampleCounts : List StateFile :=
  [snapshot "s-1.tfstate" 1 (List.replicate 5 "a"),
   snapshot "s-2.tfstate" 2 (List.replicate 5 "a"),
   snapshot "s-3.tfstate" 3 (List.replicate 8 "a"),
   snapshot "s-4.tfstate" 4 (List.replicate 8 "a"),
   snapshot "s-5.tfstate" 5 (List.replicate 3 "a")]

/-- The changes of the resource count reported in a block. -/
def changesOf (block : List Line) : List Int :=
  block.filterMap (fun l =>
    match l with
    | Line.change d => some d
    | _ => none)

/-- The type changes reported in a block. -/
def typeChangesOf (block : List Line) : List (String × Int × Int) :=
  block.filterMap (fun l =>
    match l with
    | Line.typeChange t c p => some (t, c, p)
    | _ => none)

/-- The elapsed times reported in a block. -/
def elapsedOf (block : List Line) : List Int :=
  block.filterMap (fun l =>
    match l with
    | Line.timeDelta d => some d
    | _ => none)

/-- A stand-in for `json.Unmarshal` in the instances: a blob of two bytes
decodes to a snapshot whose serial is the first byte and whose lineage is `"a"`
when the second byte is zero and `"b"` otherwise; any other blob is a parse
error. -/
def exampleUnmarshal (data : List UInt8) : Option StateFile :=
  match data with
  | [serial, tag] =>
    some { Version := 4, TerraformVersion := "1.5.0", Serial := (serial.toNat : Int),
           Lineage := if tag = 0 then "a" else "b", Resources := [],
           FileInfo := ⟨[], false⟩, Values := none }
  | _ => none

/-- A walk entry for a regular file with the given path, base name and
contents. -/
def fileEntry (path name : String) (data : List UInt8) : WalkEntry :=
  ⟨path.toList, false, ⟨name.toList, false⟩, some data⟩

/-- Three files of two lineages, as the walk visits them. -/
def exampleEntries : List WalkEntry :=
  [fileEntry "d/x-1.tfstate" "x-1.tfstate" [1, 0],
   fileEntry "d/y-1.tfstate" "y-1.tfstate" [1, 1],
   fileEntry "d/x-2.tfstate" "x-2.tfstate" [2, 0]]

/-- The lineage map the walk builds from `exampleEntries`. -/
def exampleLineageMap : List (String × List StateFile) :=
  [("a", [{ (snapshot "x-1.tfstate" 1 []) with Lineage := "a" },
          { (snapshot "x-2.tfstate" 2 []) with Lineage := "a" }]),
   ("b", [{ (snapshot "y-1.tfstate" 1 []) with Lineage := "b" }])]

/-- An environment in which `.env` loads, `STATES_DIR` is `d`, and the walk
visits a valid file, a file that is not valid JSON, and a second valid file. -/
def exampleBadEnv : Env :=
  { dotenvOk := true, statesDir := "d",
    entries := [fileEntry "d/x-1.tfstate" "x-1.tfstate" [1, 0],
                fileEntry "d/x-2.tfstate" "x-2.tfstate" [],
                fileEntry "d/x-3.tfstate" "x-3.tfstate" [3, 0]],
    reportFileOk := true }

/-- Thirteen snapshots `f00` to `f12`, all of serial 0 except `f06`, of
serial 1. -/
def exampleTies : List StateFile :=
  [snapshot "f00" 0 [], snapshot "f01" 0 [], snapshot "f02" 0 [], snapshot "f03" 0 [],
   snapshot "f04" 0 [], snapshot "f05" 0 [], snapshot "f06" 1 [], snapshot "f07" 0 [],
   snapshot "f08" 0 [], snapshot "f09" 0 [], snapshot "f10" 0 [], snapshot "f11" 0 [],
   snapshot "f12" 0 []]

/-- The file names of a list of snapshots. -/
def fileNames (states : List StateFile) : List String :=
  states.map (fun s => String.mk s.FileInfo.Name)

/-! ## Vocabulary for the correctness of `sort.Slice` -/

section SortVocabulary
variable {α : Type}

/-- The sort key of the element at index `i` (0 beyond the end). -/
def keyAt (key : α → Int) (data : List α) (i : Nat) : Int :=
  match data[i]? with
  | some x => key x
  | none => 0

/-- The keys at the indices `a ≤ i < b` are in non-decreasing order. -/
def SortedOn (f : Nat → Int) (a b : Nat) : Prop :=
  ∀ i j, a ≤ i → i ≤ j → j < b → f i ≤ f j

/-- The second slice is obtained from the first by calls of `Swap` whose two
indices both lie in `a ≤ i < b`. -/
inductive SwapsIn (a b : Nat) : List α → List α → Prop where
  | refl (data : List α) : SwapsIn a b data data
  | step {data mid : List α} (i j : Nat) (h : SwapsIn a b data mid)
      (hi : a ≤ i ∧ i < b) (hj : a ≤ j ∧ j < b) : SwapsIn a b data (Swap mid i j)

end SortVocabulary

/-! # Theorems -/

/-! ## File names: lemmas -/

theorem afterLastHyphen_append_hyphen (xs : List Char) :
    afterLastHyphen (xs ++ ['-']) = [] := by
  simp [afterLastHyphen]

theorem afterLastHyphen_append_other (xs : List Char) (x : Char) (hx : x ≠ '-') :
    afterLastHyphen (xs ++ [x]) = afterLastHyphen xs ++ [x] := by
  simp [afterLastHyphen, List.takeWhile_cons, hx]

theorem lastIndexScan_spec (s : List Char) (c : Char) :
    ∀ n, n ≤ s.length →
      -1 ≤ lastIndexScan s c n ∧ lastIndexScan s c n < (n : Int) := by
  intro n
  induction n with
  | zero => intro _; simp [lastIndexScan]
  | succ n ih =>
    intro hn
    simp only [lastIndexScan]
    split
    · constructor <;> omega
    · have := ih (by omega)
      constructor <;> omega

theorem lastIndexScan_drop (s : List Char) :
    ∀ n, n ≤ s.length →
      (s.take n).drop (lastIndexScan s '-' n + 1).toNat = afterLastHyphen (s.take n) := by
  intro n
  induction n with
  | zero => intro _; simp [lastIndexScan, afterLastHyphen]
  | succ n ih =>
    intro hn
    have hlt : n < s.length := by omega
    have htake : s.take (n + 1) = s.take n ++ [s[n]] := by
      rw [List.take_succ]; simp [List.getElem?_eq_getElem hlt]
    simp only [lastIndexScan]
    split
    · rename_i h
      rw [List.getElem?_eq_getElem hlt] at h
      have hc : s[n] = '-' := by simpa using h
      rw [htake, hc, afterLastHyphen_append_hyphen]
      have : ((n : Int) + 1).toNat = n + 1 := by omega
      rw [this]
      simp
    · rename_i h
      rw [List.getElem?_eq_getElem hlt] at h
      have hc : s[n] ≠ '-' := by simpa using h
      have hb := lastIndexScan_spec s '-' n (by omega)
      have ih' := ih (by omega)
      rw [htake, afterLastHyphen_append_other _ _ hc, ← ih']
      rw [List.drop_append_of_le_length]
      simp
      omega

theorem LastIndex_bounds (s : List Char) (c : Char) :
    -1 ≤ LastIndex s c ∧ LastIndex s c < (s.length : Int) :=
  lastIndexScan_spec s c s.length (Nat.le_refl _)

theorem sliceFrom_LastIndex (s : List Char) :
    sliceFrom s (LastIndex s '-' + 1) = some (afterLastHyphen s) := by
  have hb := LastIndex_bounds s '-'
  have hd := lastIndexScan_drop s s.length (Nat.le_refl _)
  simp only [List.take_length] at hd
  unfold sliceFrom
  rw [if_pos (by constructor <;> omega)]
  simp only [LastIndex]
  rw [hd]

theorem timestampStr_eq (name : List Char) :
    timestampStr name = some (afterLastHyphen (TrimSuffix name (Ext name))) := by
  simp only [timestampStr]
  exact sliceFrom_LastIndex _

theorem extScan_append (xs ys : List Char) (hys : ∀ c ∈ ys, c ≠ '.' ∧ c ≠ '/') :
    ∀ k, k ≤ ys.length → extScan (xs ++ '.' :: ys) (xs.length + 1 + k) = '.' :: ys := by
  intro k
  induction k with
  | zero =>
    intro _
    have hget : (xs ++ '.' :: ys)[xs.length]? = some '.' := by
      rw [List.getElem?_append_right (Nat.le_refl _)]
      simp
    simp [extScan, isPathSeparator, hget]
  | succ k ih =>
    intro hk
    have hlt : k < ys.length := by omega
    have hget : (xs ++ '.' :: ys)[xs.length + 1 + k]? = some ys[k] := by
      rw [List.getElem?_append_right (by omega)]
      have : xs.length + 1 + k - xs.length = k + 1 := by omega
      rw [this]
      simp [List.getElem?_eq_getElem hlt]
    have hc := hys ys[k] (List.getElem_mem _)
    rw [show xs.length + 1 + (k + 1) = (xs.length + 1 + k) + 1 by omega]
    simp only [extScan, hget, isPathSeparator]
    simp [hc.1, hc.2]
    exact ih (by omega)

theorem Ext_append (xs ys : List Char) (hys : ∀ c ∈ ys, c ≠ '.' ∧ c ≠ '/') :
    Ext (xs ++ '.' :: ys) = '.' :: ys := by
  have := extScan_append xs ys hys ys.length (Nat.le_refl _)
  have hlen : (xs ++ '.' :: ys).length = xs.length + 1 + ys.length := by
    simp; omega
  rw [Ext, hlen]
  exact this

theorem TrimSuffix_append (xs suffix : List Char) :
    TrimSuffix (xs ++ suffix) suffix = xs := by
  simp [TrimSuffix, HasSuffix]

theorem afterLastHyphen_append (xs ys : List Char) (hys : ∀ c ∈ ys, c ≠ '-') :
    afterLastHyphen (xs ++ '-' :: ys) = ys := by
  simp only [afterLastHyphen, List.reverse_append, List.reverse_cons, List.append_assoc]
  rw [List.takeWhile_append_of_pos]
  · simp
  · intro c hc
    have := hys c (by simpa using hc)
    simpa using this

theorem afterLastHyphen_of_no_hyphen (s : List Char) (hs : ∀ c ∈ s, c ≠ '-') :
    afterLastHyphen s = s := by
  simp only [afterLastHyphen]
  rw [List.takeWhile_eq_self_iff.2]
  · simp
  · intro c hc
    have := hs c (by simpa using hc)
    simpa using this

theorem getnum_fixed {s rest : List Char} {n : Nat} (h : getnum s true = some (n, rest)) :
    ∃ c1 c2, s = c1 :: c2 :: rest ∧ isDigitChar c1 = true ∧ isDigitChar c2 = true := by
  match s, h with
  | [], h => simp [getnum, isDigit] at h
  | [c], h => simp [getnum, isDigit] at h
  | c1 :: c2 :: t, h =>
    simp only [getnum, isDigit, List.getElem?_cons_zero, List.getElem?_cons_succ] at h
    by_cases h1 : isDigitChar c1 = true <;> by_cases h2 : isDigitChar c2 = true <;>
      simp [h1, h2] at h
    exact ⟨c1, c2, by rw [h.2], h1, h2⟩

theorem getnum_free {s rest : List Char} {n : Nat} (h : getnum s false = some (n, rest)) :
    (∃ c1 c2, s = c1 :: c2 :: rest ∧ isDigitChar c1 = true ∧ isDigitChar c2 = true) ∨
      isDigit rest 0 = false := by
  match s, h with
  | [], h => simp [getnum, isDigit] at h
  | [c], h =>
    simp only [getnum, isDigit, List.getElem?_cons_zero, List.getElem?_cons_succ] at h
    by_cases h1 : isDigitChar c = true <;> simp [h1] at h
    right; rw [h.2]; simp [isDigit]
  | c1 :: c2 :: t, h =>
    simp only [getnum, isDigit, List.getElem?_cons_zero, List.getElem?_cons_succ] at h
    by_cases h1 : isDigitChar c1 = true <;> by_cases h2 : isDigitChar c2 = true <;>
      simp [h1, h2] at h
    · exact Or.inl ⟨c1, c2, by rw [h.2], h1, h2⟩
    · right; rw [← h.2]; simp [isDigit, h2]

theorem getnum_fixed_isDigit {s rest : List Char} {n : Nat}
    (h : getnum s true = some (n, rest)) : isDigit s 0 = true := by
  obtain ⟨c1, c2, rfl, h1, _⟩ := getnum_fixed h
  simp [isDigit, h1]

theorem skip_some {value rest : List Char} {lit : Char} (h : skip value lit = some rest) :
    value = lit :: rest := by
  match value, h with
  | [], h => simp [skip] at h
  | c :: t, h =>
    simp only [skip] at h
    by_cases hc : c = lit <;> simp [hc] at h
    rw [hc, h]

theorem atoi_four {value : List Char} {year : Nat} (hlen : ¬ value.length < 4)
    (h : atoi (value.take 4) = some year) :
    ∃ y1 y2 y3 y4 rest, value = y1 :: y2 :: y3 :: y4 :: rest ∧
      isDigitChar y1 = true ∧ isDigitChar y2 = true ∧ isDigitChar y3 = true ∧
      isDigitChar y4 = true := by
  match value, hlen, h with
  | [], hlen, _ => simp at hlen
  | [_], hlen, _ => simp at hlen
  | [_, _], hlen, _ => simp at hlen
  | [_, _, _], hlen, _ => simp at hlen
  | y1 :: y2 :: y3 :: y4 :: rest, _, h =>
    simp only [atoi, List.take_succ_cons, List.take_zero, List.foldl_cons, List.foldl_nil] at h
    by_cases h1 : isDigitChar y1 = true <;> by_cases h2 : isDigitChar y2 = true <;>
      by_cases h3 : isDigitChar y3 = true <;> by_cases h4 : isDigitChar y4 = true <;>
      simp [h1, h2, h3, h4] at h
    exact ⟨y1, y2, y3, y4, rest, rfl, h1, h2, h3, h4⟩

theorem drop_takeWhile_length {β : Type} (p : β → Bool) (l : List β) :
    l.drop (l.takeWhile p).length = l.dropWhile p := by
  induction l with
  | nil => rfl
  | cons x t ih =>
    by_cases hx : p x = true
    · simp [List.takeWhile_cons, List.dropWhile_cons, hx, ih]
    · simp [List.takeWhile_cons, List.dropWhile_cons, hx]

theorem parseFraction_some {value rest : List Char} {nsec : Nat}
    (h : parseFraction value = some (nsec, rest)) :
    rest = value ∨
      ∃ c f more, value = c :: f :: more ∧ commaOrPeriod c = true ∧ isDigitChar f = true ∧
        rest = more.dropWhile isDigitChar := by
  match value, h with
  | [], h => simp [parseFraction] at h; exact Or.inl h.2
  | [c], h => simp [parseFraction] at h; exact Or.inl h.2.symm
  | c :: f :: more, h =>
    simp only [parseFraction] at h
    by_cases hc : (commaOrPeriod c && isDigit (c :: f :: more) 1) = true
    · rw [if_pos hc] at h
      right
      simp only [Bool.and_eq_true, isDigit, List.getElem?_cons_succ, List.getElem?_cons_zero] at hc
      refine ⟨c, f, more, rfl, hc.1, hc.2, ?_⟩
      split at h
      · simp at h
      · simp only [Option.some.injEq, Prod.mk.injEq] at h
        rw [← h.2]
        simp only [fracLength, List.drop_succ_cons, List.drop_zero]
        rw [show 2 + (List.takeWhile isDigitChar more).length
          = (List.takeWhile isDigitChar more).length + 1 + 1 by omega]
        simp only [List.drop_succ_cons]
        exact drop_takeWhile_length _ _
    · rw [if_neg hc] at h
      simp at h
      exact Or.inl h.2.symm

theorem parseTimestamp_some_matches {value : List Char} {t : Time}
    (h : parseTimestamp value = some t) :
    matchesPattern value = true ∨ matchesPatternWithFraction value = true := by
  unfold parseTimestamp at h
  split at h
  · simp at h
  rename_i h0
  simp only [Bool.or_eq_true, decide_eq_true_eq, not_or] at h0
  split at h
  · simp at h
  rename_i year hyear
  obtain ⟨y1, y2, y3, y4, r0, rfl, hy1, hy2, hy3, hy4⟩ := atoi_four h0.1 hyear
  simp only [List.drop_succ_cons, List.drop_zero] at h
  split at h
  · simp at h
  rename_i month r1 hmonth
  obtain ⟨m1, m2, rfl, hm1, hm2⟩ := getnum_fixed hmonth
  split at h
  · simp at h
  split at h
  · simp at h
  rename_i day r2 hday
  obtain ⟨d1, d2, rfl, hd1, hd2⟩ := getnum_fixed hday
  split at h
  · simp at h
  rename_i r3 hT
  have hT' := skip_some hT
  subst hT'
  split at h
  · simp at h
  rename_i hour r4 hhour
  split at h
  · simp at h
  split at h
  · simp at h
  rename_i minute r5 hmin
  rcases getnum_free hhour with ⟨h1, h2, rfl, hh1, hh2⟩ | hbad
  swap
  · rw [getnum_fixed_isDigit hmin] at hbad
    simp at hbad
  obtain ⟨n1, n2, rfl, hn1, hn2⟩ := getnum_fixed hmin
  split at h
  · simp at h
  split at h
  · simp at h
  rename_i sec r6 hsec
  obtain ⟨s1, s2, rfl, hs1, hs2⟩ := getnum_fixed hsec
  split at h
  · simp at h
  split at h
  · simp at h
  rename_i nsec r7 hfrac
  split at h
  · simp at h
  rename_i r8 hZ
  have hZ' := skip_some hZ
  subst hZ'
  split at h
  · simp at h
  rename_i hr8
  simp only [ne_eq, Decidable.not_not] at hr8
  subst hr8
  rcases parseFraction_some hfrac with hsame | ⟨c, f, more, rfl, hc, hf, hrest⟩
  · left
    subst hsame
    simp [matchesPattern, hy1, hy2, hy3, hy4, hm1, hm2, hd1, hd2, hh1, hh2, hn1, hn2, hs1, hs2]
  · right
    simp [matchesPatternWithFraction, hy1, hy2, hy3, hy4, hm1, hm2, hd1, hd2, hh1, hh2,
      hn1, hn2, hs1, hs2, hc, hf, ← hrest]

/-! ## Maps: lemmas -/

section GoMapLemmas
variable {V : Type}

theorem mapGet_mapSet (m : List (String × V)) (k k' : String) (v : V) :
    mapGet (mapSet m k v) k' = if k = k' then some v else mapGet m k' := by
  induction m with
  | nil =>
    by_cases h : k = k' <;> simp [mapSet, mapGet, h]
  | cons p rest ih =>
    obtain ⟨k0, v0⟩ := p
    by_cases h0 : k0 = k
    · subst h0
      by_cases h : k0 = k' <;> simp [mapSet, mapGet, h]
    · by_cases h : k = k'
      · subst h
        simp [mapSet, mapGet, h0, ih]
      · have h' : ¬ k' = k := fun e => h e.symm
        by_cases h1 : k0 = k'
        · subst h1; simp [mapSet, mapGet, h', h]
        · simp [mapSet, mapGet, h0, h1, ih, h]

theorem mapSet_keys (m : List (String × V)) (k : String) (v : V) :
    ∀ k', k' ∈ (mapSet m k v).map Prod.fst ↔ k' = k ∨ k' ∈ m.map Prod.fst := by
  induction m with
  | nil => intro k'; simp [mapSet]
  | cons p rest ih =>
    obtain ⟨k0, v0⟩ := p
    intro k'
    by_cases h0 : k0 = k
    · subst h0; simp [mapSet]
    · simp only [mapSet, h0, if_false, List.map_cons, List.mem_cons, ih k']
      tauto

theorem mapSet_nodup (m : List (String × V)) (k : String) (v : V)
    (h : (m.map Prod.fst).Nodup) : ((mapSet m k v).map Prod.fst).Nodup := by
  induction m with
  | nil => simp [mapSet]
  | cons p rest ih =>
    obtain ⟨k0, v0⟩ := p
    simp only [List.map_cons, List.nodup_cons] at h
    by_cases h0 : k0 = k
    · subst h0; simpa [mapSet] using h
    · simp only [mapSet, h0, if_false, List.map_cons, List.nodup_cons]
      refine ⟨?_, ih h.2⟩
      intro hmem
      rcases (mapSet_keys rest k v k0).1 hmem with h1 | h1
      · exact h0 h1
      · exact h.1 h1

theorem mem_iff_mapGet (m : List (String × V)) (h : (m.map Prod.fst).Nodup) (k : String)
    (v : V) : (k, v) ∈ m ↔ mapGet m k = some v := by
  induction m with
  | nil => simp [mapGet]
  | cons p rest ih =>
    obtain ⟨k0, v0⟩ := p
    simp only [List.map_cons, List.nodup_cons] at h
    by_cases h0 : k0 = k
    · subst h0
      simp only [List.mem_cons, Prod.mk.injEq, true_and, mapGet, if_true, Option.some.injEq]
      constructor
      · rintro (h1 | h1)
        · exact h1.symm
        · exact absurd (List.mem_map_of_mem Prod.fst h1) h.1
      · intro h1; exact Or.inl h1.symm
    · simp only [List.mem_cons, Prod.mk.injEq, mapGet, h0, if_false, ih h.2]
      constructor
      · rintro (h1 | h1)
        · exact absurd h1.1.symm h0
        · exact h1
      · intro h1; exact Or.inr h1

end GoMapLemmas

/-! ## Counting resource types: lemmas -/

theorem typeCount_nil (t : String) : typeCount [] t = 0 := by simp [typeCount]

theorem typeCount_cons (r : Resource) (rs : List Resource) (t : String) :
    typeCount (r :: rs) t = (if r.Typ = t then 1 else 0) + typeCount rs t := by
  by_cases h : r.Typ = t <;> simp [typeCount, List.filter_cons, h]
  omega

theorem typeCount_nonneg (rs : List Resource) (t : String) : 0 ≤ typeCount rs t := by
  simp [typeCount]

theorem countFold_get (rs : List Resource) :
    ∀ (m : List (String × Int)) (t : String),
      mapGet (rs.foldl (fun m r => mapSet m r.Typ ((mapGet m r.Typ).getD 0 + 1)) m) t
        = if typeCount rs t = 0 then mapGet m t
          else some ((mapGet m t).getD 0 + typeCount rs t) := by
  induction rs with
  | nil => intro m t; simp [typeCount]
  | cons r rs ih =>
    intro m t
    rw [List.foldl_cons, ih, typeCount_cons, mapGet_mapSet]
    have hnn := typeCount_nonneg rs t
    by_cases hr : r.Typ = t
    · subst hr
      simp only [if_true]
      by_cases h0 : typeCount rs r.Typ = 0
      · simp [h0]
      · rw [if_neg h0, if_neg (by omega)]
        simp only [Option.getD_some, Option.some.injEq]
        omega
    · simp only [hr, if_false, Int.zero_add]

theorem countFold_nodup (rs : List Resource) :
    ∀ (m : List (String × Int)), (m.map Prod.fst).Nodup →
      ((rs.foldl (fun m r => mapSet m r.Typ ((mapGet m r.Typ).getD 0 + 1)) m).map
        Prod.fst).Nodup := by
  induction rs with
  | nil => intro m h; simpa using h
  | cons r rs ih =>
    intro m h
    rw [List.foldl_cons]
    exact ih _ (mapSet_nodup m _ _ h)

theorem countTypes_get (rs : List Resource) (t : String) :
    mapGet (countTypes rs) t = if typeCount rs t = 0 then none else some (typeCount rs t) := by
  rw [countTypes, countFold_get]
  simp [mapGet]

theorem countTypes_nodup (rs : List Resource) : ((countTypes rs).map Prod.fst).Nodup :=
  countFold_nodup rs [] (by simp)

theorem mem_countTypes (rs : List Resource) (t : String) (c : Int) :
    (t, c) ∈ countTypes rs ↔ c = typeCount rs t ∧ typeCount rs t ≠ 0 := by
  rw [mem_iff_mapGet _ (countTypes_nodup rs), countTypes_get]
  by_cases h : typeCount rs t = 0
  · simp [h]
  · simp [h]; exact eq_comm

theorem mem_typeChangeLines (cur prev : List Resource) (t : String) (c p : Int) :
    Line.typeChange t c p ∈ typeChangeLines (countTypes cur) (countTypes prev) ↔
      c = typeCount cur t ∧ p = typeCount prev t ∧ typeCount cur t ≠ 0 ∧ c ≠ p := by
  simp only [typeChangeLines, List.mem_filterMap]
  constructor
  · rintro ⟨⟨t', c'⟩, hmem, hline⟩
    rw [mem_countTypes] at hmem
    simp only [countTypes_get] at hline
    by_cases hp : typeCount prev t' = 0
    · simp [hp] at hline
      obtain ⟨rfl, rfl, rfl⟩ := hline
      refine ⟨hmem.1, hp.symm, hmem.2, ?_⟩
      rw [hmem.1]; exact hmem.2
    · simp [hp] at hline
      obtain ⟨hne, rfl, rfl, rfl⟩ := hline
      refine ⟨hmem.1, rfl, hmem.2, fun h => hne h.symm⟩
  · rintro ⟨hc, hp, hne0, hcp⟩
    refine ⟨(t, c), (mem_countTypes cur t c).2 ⟨hc, hne0⟩, ?_⟩
    simp only [countTypes_get]
    by_cases hp0 : typeCount prev t = 0
    · simp [hp0, hp]
    · simp [hp0, hp]
      rw [← hp]; exact fun h => hcp h.symm

/-! ## The loop over one lineage: lemmas -/

theorem capturedAt_eq (state : StateFile) :
    capturedAt state
      = parseTimestamp (afterLastHyphen (TrimSuffix state.FileInfo.Name (Ext state.FileInfo.Name))) := by
  simp [capturedAt, timestampStr_eq]

theorem loopBody_eq (vars : LoopVars) (i : Nat) (state : StateFile) :
    loopBody vars i state = some
      ([Line.file state.FileInfo.Name, Line.serial state.Serial, Line.lineage state.Lineage]
        ++ (match capturedAt state with
            | some timestamp => [Line.timestamp timestamp] ++
                (if !vars.prevTimestamp.IsZero
                  then [Line.timeDelta (timestamp.Sub vars.prevTimestamp)] else [])
            | none => [Line.timestampError])
        ++ (match callerIdentity state.Values with
            | some userId => [Line.callerId userId]
            | none => [])
        ++ [Line.resourceCount (state.Resources.length : Int)]
        ++ changeLines i vars (state.Resources.length : Int) (countTypes state.Resources)
        ++ [Line.separator],
       ⟨(state.Resources.length : Int), countTypes state.Resources,
        (capturedAt state).getD vars.prevTimestamp⟩) := by
  rw [capturedAt_eq]
  simp only [loopBody, timestampStr_eq, timestampLines]
  cases parseTimestamp (afterLastHyphen (TrimSuffix state.FileInfo.Name (Ext state.FileInfo.Name)))
    <;> rfl

theorem varsAfter_cons (vars : LoopVars) (state : StateFile) (rest : List StateFile) :
    varsAfter vars (state :: rest)
      = varsAfter ⟨(state.Resources.length : Int), countTypes state.Resources,
          (capturedAt state).getD vars.prevTimestamp⟩ rest := by
  simp [varsAfter, loopBody_eq]

theorem varsAfter_snoc (state : StateFile) :
    ∀ (l : List StateFile) (vars : LoopVars),
      varsAfter vars (l ++ [state])
        = ⟨(state.Resources.length : Int), countTypes state.Resources,
            (capturedAt state).getD (varsAfter vars l).prevTimestamp⟩ := by
  intro l
  induction l with
  | nil => intro vars; simp [varsAfter, loopBody_eq]
  | cons s l ih => intro vars; simp only [List.cons_append, varsAfter_cons, ih]

theorem getLast?_cons_getD {β : Type} (x : β) (xs : List β) (d : β) :
    ((x :: xs).getLast?).getD d = (xs.getLast?).getD x := by
  cases xs with
  | nil => simp
  | cons y ys =>
    rw [List.getLast?_cons_cons, List.getLast?_eq_getLast _ (List.cons_ne_nil y ys)]
    simp

theorem varsAfter_prevTimestamp :
    ∀ (l : List StateFile) (vars : LoopVars),
      (varsAfter vars l).prevTimestamp = (lastCaptured l).getD vars.prevTimestamp := by
  intro l
  induction l with
  | nil => intro vars; simp [varsAfter, lastCaptured]
  | cons s l ih =>
    intro vars
    rw [varsAfter_cons, ih]
    simp only [lastCaptured, List.filterMap_cons]
    cases h : capturedAt s with
    | none => simp
    | some t => simp only [Option.getD_some]; rw [getLast?_cons_getD]

theorem diffLoop_spec :
    ∀ (states : List StateFile) (vars : LoopVars) (i : Nat),
      ∃ blocks, diffLoop vars i states = some blocks ∧ blocks.length = states.length ∧
        ∀ k state block, states[k]? = some state → blocks[k]? = some block →
          ∃ vars', loopBody (varsAfter vars (states.take k)) (i + k) state = some (block, vars') := by
  intro states
  induction states with
  | nil => intro vars i; exact ⟨[], rfl, rfl, by simp⟩
  | cons s rest ih =>
    intro vars i
    obtain ⟨blocks, hb, hlen, hk⟩ := ih ⟨(s.Resources.length : Int), countTypes s.Resources,
      (capturedAt s).getD vars.prevTimestamp⟩ (i + 1)
    obtain ⟨b, hbody⟩ : ∃ b, loopBody vars i s = some (b, ⟨(s.Resources.length : Int),
        countTypes s.Resources, (capturedAt s).getD vars.prevTimestamp⟩) :=
      ⟨_, loopBody_eq vars i s⟩
    refine ⟨b :: blocks, ?_, by simp [hlen], ?_⟩
    · simp only [diffLoop, hbody, hb]
    · intro k state block hs hblock
      cases k with
      | zero =>
        simp only [List.getElem?_cons_zero, Option.some.injEq] at hs hblock
        subst hs
        subst hblock
        exact ⟨_, by simp only [List.take_zero, varsAfter, Nat.add_zero]; exact hbody⟩
      | succ k =>
        simp only [List.getElem?_cons_succ] at hs hblock
        obtain ⟨vars', hv⟩ := hk k state block hs hblock
        refine ⟨vars', ?_⟩
        rw [List.take_succ_cons, varsAfter_cons]
        rw [show i + (k + 1) = i + 1 + k by omega]
        exact hv

theorem diff_spec (states : List StateFile) :
    ∃ blocks, diff states = some blocks ∧ blocks.length = states.length ∧
      ∀ k state block, states[k]? = some state → blocks[k]? = some block →
        ∃ vars', loopBody (varsAfter LoopVars.init (states.take k)) k state
          = some (block, vars') := by
  obtain ⟨blocks, hb, hlen, hk⟩ := diffLoop_spec states LoopVars.init 0
  refine ⟨blocks, hb, hlen, ?_⟩
  intro k state block hs hblock
  simpa using hk k state block hs hblock

theorem take_succ_of_getElem? {β : Type} (l : List β) (k : Nat) (x : β) (h : l[k]? = some x) :
    l.take (k + 1) = l.take k ++ [x] := by
  rw [List.take_succ, h]; rfl

theorem typeChangeLines_shape (a b : List (String × Int)) (l : Line)
    (h : l ∈ typeChangeLines a b) : ∃ t c p, l = Line.typeChange t c p := by
  simp only [typeChangeLines, List.mem_filterMap] at h
  obtain ⟨e, _, he⟩ := h
  split at he
  · simp only [Option.some.injEq] at he
    exact ⟨_, _, _, he.symm⟩
  · simp at he

theorem changeLines_mem_change (i : Nat) (vars : LoopVars) (cnt : Int)
    (types : List (String × Int)) (d : Int) :
    Line.change d ∈ changeLines i vars cnt types ↔
      0 < i ∧ d = cnt - vars.prevCount ∧ d ≠ 0 := by
  unfold changeLines
  by_cases hi : i > 0
  · by_cases hd : cnt - vars.prevCount ≠ 0
    · simp only [hi, if_true, hd, ne_eq, not_false_eq_true, List.mem_append, List.mem_cons,
        Line.change.injEq, List.mem_singleton, false_or, or_false, true_and, reduceCtorEq,
        List.not_mem_nil]
      constructor
      · rintro (h | h)
        · exact ⟨h, by rw [h]; exact hd⟩
        · obtain ⟨t, c, p, hl⟩ := typeChangeLines_shape _ _ _ h
          cases hl
      · rintro ⟨h, _⟩; exact Or.inl h
    · simp only [hi, if_true, hd, if_false, List.not_mem_nil, true_and, false_iff, not_and]
      intro h; rw [h]; exact hd
  · simp [hi]

theorem changeLines_mem_typeChange (i : Nat) (vars : LoopVars) (cnt : Int)
    (types : List (String × Int)) (t : String) (c p : Int) :
    Line.typeChange t c p ∈ changeLines i vars cnt types ↔
      0 < i ∧ cnt - vars.prevCount ≠ 0 ∧
        Line.typeChange t c p ∈ typeChangeLines types vars.prevResourceTypes := by
  unfold changeLines
  by_cases hi : i > 0
  · by_cases hd : cnt - vars.prevCount ≠ 0
    · simp [hi, hd]
    · simp [hi, hd]
  · simp [hi]

theorem changeLines_zero (vars : LoopVars) (cnt : Int) (types : List (String × Int)) :
    changeLines 0 vars cnt types = [] := by
  simp [changeLines]

theorem changeLines_cases (i : Nat) (vars : LoopVars) (cnt : Int)
    (types : List (String × Int)) (l : Line) (h : l ∈ changeLines i vars cnt types) :
    (∃ d, l = Line.change d) ∨ l = Line.typeChangesHeader ∨ ∃ t c p, l = Line.typeChange t c p := by
  unfold changeLines at h
  split at h
  · dsimp only at h
    split at h
    · simp only [List.mem_append, List.mem_cons, List.mem_singleton, List.not_mem_nil,
        or_false] at h
      rcases h with (h | h) | h
      · exact Or.inl ⟨_, h⟩
      · exact Or.inr (Or.inl h)
      · exact Or.inr (Or.inr (typeChangeLines_shape _ _ _ h))
    · simp at h
  · simp at h

theorem changeLines_shape (i : Nat) (vars : LoopVars) (cnt : Int)
    (types : List (String × Int)) (l : Line) (h : l ∈ changeLines i vars cnt types) :
    l.isDelta = true := by
  rcases changeLines_cases i vars cnt types l h with ⟨d, rfl⟩ | rfl | ⟨t, c, p, rfl⟩ <;> rfl

theorem loopBody_mem_change {vars : LoopVars} {i : Nat} {state : StateFile} {block : List Line}
    {vars' : LoopVars} (h : loopBody vars i state = some (block, vars')) (d : Int) :
    Line.change d ∈ block ↔
      0 < i ∧ d = (state.Resources.length : Int) - vars.prevCount ∧ d ≠ 0 := by
  rw [loopBody_eq] at h
  simp only [Option.some.injEq, Prod.mk.injEq] at h
  rw [← h.1, ← changeLines_mem_change i vars _ (countTypes state.Resources)]
  cases capturedAt state <;> cases callerIdentity state.Values <;> simp

theorem loopBody_mem_typeChange {vars : LoopVars} {i : Nat} {state : StateFile}
    {block : List Line} {vars' : LoopVars} (h : loopBody vars i state = some (block, vars'))
    (t : String) (c p : Int) :
    Line.typeChange t c p ∈ block ↔
      0 < i ∧ (state.Resources.length : Int) - vars.prevCount ≠ 0 ∧
        Line.typeChange t c p ∈ typeChangeLines (countTypes state.Resources)
          vars.prevResourceTypes := by
  rw [loopBody_eq] at h
  simp only [Option.some.injEq, Prod.mk.injEq] at h
  rw [← h.1, ← changeLines_mem_typeChange i vars _ (countTypes state.Resources)]
  cases capturedAt state <;> cases callerIdentity state.Values <;> simp

theorem loopBody_mem_timeDelta {vars : LoopVars} {i : Nat} {state : StateFile}
    {block : List Line} {vars' : LoopVars} (h : loopBody vars i state = some (block, vars'))
    (d : Int) :
    Line.timeDelta d ∈ block ↔
      ∃ t, capturedAt state = some t ∧ vars.prevTimestamp.IsZero = false ∧
        d = t.Sub vars.prevTimestamp := by
  rw [loopBody_eq] at h
  simp only [Option.some.injEq, Prod.mk.injEq] at h
  rw [← h.1]
  have hch : Line.timeDelta d ∉ changeLines i vars (state.Resources.length : Int)
      (countTypes state.Resources) := by
    intro hm
    rcases changeLines_cases _ _ _ _ _ hm with ⟨_, hl⟩ | hl | ⟨_, _, _, hl⟩ <;> cases hl
  cases hc : capturedAt state <;> cases callerIdentity state.Values <;>
    cases hz : vars.prevTimestamp.IsZero <;> simp [hch, hz]

theorem loopBody_mem_callerId {vars : LoopVars} {i : Nat} {state : StateFile}
    {block : List Line} {vars' : LoopVars} (h : loopBody vars i state = some (block, vars'))
    (u : String) :
    Line.callerId u ∈ block ↔ callerIdentity state.Values = some u := by
  rw [loopBody_eq] at h
  simp only [Option.some.injEq, Prod.mk.injEq] at h
  rw [← h.1]
  have hch : Line.callerId u ∉ changeLines i vars (state.Resources.length : Int)
      (countTypes state.Resources) := by
    intro hm
    rcases changeLines_cases _ _ _ _ _ hm with ⟨_, hl⟩ | hl | ⟨_, _, _, hl⟩ <;> cases hl
  cases hc : capturedAt state <;> cases callerIdentity state.Values <;>
    cases hz : vars.prevTimestamp.IsZero <;> simp [hch, hz, eq_comm]


/-! ## `sort.Slice`: swaps and keys -/

section SortLemmas
variable {α : Type}

theorem Swap_length (data : List α) (i j : Nat) : (Swap data i j).length = data.length := by
  unfold Swap
  split <;> simp

theorem Swap_eq (data : List α) (i j : Nat) (hi : i < data.length) (hj : j < data.length) :
    Swap data i j = (data.set i data[j]).set j data[i] := by
  simp [Swap, List.getElem?_eq_getElem hi, List.getElem?_eq_getElem hj]

theorem Swap_of_not_lt (data : List α) (i j : Nat) (h : ¬ (i < data.length ∧ j < data.length)) :
    Swap data i j = data := by
  unfold Swap
  split
  · rename_i x y hx hy
    exact absurd ⟨(List.getElem?_eq_some_iff.1 hx).1, (List.getElem?_eq_some_iff.1 hy).1⟩ h
  · rfl

theorem Swap_perm (data : List α) (i j : Nat) : (Swap data i j).Perm data := by
  classical
  by_cases h : i < data.length ∧ j < data.length
  · obtain ⟨hi, hj⟩ := h
    rw [Swap_eq data i j hi hj, List.perm_iff_count]
    intro z
    have hj' : j < (data.set i data[j]).length := by simpa using hj
    rw [List.count_set _ _ _ _ hj', List.count_set _ _ _ _ hi]
    have hget : (data.set i data[j])[j] = data[j] := by
      rw [List.getElem_set]
      split
      · rfl
      · rfl
    rw [hget]
    have hpos : data[i] = z → 1 ≤ List.count z data := by
      intro hz
      rw [← hz]
      exact List.count_pos_iff.2 (List.getElem_mem _)
    by_cases h1 : data[i] = z <;> by_cases h2 : data[j] = z <;> simp [h1, h2]
    · have := hpos h1; omega
    · have := hpos h1; omega
  · rw [Swap_of_not_lt data i j h]

theorem keyAt_of_lt (key : α → Int) (data : List α) (i : Nat) (h : i < data.length) :
    keyAt key data i = key data[i] := by
  simp [keyAt, List.getElem?_eq_getElem h]

theorem keyAt_Swap (key : α → Int) (data : List α) (i j k : Nat)
    (hi : i < data.length) (hj : j < data.length) :
    keyAt key (Swap data i j) k =
      if k = j then keyAt key data i else if k = i then keyAt key data j else keyAt key data k := by
  rw [Swap_eq data i j hi hj]
  simp only [keyAt, List.getElem?_set]
  by_cases hkj : k = j
  · subst hkj
    simp [List.getElem?_eq_getElem hi, hi, hj]
  · by_cases hki : k = i
    · subst hki
      simp [hkj, Ne.symm hkj, List.getElem?_eq_getElem hj, hi]
    · simp [hkj, hki, Ne.symm hkj, Ne.symm hki]

theorem Less_eq (key : α → Int) (less : α → α → Bool)
    (hless : ∀ x y, less x y = decide (key x < key y)) (data : List α) (i j : Nat)
    (hi : i < data.length) (hj : j < data.length) :
    Less less data i j = decide (keyAt key data i < keyAt key data j) := by
  simp [Less, keyAt, List.getElem?_eq_getElem hi, List.getElem?_eq_getElem hj, hless]

/-! ### Swaps within a range -/

theorem SwapsIn.length_eq {a b : Nat} {data out : List α} (h : SwapsIn a b data out) :
    out.length = data.length := by
  induction h with
  | refl => rfl
  | step i j _ _ _ ih => rw [Swap_length, ih]

theorem SwapsIn.perm {a b : Nat} {data out : List α} (h : SwapsIn a b data out) :
    out.Perm data := by
  induction h with
  | refl => exact List.Perm.refl _
  | step i j _ _ _ ih => exact (Swap_perm _ i j).trans ih

theorem SwapsIn.trans {a b : Nat} {d1 d2 d3 : List α} (h1 : SwapsIn a b d1 d2)
    (h2 : SwapsIn a b d2 d3) : SwapsIn a b d1 d3 := by
  induction h2 with
  | refl => exact h1
  | step i j _ hi hj ih => exact SwapsIn.step i j ih hi hj

theorem SwapsIn.mono {a b a' b' : Nat} {data out : List α} (h : SwapsIn a b data out)
    (ha : a' ≤ a) (hb : b ≤ b') : SwapsIn a' b' data out := by
  induction h with
  | refl => exact SwapsIn.refl _
  | step i j _ hi hj ih => exact SwapsIn.step i j ih ⟨by omega, by omega⟩ ⟨by omega, by omega⟩

theorem SwapsIn.swap {a b : Nat} (data : List α) (i j : Nat) (hi : a ≤ i ∧ i < b)
    (hj : a ≤ j ∧ j < b) : SwapsIn a b data (Swap data i j) :=
  SwapsIn.step i j (SwapsIn.refl data) hi hj

theorem SwapsIn.keyAt_outside (key : α → Int) {a b : Nat} {data out : List α}
    (h : SwapsIn a b data out) (k : Nat) (hk : k < a ∨ b ≤ k) :
    keyAt key out k = keyAt key data k := by
  induction h with
  | refl => rfl
  | @step mid i j hs hi hj ih =>
    by_cases hlen : i < mid.length ∧ j < mid.length
    · rw [keyAt_Swap key mid i j k hlen.1 hlen.2, if_neg (by omega), if_neg (by omega), ih]
    · rw [Swap_of_not_lt mid i j hlen, ih]

theorem SwapsIn.forall_range (key : α → Int) {a b : Nat} {data out : List α}
    (h : SwapsIn a b data out) (P : Int → Prop)
    (hP : ∀ k, a ≤ k → k < b → P (keyAt key data k)) :
    ∀ k, a ≤ k → k < b → P (keyAt key out k) := by
  induction h with
  | refl => exact hP
  | @step mid i j hs hi hj ih =>
    intro k hak hkb
    by_cases hlen : i < mid.length ∧ j < mid.length
    · rw [keyAt_Swap key mid i j k hlen.1 hlen.2]
      split
      · exact ih i hi.1 hi.2
      · split
        · exact ih j hj.1 hj.2
        · exact ih k hak hkb
    · rw [Swap_of_not_lt mid i j hlen]
      exact ih k hak hkb

theorem pairwise_of_SortedOn (key : α → Int) (data : List α)
    (h : SortedOn (keyAt key data) 0 data.length) :
    data.Pairwise (fun x y => key x ≤ key y) := by
  rw [List.pairwise_iff_getElem]
  intro i j hi hj hij
  have := h i j (Nat.zero_le _) (Nat.le_of_lt hij) hj
  rwa [keyAt_of_lt key data i hi, keyAt_of_lt key data j hj] at this

end SortLemmas

section InsertionSort
variable {α : Type} (key : α → Int) (less : α → α → Bool)

theorem insertionInner_spec (hless : ∀ x y, less x y = decide (key x < key y)) (a i : Nat) :
    ∀ (j : Nat) (data : List α), a ≤ j → j ≤ i → i < data.length →
      (∀ p q, a ≤ p → p < q → q ≤ i → p ≠ j → q ≠ j → keyAt key data p ≤ keyAt key data q) →
      (∀ q, j < q → q ≤ i → keyAt key data j ≤ keyAt key data q) →
      SwapsIn a (i + 1) data (insertionInner less a data j) ∧
        SortedOn (keyAt key (insertionInner less a data j)) a (i + 1) := by
  intro j
  induction j with
  | zero =>
    intro data ha _ _ h1 h2
    refine ⟨SwapsIn.refl _, ?_⟩
    intro p q hp hpq hq
    simp only [insertionInner]
    by_cases hpq' : p = q
    · subst hpq'; exact le_refl _
    · by_cases hp0 : p = 0
      · subst hp0; exact h2 q (by omega) (by omega)
      · exact h1 p q hp (by omega) (by omega) hp0 (by omega)
  | succ j ih =>
    intro data ha hji hlen h1 h2
    simp only [insertionInner]
    have hj1 : j + 1 < data.length := by omega
    have hj0 : j < data.length := by omega
    by_cases hcond : (decide (j + 1 > a) && Less less data (j + 1) j) = true
    · rw [if_pos hcond]
      simp only [Bool.and_eq_true, decide_eq_true_eq] at hcond
      obtain ⟨hja, hlt⟩ := hcond
      rw [Less_eq key less hless data (j + 1) j hj1 hj0] at hlt
      simp only [decide_eq_true_eq] at hlt
      have hK : ∀ k, keyAt key (Swap data (j + 1) j) k =
          if k = j then keyAt key data (j + 1) else if k = j + 1 then keyAt key data j
          else keyAt key data k := fun k => keyAt_Swap key data (j + 1) j k hj1 hj0
      have := ih (Swap data (j + 1) j) (by omega) (by omega) (by rw [Swap_length]; exact hlen)
        (by
          intro p q hp hpq hq hpj hqj
          rw [hK p, hK q]
          simp only [hpj, hqj, if_false]
          by_cases hq1 : q = j + 1
          · subst hq1
            simp only [if_true]
            by_cases hp1 : p = j + 1
            · omega
            · simp only [hp1, if_false]
              exact h1 p j hp (by omega) (by omega) (by omega) (by omega)
          · simp only [hq1, if_false]
            by_cases hp1 : p = j + 1
            · subst hp1
              simp only [if_true]
              exact h1 j q (by omega) (by omega) hq (by omega) (by omega)
            · simp only [hp1, if_false]
              exact h1 p q hp hpq hq (by omega) (by omega))
        (by
          intro q hjq hq
          rw [hK j, hK q]
          simp only [if_true]
          have hqj : q ≠ j := by omega
          simp only [hqj, if_false]
          by_cases hq1 : q = j + 1
          · simp only [hq1, if_true]; omega
          · simp only [hq1, if_false]
            exact h2 q (by omega) hq)
      exact ⟨(SwapsIn.swap data (j + 1) j ⟨by omega, by omega⟩ ⟨by omega, by omega⟩).trans this.1,
        this.2⟩
    · rw [if_neg hcond]
      refine ⟨SwapsIn.refl _, ?_⟩
      simp only [Bool.and_eq_true, decide_eq_true_eq, not_and] at hcond
      intro p q hp hpq hq
      by_cases hpq' : p = q
      · subst hpq'; exact le_refl _
      by_cases hpj : p = j + 1
      · subst hpj; exact h2 q (by omega) (by omega)
      by_cases hqj : q = j + 1
      · subst hqj
        have hja : j + 1 > a := by omega
        have hnl := hcond hja
        rw [Less_eq key less hless data (j + 1) j hj1 hj0] at hnl
        simp only [decide_eq_true_eq, not_lt] at hnl
        by_cases hpj' : p = j
        · subst hpj'; exact hnl
        · exact le_trans (h1 p j hp (by omega) (by omega) (by omega) (by omega)) hnl
      · exact h1 p q hp (by omega) (by omega) hpj hqj

theorem insertionOuter_spec (hless : ∀ x y, less x y = decide (key x < key y)) (a b : Nat) :
    ∀ (n i : Nat) (data : List α), a < i → i + n = b → b ≤ data.length →
      SortedOn (keyAt key data) a i →
      SwapsIn a b data (insertionOuter less a data i n) ∧
        SortedOn (keyAt key (insertionOuter less a data i n)) a b := by
  intro n
  induction n with
  | zero =>
    intro i data _ hib _ hs
    simp only [insertionOuter]
    have : i = b := by omega
    subst this
    exact ⟨SwapsIn.refl _, hs⟩
  | succ n ih =>
    intro i data hai hib hlen hs
    simp only [insertionOuter]
    obtain ⟨hsw, hsorted⟩ := insertionInner_spec key less hless a i i data (by omega)
      (le_refl _) (by omega)
      (fun p q hp hpq hq _ hqi => hs p q hp (by omega) (by omega))
      (fun q hjq hq => by omega)
    obtain ⟨hsw2, hsorted2⟩ := ih (i + 1) (insertionInner less a data i) (by omega) (by omega)
      (by rw [hsw.length_eq]; exact hlen) hsorted
    exact ⟨(hsw.mono (le_refl _) (by omega)).trans hsw2, hsorted2⟩

theorem insertionSort_spec (hless : ∀ x y, less x y = decide (key x < key y)) (a b : Nat)
    (data : List α) (hb : b ≤ data.length) :
    SwapsIn a b data (insertionSort less data a b) ∧
      SortedOn (keyAt key (insertionSort less data a b)) a b := by
  unfold insertionSort
  by_cases hab : a + 1 ≤ b
  · exact insertionOuter_spec key less hless a b (b - (a + 1)) (a + 1) data (by omega) (by omega)
      hb (fun p q hp hpq hq => by
        have : p = q := by omega
        subst this; exact le_refl _)
  · have : b - (a + 1) = 0 := by omega
    rw [this]
    simp only [insertionOuter]
    exact ⟨SwapsIn.refl _, fun p q hp hpq hq => by omega⟩

end InsertionSort

section Partition
variable {α : Type} (key : α → Int) (less : α → α → Bool)

theorem partitionUp_spec (hless : ∀ x y, less x y = decide (key x < key y)) (data : List α)
    (a j : Nat) (ha : a < data.length) (hj : j < data.length) :
    ∀ (n i : Nat), i ≤ j + 1 → j + 1 - i ≤ n →
      i ≤ partitionUp less data a j n i ∧ partitionUp less data a j n i ≤ j + 1 ∧
      (∀ k, i ≤ k → k < partitionUp less data a j n i → keyAt key data k < keyAt key data a) ∧
      (partitionUp less data a j n i ≤ j →
        keyAt key data a ≤ keyAt key data (partitionUp less data a j n i)) := by
  intro n
  induction n with
  | zero =>
    intro i hi hn
    simp only [partitionUp]
    exact ⟨le_refl _, hi, fun k h1 h2 => by omega, fun h => by omega⟩
  | succ n ih =>
    intro i hi hn
    simp only [partitionUp]
    by_cases hcond : (decide (i ≤ j) && Less less data i a) = true
    · rw [if_pos hcond]
      simp only [Bool.and_eq_true, decide_eq_true_eq] at hcond
      obtain ⟨hij, hlt⟩ := hcond
      rw [Less_eq key less hless data i a (by omega) ha] at hlt
      simp only [decide_eq_true_eq] at hlt
      obtain ⟨h1, h2, h3, h4⟩ := ih (i + 1) (by omega) (by omega)
      refine ⟨by omega, h2, ?_, h4⟩
      intro k hk1 hk2
      by_cases hki : k = i
      · subst hki; exact hlt
      · exact h3 k (by omega) hk2
    · rw [if_neg hcond]
      simp only [Bool.and_eq_true, decide_eq_true_eq, not_and] at hcond
      refine ⟨le_refl _, hi, fun k h1 h2 => by omega, ?_⟩
      intro hij
      have := hcond hij
      rw [Less_eq key less hless data i a (by omega) ha] at this
      simpa using this

theorem partitionDown_spec (hless : ∀ x y, less x y = decide (key x < key y)) (data : List α)
    (a i : Nat) (ha : a < data.length) (hi : 1 ≤ i) :
    ∀ (j : Nat), j < data.length → i ≤ j + 1 →
      partitionDown less data a i j ≤ j ∧ i ≤ partitionDown less data a i j + 1 ∧
      (∀ k, partitionDown less data a i j < k → k ≤ j →
        keyAt key data a ≤ keyAt key data k) ∧
      (i ≤ partitionDown less data a i j →
        keyAt key data (partitionDown less data a i j) < keyAt key data a) := by
  intro j
  induction j with
  | zero =>
    intro _ hij
    simp only [partitionDown]
    exact ⟨le_refl _, hij, fun k h1 h2 => by omega, fun h => by omega⟩
  | succ j ih =>
    intro hj hij
    simp only [partitionDown]
    by_cases hcond : (decide (i ≤ j + 1) && !Less less data (j + 1) a) = true
    · rw [if_pos hcond]
      simp only [Bool.and_eq_true, decide_eq_true_eq, Bool.not_eq_true'] at hcond
      obtain ⟨hij', hnlt⟩ := hcond
      rw [Less_eq key less hless data (j + 1) a hj ha] at hnlt
      simp only [decide_eq_false_iff_not, not_lt] at hnlt
      obtain ⟨h1, h2, h3, h4⟩ := ih (by omega) (by omega)
      refine ⟨by omega, h2, ?_, h4⟩
      intro k hk1 hk2
      by_cases hkj : k = j + 1
      · subst hkj; exact hnlt
      · exact h3 k hk1 (by omega)
    · rw [if_neg hcond]
      simp only [Bool.and_eq_true, decide_eq_true_eq, Bool.not_eq_true', not_and] at hcond
      refine ⟨le_refl _, hij, fun k h1 h2 => by omega, ?_⟩
      intro hij'
      have := hcond hij'
      rw [Less_eq key less hless data (j + 1) a hj ha] at this
      simpa using this

theorem partitionLoop_spec (hless : ∀ x y, less x y = decide (key x < key y)) (a b : Nat)
    (P : Int) :
    ∀ (n : Nat) (data : List α) (i j : Nat), b ≤ data.length → a + 1 ≤ i → i ≤ j + 1 → j < b →
      j + 1 - i ≤ n → keyAt key data a = P →
      (∀ k, a + 1 ≤ k → k < i → keyAt key data k < P) →
      (∀ k, j < k → k < b → P ≤ keyAt key data k) →
      SwapsIn (a + 1) b data (partitionLoop less a n data i j).1 ∧
        a ≤ (partitionLoop less a n data i j).2 ∧ (partitionLoop less a n data i j).2 < b ∧
        (∀ k, a + 1 ≤ k → k ≤ (partitionLoop less a n data i j).2 →
          keyAt key (partitionLoop less a n data i j).1 k < P) ∧
        (∀ k, (partitionLoop less a n data i j).2 < k → k < b →
          P ≤ keyAt key (partitionLoop less a n data i j).1 k) := by
  intro n
  induction n with
  | zero =>
    intro data i j hb hai hij hjb hn hP hL hR
    simp only [partitionLoop]
    exact ⟨SwapsIn.refl _, by omega, hjb, fun k h1 h2 => hL k h1 (by omega), hR⟩
  | succ n ih =>
    intro data i j hb hai hij hjb hn hP hL hR
    simp only [partitionLoop]
    obtain ⟨u1, u2, u3, u4⟩ := partitionUp_spec key less hless data a j (by omega) (by omega)
      (j + 1 - i) i hij (le_refl _)
    generalize partitionUp less data a j (j + 1 - i) i = i' at u1 u2 u3 u4 ⊢
    obtain ⟨d1, d2, d3, d4⟩ := partitionDown_spec key less hless data a i' (by omega) (by omega)
      j (by omega) u2
    generalize partitionDown less data a i' j = j' at d1 d2 d3 d4 ⊢
    rw [hP] at u3 u4 d3 d4
    by_cases hgt : i' > j'
    · rw [if_pos hgt]
      refine ⟨SwapsIn.refl _, by omega, by omega, ?_, ?_⟩
      · intro k h1 h2
        by_cases hki : k < i
        · exact hL k h1 hki
        · exact u3 k (by omega) (by omega)
      · intro k h1 h2
        by_cases hkj : k ≤ j
        · exact d3 k h1 hkj
        · exact hR k (by omega) h2
    · rw [if_neg hgt]
      have hle : i' ≤ j' := by omega
      have hi'P := u4 (by omega)
      have hj'P := d4 hle
      have hne : i' ≠ j' := by
        intro h; subst h; omega
      have hi'len : i' < data.length := by omega
      have hj'len : j' < data.length := by omega
      have hK : ∀ k, keyAt key (Swap data i' j') k =
          if k = j' then keyAt key data i' else if k = i' then keyAt key data j'
          else keyAt key data k := fun k => keyAt_Swap key data i' j' k hi'len hj'len
      obtain ⟨r1, r2, r3, r4, r5⟩ := ih (Swap data i' j') (i' + 1) (j' - 1)
        (by rw [Swap_length]; exact hb) (by omega) (by omega) (by omega) (by omega)
        (by rw [hK a, if_neg (by omega), if_neg (by omega)]; exact hP)
        (by
          intro k h1 h2
          rw [hK k, if_neg (by omega)]
          by_cases hki : k = i'
          · rw [if_pos hki]; exact hj'P
          · rw [if_neg hki]
            by_cases hki2 : k < i
            · exact hL k h1 hki2
            · exact u3 k (by omega) (by omega))
        (by
          intro k h1 h2
          rw [hK k]
          by_cases hkj : k = j'
          · rw [if_pos hkj]; exact hi'P
          · rw [if_neg hkj, if_neg (by omega)]
            by_cases hkj2 : k ≤ j
            · exact d3 k (by omega) hkj2
            · exact hR k (by omega) h2)
      exact ⟨(SwapsIn.swap data i' j' ⟨by omega, by omega⟩ ⟨by omega, by omega⟩).trans r1,
        r2, r3, r4, r5⟩

end Partition

section Partition2
variable {α : Type} (key : α → Int) (less : α → α → Bool)

theorem finishPartition (a b j : Nat) (P : Int) (data : List α) (hb : b ≤ data.length)
    (haj : a ≤ j) (hjb : j < b) (hP : keyAt key data a = P)
    (hL : ∀ k, a + 1 ≤ k → k ≤ j → keyAt key data k < P)
    (hR : ∀ k, j < k → k < b → P ≤ keyAt key data k) :
    SwapsIn a b data (Swap data j a) ∧
      (∀ k, a ≤ k → k < j → keyAt key (Swap data j a) k < keyAt key (Swap data j a) j) ∧
      (∀ k, j < k → k < b → keyAt key (Swap data j a) j ≤ keyAt key (Swap data j a) k) := by
  have hK : ∀ k, keyAt key (Swap data j a) k =
      if k = a then keyAt key data j else if k = j then keyAt key data a
      else keyAt key data k := fun k => keyAt_Swap key data j a k (by omega) (by omega)
  have hKj : keyAt key (Swap data j a) j = P := by
    rw [hK j]
    by_cases hja : j = a
    · rw [if_pos hja, hja, hP]
    · rw [if_neg hja, if_pos rfl, hP]
  refine ⟨SwapsIn.swap data j a ⟨haj, hjb⟩ ⟨le_refl _, by omega⟩, ?_, ?_⟩
  · intro k h1 h2
    rw [hKj, hK k]
    by_cases hka : k = a
    · rw [if_pos hka]; exact hL j (by omega) (le_refl _)
    · rw [if_neg hka, if_neg (by omega)]; exact hL k (by omega) (by omega)
  · intro k h1 h2
    rw [hKj, hK k, if_neg (by omega), if_neg (by omega)]
    exact hR k h1 h2

theorem partition_spec (hless : ∀ x y, less x y = decide (key x < key y)) (a b pivot : Nat)
    (data : List α) (hb : b ≤ data.length) (hap : a ≤ pivot) (hpb : pivot < b) :
    SwapsIn a b data (partition less data a b pivot).1 ∧
      a ≤ (partition less data a b pivot).2.1 ∧ (partition less data a b pivot).2.1 < b ∧
      (∀ k, a ≤ k → k < (partition less data a b pivot).2.1 →
        keyAt key (partition less data a b pivot).1 k
          < keyAt key (partition less data a b pivot).1 (partition less data a b pivot).2.1) ∧
      (∀ k, (partition less data a b pivot).2.1 < k → k < b →
        keyAt key (partition less data a b pivot).1 (partition less data a b pivot).2.1
          ≤ keyAt key (partition less data a b pivot).1 k) := by
  unfold partition
  have hs0 : SwapsIn a b data (Swap data a pivot) :=
    SwapsIn.swap data a pivot ⟨le_refl _, by omega⟩ ⟨hap, hpb⟩
  have hlen0 : b ≤ (Swap data a pivot).length := by rw [Swap_length]; exact hb
  generalize Swap data a pivot = d0 at hs0 hlen0 ⊢
  simp only []
  obtain ⟨u1, u2, u3, u4⟩ := partitionUp_spec key less hless d0 a (b - 1) (by omega) (by omega)
    (b - 1 + 1 - (a + 1)) (a + 1) (by omega) (le_refl _)
  generalize partitionUp less d0 a (b - 1) (b - 1 + 1 - (a + 1)) (a + 1) = i' at u1 u2 u3 u4 ⊢
  obtain ⟨d1, d2, d3, d4⟩ := partitionDown_spec key less hless d0 a i' (by omega) (by omega)
    (b - 1) (by omega) u2
  generalize partitionDown less d0 a i' (b - 1) = j' at d1 d2 d3 d4 ⊢
  by_cases hgt : i' > j'
  · rw [if_pos hgt]
    simp only []
    obtain ⟨f1, f2, f3⟩ := finishPartition key a b j' (keyAt key d0 a) d0 hlen0 (by omega)
      (by omega) rfl (fun k h1 h2 => u3 k h1 (by omega)) (fun k h1 h2 => d3 k h1 (by omega))
    exact ⟨hs0.trans f1, by omega, by omega, f2, f3⟩
  · rw [if_neg hgt]
    simp only []
    have hle : i' ≤ j' := by omega
    have hi'P := u4 (by omega)
    have hj'P := d4 hle
    have hne : i' ≠ j' := by
      intro h; subst h; omega
    have hK : ∀ k, keyAt key (Swap d0 i' j') k =
        if k = j' then keyAt key d0 i' else if k = i' then keyAt key d0 j'
        else keyAt key d0 k := fun k => keyAt_Swap key d0 i' j' k (by omega) (by omega)
    obtain ⟨r1, r2, r3, r4, r5⟩ := partitionLoop_spec key less hless a b (keyAt key d0 a)
      (j' + 1 - i') (Swap d0 i' j') (i' + 1) (j' - 1)
      (by rw [Swap_length]; exact hlen0) (by omega) (by omega) (by omega) (by omega)
      (by rw [hK a, if_neg (by omega), if_neg (by omega)])
      (by
        intro k h1 h2
        rw [hK k, if_neg (by omega)]
        by_cases hki : k = i'
        · rw [if_pos hki]; exact hj'P
        · rw [if_neg hki]; exact u3 k (by omega) (by omega))
      (by
        intro k h1 h2
        rw [hK k]
        by_cases hkj : k = j'
        · rw [if_pos hkj]; exact hi'P
        · rw [if_neg hkj, if_neg (by omega)]; exact d3 k (by omega) (by omega))
    have hs1 : SwapsIn a b d0 (partitionLoop less a (j' + 1 - i') (Swap d0 i' j') (i' + 1) (j' - 1)).1 :=
      (SwapsIn.swap d0 i' j' ⟨by omega, by omega⟩ ⟨by omega, by omega⟩).trans
        (r1.mono (by omega) (le_refl _))
    have hPa : keyAt key (partitionLoop less a (j' + 1 - i') (Swap d0 i' j') (i' + 1) (j' - 1)).1 a
        = keyAt key d0 a := by
      rw [SwapsIn.keyAt_outside key r1 a (Or.inl (by omega)), hK a, if_neg (by omega),
        if_neg (by omega)]
    generalize partitionLoop less a (j' + 1 - i') (Swap d0 i' j') (i' + 1) (j' - 1) = r
      at r1 r2 r3 r4 r5 hs1 hPa ⊢
    obtain ⟨f1, f2, f3⟩ := finishPartition key a b r.2 (keyAt key d0 a) r.1
      (by rw [hs1.length_eq]; exact hlen0) r2 r3 hPa r4 r5
    exact ⟨(hs0.trans hs1).trans f1, r2, r3, f2, f3⟩

theorem partitionEqualUp_spec (hless : ∀ x y, less x y = decide (key x < key y))
    (data : List α) (a j : Nat) (ha : a < data.length) (hj : j < data.length) :
    ∀ (n i : Nat), i ≤ j + 1 → j + 1 - i ≤ n →
      i ≤ partitionEqualUp less data a j n i ∧ partitionEqualUp less data a j n i ≤ j + 1 ∧
      (∀ k, i ≤ k → k < partitionEqualUp less data a j n i →
        keyAt key data k ≤ keyAt key data a) ∧
      (partitionEqualUp less data a j n i ≤ j →
        keyAt key data a < keyAt key data (partitionEqualUp less data a j n i)) := by
  intro n
  induction n with
  | zero =>
    intro i hi hn
    simp only [partitionEqualUp]
    exact ⟨le_refl _, hi, fun k h1 h2 => by omega, fun h => by omega⟩
  | succ n ih =>
    intro i hi hn
    simp only [partitionEqualUp]
    by_cases hcond : (decide (i ≤ j) && !Less less data a i) = true
    · rw [if_pos hcond]
      simp only [Bool.and_eq_true, decide_eq_true_eq, Bool.not_eq_true'] at hcond
      obtain ⟨hij, hlt⟩ := hcond
      rw [Less_eq key less hless data a i ha (by omega)] at hlt
      simp only [decide_eq_false_iff_not, not_lt] at hlt
      obtain ⟨h1, h2, h3, h4⟩ := ih (i + 1) (by omega) (by omega)
      refine ⟨by omega, h2, ?_, h4⟩
      intro k hk1 hk2
      by_cases hki : k = i
      · subst hki; exact hlt
      · exact h3 k (by omega) hk2
    · rw [if_neg hcond]
      simp only [Bool.and_eq_true, decide_eq_true_eq, Bool.not_eq_true', not_and] at hcond
      refine ⟨le_refl _, hi, fun k h1 h2 => by omega, ?_⟩
      intro hij
      have := hcond hij
      rw [Less_eq key less hless data a i ha (by omega)] at this
      simpa using this

theorem partitionEqualDown_spec (hless : ∀ x y, less x y = decide (key x < key y))
    (data : List α) (a i : Nat) (ha : a < data.length) (hi : 1 ≤ i) :
    ∀ (j : Nat), j < data.length → i ≤ j + 1 →
      partitionEqualDown less data a i j ≤ j ∧ i ≤ partitionEqualDown less data a i j + 1 ∧
      (∀ k, partitionEqualDown less data a i j < k → k ≤ j →
        keyAt key data a < keyAt key data k) ∧
      (i ≤ partitionEqualDown less data a i j →
        keyAt key data (partitionEqualDown less data a i j) ≤ keyAt key data a) := by
  intro j
  induction j with
  | zero =>
    intro _ hij
    simp only [partitionEqualDown]
    exact ⟨le_refl _, hij, fun k h1 h2 => by omega, fun h => by omega⟩
  | succ j ih =>
    intro hj hij
    simp only [partitionEqualDown]
    by_cases hcond : (decide (i ≤ j + 1) && Less less data a (j + 1)) = true
    · rw [if_pos hcond]
      simp only [Bool.and_eq_true, decide_eq_true_eq] at hcond
      obtain ⟨hij', hnlt⟩ := hcond
      rw [Less_eq key less hless data a (j + 1) ha hj] at hnlt
      simp only [decide_eq_true_eq] at hnlt
      obtain ⟨h1, h2, h3, h4⟩ := ih (by omega) (by omega)
      refine ⟨by omega, h2, ?_, h4⟩
      intro k hk1 hk2
      by_cases hkj : k = j + 1
      · subst hkj; exact hnlt
      · exact h3 k hk1 (by omega)
    · rw [if_neg hcond]
      simp only [Bool.and_eq_true, decide_eq_true_eq, not_and] at hcond
      refine ⟨le_refl _, hij, fun k h1 h2 => by omega, ?_⟩
      intro hij'
      have := hcond hij'
      rw [Less_eq key less hless data a (j + 1) ha hj] at this
      simpa using this

theorem partitionEqualLoop_spec (hless : ∀ x y, less x y = decide (key x < key y))
    (a b : Nat) (P : Int) :
    ∀ (n : Nat) (data : List α) (i j : Nat), b ≤ data.length → a + 1 ≤ i → i ≤ j + 1 → j < b →
      j + 1 - i ≤ n → keyAt key data a = P →
      (∀ k, a + 1 ≤ k → k < i → keyAt key data k ≤ P) →
      (∀ k, j < k → k < b → P < keyAt key data k) →
      SwapsIn (a + 1) b data (partitionEqualLoop less a n data i j).1 ∧
        a + 1 ≤ (partitionEqualLoop less a n data i j).2 ∧
        (partitionEqualLoop less a n data i j).2 ≤ b ∧
        (∀ k, a + 1 ≤ k → k < (partitionEqualLoop less a n data i j).2 →
          keyAt key (partitionEqualLoop less a n data i j).1 k ≤ P) ∧
        (∀ k, (partitionEqualLoop less a n data i j).2 ≤ k → k < b →
          P < keyAt key (partitionEqualLoop less a n data i j).1 k) := by
  intro n
  induction n with
  | zero =>
    intro data i j hb hai hij hjb hn hP hL hR
    simp only [partitionEqualLoop]
    exact ⟨SwapsIn.refl _, hai, by omega, hL, fun k h1 h2 => hR k (by omega) h2⟩
  | succ n ih =>
    intro data i j hb hai hij hjb hn hP hL hR
    simp only [partitionEqualLoop]
    obtain ⟨u1, u2, u3, u4⟩ := partitionEqualUp_spec key less hless data a j (by omega)
      (by omega) (j + 1 - i) i hij (le_refl _)
    generalize partitionEqualUp less data a j (j + 1 - i) i = i' at u1 u2 u3 u4 ⊢
    obtain ⟨d1, d2, d3, d4⟩ := partitionEqualDown_spec key less hless data a i' (by omega)
      (by omega) j (by omega) u2
    generalize partitionEqualDown less data a i' j = j' at d1 d2 d3 d4 ⊢
    rw [hP] at u3 u4 d3 d4
    by_cases hgt : i' > j'
    · rw [if_pos hgt]
      refine ⟨SwapsIn.refl _, by omega, by omega, ?_, ?_⟩
      · intro k h1 h2
        by_cases hki : k < i
        · exact hL k h1 hki
        · exact u3 k (by omega) (by omega)
      · intro k h1 h2
        by_cases hkj : k ≤ j
        · exact d3 k (by omega) hkj
        · exact hR k (by omega) h2
    · rw [if_neg hgt]
      have hle : i' ≤ j' := by omega
      have hi'P := u4 (by omega)
      have hj'P := d4 hle
      have hne : i' ≠ j' := by
        intro h; subst h; omega
      have hK : ∀ k, keyAt key (Swap data i' j') k =
          if k = j' then keyAt key data i' else if k = i' then keyAt key data j'
          else keyAt key data k := fun k => keyAt_Swap key data i' j' k (by omega) (by omega)
      obtain ⟨r1, r2, r3, r4, r5⟩ := ih (Swap data i' j') (i' + 1) (j' - 1)
        (by rw [Swap_length]; exact hb) (by omega) (by omega) (by omega) (by omega)
        (by rw [hK a, if_neg (by omega), if_neg (by omega)]; exact hP)
        (by
          intro k h1 h2
          rw [hK k, if_neg (by omega)]
          by_cases hki : k = i'
          · rw [if_pos hki]; exact hj'P
          · rw [if_neg hki]
            by_cases hki2 : k < i
            · exact hL k h1 hki2
            · exact u3 k (by omega) (by omega))
        (by
          intro k h1 h2
          rw [hK k]
          by_cases hkj : k = j'
          · rw [if_pos hkj]; exact hi'P
          · rw [if_neg hkj, if_neg (by omega)]
            by_cases hkj2 : k ≤ j
            · exact d3 k (by omega) hkj2
            · exact hR k (by omega) h2)
      exact ⟨(SwapsIn.swap data i' j' ⟨by omega, by omega⟩ ⟨by omega, by omega⟩).trans r1,
        r2, r3, r4, r5⟩

theorem partitionEqual_spec (hless : ∀ x y, less x y = decide (key x < key y)) (a b pivot : Nat)
    (data : List α) (hb : b ≤ data.length) (hap : a ≤ pivot) (hpb : pivot < b) :
    SwapsIn a b data (partitionEqual less data a b pivot).1 ∧
      a + 1 ≤ (partitionEqual less data a b pivot).2 ∧
      (partitionEqual less data a b pivot).2 ≤ b ∧
      (∀ k, a ≤ k → k < (partitionEqual less data a b pivot).2 →
        keyAt key (partitionEqual less data a b pivot).1 k ≤ keyAt key data pivot) ∧
      (∀ k, (partitionEqual less data a b pivot).2 ≤ k → k < b →
        keyAt key data pivot < keyAt key (partitionEqual less data a b pivot).1 k) := by
  unfold partitionEqual
  have hs0 : SwapsIn a b data (Swap data a pivot) :=
    SwapsIn.swap data a pivot ⟨le_refl _, by omega⟩ ⟨hap, hpb⟩
  have hlen0 : b ≤ (Swap data a pivot).length := by rw [Swap_length]; exact hb
  have hP0 : keyAt key (Swap data a pivot) a = keyAt key data pivot := by
    rw [keyAt_Swap key data a pivot a (by omega) (by omega)]
    by_cases h : a = pivot
    · rw [if_pos h, h]
    · rw [if_neg h, if_pos rfl]
  generalize Swap data a pivot = d0 at hs0 hlen0 hP0 ⊢
  simp only []
  obtain ⟨r1, r2, r3, r4, r5⟩ := partitionEqualLoop_spec key less hless a b
    (keyAt key data pivot) (b - a) d0 (a + 1) (b - 1) hlen0 (le_refl _) (by omega) (by omega)
    (by omega) hP0 (fun k h1 h2 => by omega) (fun k h1 h2 => by omega)
  refine ⟨hs0.trans (r1.mono (by omega) (le_refl _)), r2, r3, ?_, r5⟩
  intro k h1 h2
  by_cases hka : k = a
  · subst hka
    rw [SwapsIn.keyAt_outside key r1 k (Or.inl (by omega)), hP0]
  · exact r4 k (by omega) h2

end Partition2

section HeapSort
variable {α : Type} (key : α → Int) (less : α → α → Bool)

theorem siftDown_spec (hless : ∀ x y, less x y = decide (key x < key y)) (hi first lo : Nat) :
    ∀ (n : Nat) (data : List α) (root : Nat), first + hi ≤ data.length → lo ≤ root →
      hi ≤ root + n →
      (∀ p c, lo ≤ p → p ≠ root → c < hi → (c = 2 * p + 1 ∨ c = 2 * p + 2) →
        keyAt key data (first + c) ≤ keyAt key data (first + p)) →
      (∀ q c, lo ≤ q → (root = 2 * q + 1 ∨ root = 2 * q + 2) → c < hi →
        (c = 2 * root + 1 ∨ c = 2 * root + 2) →
        keyAt key data (first + c) ≤ keyAt key data (first + q)) →
      SwapsIn (first + root) (first + hi) data (siftDown less hi first data root n) ∧
        (∀ p c, lo ≤ p → c < hi → (c = 2 * p + 1 ∨ c = 2 * p + 2) →
          keyAt key (siftDown less hi first data root n) (first + c)
            ≤ keyAt key (siftDown less hi first data root n) (first + p)) := by
  intro n
  induction n with
  | zero =>
    intro data root hlen hlo hn h1 h2
    simp only [siftDown]
    refine ⟨SwapsIn.refl _, ?_⟩
    intro p c hp hc hpc
    exact h1 p c hp (by omega) hc hpc
  | succ n ih =>
    intro data root hlen hlo hn h1 h2
    simp only [siftDown]
    by_cases hch : 2 * root + 1 ≥ hi
    · rw [if_pos hch]
      refine ⟨SwapsIn.refl _, ?_⟩
      intro p c hp hc hpc
      exact h1 p c hp (by omega) hc hpc
    · rw [if_neg hch]
      have hc1 : 2 * root + 1 < hi := by omega
      -- the larger child
      obtain ⟨child, hchild, hchi, hmax⟩ : ∃ child,
          (if (decide (2 * root + 1 + 1 < hi) &&
              Less less data (first + (2 * root + 1)) (first + (2 * root + 1) + 1)) = true
            then 2 * root + 1 + 1 else 2 * root + 1) = child ∧
          ((child = 2 * root + 1 ∨ child = 2 * root + 2) ∧ child < hi) ∧
          (∀ c, c < hi → (c = 2 * root + 1 ∨ c = 2 * root + 2) →
            keyAt key data (first + c) ≤ keyAt key data (first + child)) := by
        by_cases hc2 : (decide (2 * root + 1 + 1 < hi) &&
            Less less data (first + (2 * root + 1)) (first + (2 * root + 1) + 1)) = true
        · refine ⟨2 * root + 1 + 1, by rw [if_pos hc2], ?_, ?_⟩
          · simp only [Bool.and_eq_true, decide_eq_true_eq] at hc2
            exact ⟨Or.inr rfl, hc2.1⟩
          · simp only [Bool.and_eq_true, decide_eq_true_eq] at hc2
            obtain ⟨hlt, hl⟩ := hc2
            rw [Less_eq key less hless data _ _ (by omega) (by omega)] at hl
            simp only [decide_eq_true_eq] at hl
            intro c hc hcc
            rcases hcc with rfl | rfl
            · exact le_of_lt hl
            · exact le_refl _
        · refine ⟨2 * root + 1, by rw [if_neg hc2], ⟨Or.inl rfl, hc1⟩, ?_⟩
          simp only [Bool.and_eq_true, decide_eq_true_eq, not_and] at hc2
          intro c hc hcc
          rcases hcc with rfl | rfl
          · exact le_refl _
          · have := hc2 hc
            rw [Less_eq key less hless data _ _ (by omega) (by omega)] at this
            simp only [decide_eq_true_eq, not_lt] at this
            exact this
      rw [hchild]
      by_cases hnl : (!Less less data (first + root) (first + child)) = true
      · rw [if_pos hnl]
        simp only [Bool.not_eq_true'] at hnl
        rw [Less_eq key less hless data _ _ (by omega) (by omega)] at hnl
        simp only [decide_eq_false_iff_not, not_lt] at hnl
        refine ⟨SwapsIn.refl _, ?_⟩
        intro p c hp hc hpc
        by_cases hpr : p = root
        · subst hpr
          exact le_trans (hmax c hc hpc) hnl
        · exact h1 p c hp hpr hc hpc
      · rw [if_neg hnl]
        simp only [Bool.not_eq_true', Bool.not_eq_false] at hnl
        rw [Less_eq key less hless data _ _ (by omega) (by omega)] at hnl
        simp only [decide_eq_true_eq] at hnl
        have hK : ∀ k, keyAt key (Swap data (first + root) (first + child)) (first + k) =
            if k = child then keyAt key data (first + root)
            else if k = root then keyAt key data (first + child)
            else keyAt key data (first + k) := by
          intro k
          rw [keyAt_Swap key data (first + root) (first + child) (first + k) (by omega)
            (by omega)]
          by_cases hk1 : k = child
          · rw [if_pos (by omega), if_pos hk1]
          · rw [if_neg (by omega), if_neg hk1]
            by_cases hk2 : k = root
            · rw [if_pos (by omega), if_pos hk2]
            · rw [if_neg (by omega), if_neg hk2]
        obtain ⟨r1, r2⟩ := ih (Swap data (first + root) (first + child)) child
          (by rw [Swap_length]; exact hlen) (by omega) (by omega)
          (by
            intro p c hp hpc hc hcc
            by_cases hpr : p = root
            · have hKp : keyAt key (Swap data (first + root) (first + child)) (first + p)
                  = keyAt key data (first + child) := by
                rw [hK p, if_neg hpc, if_pos hpr]
              rw [hKp, hK c]
              by_cases hcch : c = child
              · rw [if_pos hcch]; exact le_of_lt hnl
              · rw [if_neg hcch, if_neg (by omega)]
                exact hmax c hc (by omega)
            · have hKp : keyAt key (Swap data (first + root) (first + child)) (first + p)
                  = keyAt key data (first + p) := by
                rw [hK p, if_neg hpc, if_neg hpr]
              rw [hKp, hK c]
              by_cases hcr : c = root
              · rw [if_neg (by omega), if_pos hcr]
                exact h2 p child hp (by omega) hchi.2 hchi.1
              · rw [if_neg (by omega), if_neg hcr]
                exact h1 p c hp hpr hc hcc)
          (by
            intro q c hq hqc hc hcc
            have hqr : q = root := by omega
            have hKq : keyAt key (Swap data (first + root) (first + child)) (first + q)
                = keyAt key data (first + child) := by
              rw [hK q, if_neg (by omega), if_pos hqr]
            rw [hKq, hK c, if_neg (by omega), if_neg (by omega)]
            exact h1 child c (by omega) (by omega) hc hcc)
        exact ⟨(SwapsIn.swap data (first + root) (first + child) ⟨by omega, by omega⟩
          ⟨by omega, by omega⟩).trans (r1.mono (by omega) (le_refl _)), r2⟩

end HeapSort

section HeapSort2
variable {α : Type} (key : α → Int) (less : α → α → Bool)

theorem heapBuild_spec (hless : ∀ x y, less x y = decide (key x < key y)) (hi first : Nat) :
    ∀ (k : Nat) (data : List α), first + hi ≤ data.length →
      (∀ p c, k ≤ p → c < hi → (c = 2 * p + 1 ∨ c = 2 * p + 2) →
        keyAt key data (first + c) ≤ keyAt key data (first + p)) →
      SwapsIn first (first + hi) data (heapBuild less hi first data k) ∧
        (∀ p c, c < hi → (c = 2 * p + 1 ∨ c = 2 * p + 2) →
          keyAt key (heapBuild less hi first data k) (first + c)
            ≤ keyAt key (heapBuild less hi first data k) (first + p)) := by
  intro k
  induction k with
  | zero =>
    intro data _ h
    simp only [heapBuild]
    exact ⟨SwapsIn.refl _, fun p c hc hpc => h p c (Nat.zero_le _) hc hpc⟩
  | succ i ih =>
    intro data hlen h
    simp only [heapBuild]
    obtain ⟨s1, s2⟩ := siftDown_spec key less hless hi first i hi data i hlen (le_refl _)
      (by omega) (fun p c hp hpi hc hpc => h p c (by omega) hc hpc)
      (fun q c hq hqi hc hcc => by omega)
    obtain ⟨r1, r2⟩ := ih (siftDown less hi first data i hi)
      (by rw [s1.length_eq]; exact hlen) s2
    exact ⟨(s1.mono (by omega) (le_refl _)).trans r1, r2⟩

theorem heap_root_max (f : Nat → Int) (k : Nat)
    (h : ∀ p c, c < k → (c = 2 * p + 1 ∨ c = 2 * p + 2) → f c ≤ f p) :
    ∀ c, c < k → f c ≤ f 0 := by
  intro c
  induction c using Nat.strong_induction_on with
  | _ c ih =>
    intro hc
    by_cases h0 : c = 0
    · subst h0; exact le_refl _
    · have hpc : c = 2 * ((c - 1) / 2) + 1 ∨ c = 2 * ((c - 1) / 2) + 2 := by omega
      exact le_trans (h ((c - 1) / 2) c hc hpc) (ih ((c - 1) / 2) (by omega) (by omega))

theorem heapPop_spec (hless : ∀ x y, less x y = decide (key x < key y)) (hi first : Nat) :
    ∀ (k : Nat) (data : List α), first + hi ≤ data.length → k ≤ hi →
      (∀ p c, c < k → (c = 2 * p + 1 ∨ c = 2 * p + 2) →
        keyAt key data (first + c) ≤ keyAt key data (first + p)) →
      SortedOn (keyAt key data) (first + k) (first + hi) →
      (∀ x y, x < k → k ≤ y → y < hi →
        keyAt key data (first + x) ≤ keyAt key data (first + y)) →
      SwapsIn first (first + hi) data (heapPop less first data k) ∧
        SortedOn (keyAt key (heapPop less first data k)) first (first + hi) := by
  intro k
  induction k with
  | zero =>
    intro data _ _ _ hs _
    simp only [heapPop]
    exact ⟨SwapsIn.refl _, by simpa using hs⟩
  | succ i ih =>
    intro data hlen hk hheap hsorted hle
    simp only [heapPop]
    have hmax := heap_root_max (fun c => keyAt key data (first + c)) (i + 1) hheap
    have hK : ∀ c, keyAt key (Swap data first (first + i)) (first + c) =
        if c = i then keyAt key data first
        else if c = 0 then keyAt key data (first + i)
        else keyAt key data (first + c) := by
      intro c
      rw [keyAt_Swap key data first (first + i) (first + c) (by omega) (by omega)]
      by_cases hc1 : c = i
      · rw [if_pos (by omega), if_pos hc1]
      · rw [if_neg (by omega), if_neg hc1]
        by_cases hc2 : c = 0
        · rw [if_pos (by omega), if_pos hc2]
        · rw [if_neg (by omega), if_neg hc2]
    have hlen1 : first + hi ≤ (Swap data first (first + i)).length := by
      rw [Swap_length]; exact hlen
    obtain ⟨s1, s2⟩ := siftDown_spec key less hless i first 0 i
      (Swap data first (first + i)) 0 (by omega) (le_refl _) (by omega)
      (by
        intro p c _ hp hc hpc
        rw [hK c, hK p, if_neg (by omega), if_neg (by omega), if_neg (by omega), if_neg hp]
        exact hheap p c (by omega) hpc)
      (fun q c _ hq _ _ => by omega)
    have s1' : SwapsIn first (first + i) (Swap data first (first + i))
        (siftDown less i first (Swap data first (first + i)) 0 i) := by simpa using s1
    -- everything below `i` is at most the old root
    have hbelow : ∀ c, c < i → keyAt key (siftDown less i first
        (Swap data first (first + i)) 0 i) (first + c) ≤ keyAt key data first := by
      intro c hc
      have := SwapsIn.forall_range key s1' (fun v => v ≤ keyAt key data first)
        (by
          intro k' hk1 hk2
          obtain ⟨c', rfl⟩ : ∃ c', k' = first + c' := ⟨k' - first, by omega⟩
          rw [hK c', if_neg (by omega)]
          by_cases hc0 : c' = 0
          · rw [if_pos hc0]
            have := hmax i (by omega)
            simpa using this
          · rw [if_neg hc0]
            have := hmax c' (by omega)
            simpa using this)
        (first + c) (by omega) (by omega)
      exact this
    have hbelow2 : ∀ c y, c < i → i + 1 ≤ y → y < hi → keyAt key (siftDown less i first
        (Swap data first (first + i)) 0 i) (first + c) ≤ keyAt key data (first + y) := by
      intro c y hc hy1 hy2
      have := SwapsIn.forall_range key s1' (fun v => v ≤ keyAt key data (first + y))
        (by
          intro k' hk1 hk2
          obtain ⟨c', rfl⟩ : ∃ c', k' = first + c' := ⟨k' - first, by omega⟩
          rw [hK c', if_neg (by omega)]
          by_cases hc0 : c' = 0
          · rw [if_pos hc0]
            exact hle i y (by omega) hy1 hy2
          · rw [if_neg hc0]
            exact hle c' y (by omega) hy1 hy2)
        (first + c) (by omega) (by omega)
      exact this
    have hout : ∀ c, i ≤ c → keyAt key (siftDown less i first
        (Swap data first (first + i)) 0 i) (first + c)
          = if c = i then keyAt key data first else keyAt key data (first + c) := by
      intro c hc
      rw [SwapsIn.keyAt_outside key s1' (first + c) (Or.inr (by omega)), hK c]
      by_cases hci : c = i
      · rw [if_pos hci, if_pos hci]
      · rw [if_neg hci, if_neg hci, if_neg (by omega)]
    obtain ⟨r1, r2⟩ := ih (siftDown less i first (Swap data first (first + i)) 0 i)
      (by rw [s1.length_eq]; exact hlen1) (by omega)
      (fun p c hc hpc => s2 p c (Nat.zero_le _) hc hpc)
      (by
        intro x y hx hxy hy
        obtain ⟨x', rfl⟩ : ∃ x', x = first + x' := ⟨x - first, by omega⟩
        obtain ⟨y', rfl⟩ : ∃ y', y = first + y' := ⟨y - first, by omega⟩
        rw [hout x' (by omega), hout y' (by omega)]
        by_cases hxi : x' = i
        · rw [if_pos hxi]
          by_cases hyi : y' = i
          · rw [if_pos hyi]
          · rw [if_neg hyi]
            have := hle 0 y' (by omega) (by omega) (by omega)
            simpa using this
        · rw [if_neg hxi, if_neg (by omega)]
          exact hsorted (first + x') (first + y') (by omega) (by omega) (by omega))
      (by
        intro x y hx hy1 hy2
        rw [hout y hy1]
        by_cases hyi : y = i
        · rw [if_pos hyi]; exact hbelow x hx
        · rw [if_neg hyi]; exact hbelow2 x y hx (by omega) hy2)
    exact ⟨((SwapsIn.swap data first (first + i) ⟨le_refl _, by omega⟩
      ⟨by omega, by omega⟩).trans (s1'.mono (le_refl _) (by omega))).trans r1, r2⟩

theorem heapSort_spec (hless : ∀ x y, less x y = decide (key x < key y)) (a b : Nat)
    (data : List α) (hab : a ≤ b) (hb : b ≤ data.length) :
    SwapsIn a b data (heapSort less data a b) ∧
      SortedOn (keyAt key (heapSort less data a b)) a b := by
  unfold heapSort
  simp only []
  obtain ⟨b1, b2⟩ := heapBuild_spec key less hless (b - a) a ((b - a - 1) / 2 + 1) data
    (by omega) (fun p c hp hc hpc => by omega)
  obtain ⟨p1, p2⟩ := heapPop_spec key less hless (b - a) a (b - a)
    (heapBuild less (b - a) a data ((b - a - 1) / 2 + 1))
    (by rw [b1.length_eq]; omega) (le_refl _) b2
    (fun x y hx hxy hy => by
      have : x = y := by omega
      subst this; exact le_refl _)
    (fun x y hx hy1 hy2 => by omega)
  have e : a + (b - a) = b := by omega
  rw [e] at b1 p1 p2
  exact ⟨b1.trans p1, p2⟩

end HeapSort2

section Helpers
variable {α : Type} (less : α → α → Bool)

theorem reverseLoop_spec (a b : Nat) :
    ∀ (n : Nat) (data : List α) (i j : Nat), a ≤ i → j < b →
      SwapsIn a b data (reverseLoop n data i j) := by
  intro n
  induction n with
  | zero => intro data i j _ _; exact SwapsIn.refl _
  | succ n ih =>
    intro data i j hi hj
    simp only [reverseLoop]
    split
    · rename_i hij
      exact (SwapsIn.swap data i j ⟨hi, by omega⟩ ⟨by omega, hj⟩).trans
        (ih (Swap data i j) (i + 1) (j - 1) (by omega) (by omega))
    · exact SwapsIn.refl _

theorem reverseRange_spec (a b : Nat) (data : List α) (hab : a < b) :
    SwapsIn a b data (reverseRange data a b) :=
  reverseLoop_spec a b (b - a) data a (b - 1) (le_refl _) (by omega)

theorem bitsLenAux_pow : ∀ (n x : Nat), x ≤ n → 1 ≤ x → 2 ^ bitsLenAux n x ≤ 2 * x := by
  intro n
  induction n with
  | zero => intro x h1 h2; omega
  | succ n ih =>
    intro x h1 h2
    simp only [bitsLenAux]
    rw [if_neg (by omega)]
    by_cases hx : x / 2 = 0
    · rw [hx]
      have : bitsLenAux n 0 = 0 := by
        cases n <;> simp [bitsLenAux]
      rw [this]
      omega
    · have := ih (x / 2) (by omega) (by omega)
      rw [Nat.pow_add]
      omega

theorem bitsLen_pow (x : Nat) (hx : 1 ≤ x) : 2 ^ bitsLen x ≤ 2 * x :=
  bitsLenAux_pow x x (le_refl _) hx

theorem breakPatternsLoop_spec (a b length modulus idx : Nat) (hlen : a + length = b)
    (hmod : 0 < modulus) (hmod2 : modulus ≤ 2 * length) (hidx1 : a + 1 ≤ idx)
    (hidx2 : idx + 2 < b) :
    ∀ (n : Nat) (data : List α) (random i : Nat), i + n ≤ 3 →
      SwapsIn a b data (breakPatternsLoop a length modulus idx n data random i) := by
  intro n
  induction n with
  | zero => intro data random i _; exact SwapsIn.refl _
  | succ n ih =>
    intro data random i hi
    simp only [breakPatternsLoop]
    have hlt : xorshiftNext random % 2 ^ 64 % modulus < modulus := Nat.mod_lt _ hmod
    generalize xorshiftNext random % 2 ^ 64 % modulus = other at hlt ⊢
    refine (SwapsIn.swap data (idx + i) _ ⟨by omega, by omega⟩ ⟨by omega, ?_⟩).trans
      (ih _ _ (i + 1) (by omega))
    split <;> omega

theorem breakPatterns_spec (a b : Nat) (data : List α) (hab : a ≤ b) :
    SwapsIn a b data (breakPatterns data a b) := by
  unfold breakPatterns
  simp only []
  split
  · rename_i h8
    have hpow := bitsLen_pow (b - a) (by omega)
    have hpos : 0 < 2 ^ bitsLen (b - a) := Nat.pow_pos (by omega)
    exact breakPatternsLoop_spec a b (b - a) (2 ^ bitsLen (b - a)) (a + (b - a) / 4 * 2 - 1)
      (by omega) hpos hpow (by omega) (by omega) 3 data (b - a) 0 (by omega)
  · exact SwapsIn.refl _

theorem order2_mem (data : List α) (x y s : Nat) :
    ((order2 less data x y s).1 = x ∧ (order2 less data x y s).2.1 = y) ∨
      ((order2 less data x y s).1 = y ∧ (order2 less data x y s).2.1 = x) := by
  unfold order2
  split
  · exact Or.inr ⟨rfl, rfl⟩
  · exact Or.inl ⟨rfl, rfl⟩

theorem median_mem (data : List α) (x y z s : Nat) :
    (median less data x y z s).1 = x ∨ (median less data x y z s).1 = y ∨
      (median less data x y z s).1 = z := by
  unfold median
  simp only []
  have h1 := order2_mem less data x y s
  generalize order2 less data x y s = r1 at h1 ⊢
  have h2 := order2_mem less data r1.2.1 z r1.2.2
  generalize order2 less data r1.2.1 z r1.2.2 = r2 at h2 ⊢
  have h3 := order2_mem less data r1.1 r2.1 r2.2.2
  generalize order2 less data r1.1 r2.1 r2.2.2 = r3 at h3 ⊢
  rcases h1 with ⟨e1, e2⟩ | ⟨e1, e2⟩ <;> rcases h2 with ⟨e3, e4⟩ | ⟨e3, e4⟩ <;>
    rcases h3 with ⟨e5, e6⟩ | ⟨e5, e6⟩ <;> simp_all

theorem choosePivot_bounds (data : List α) (a b : Nat) (h : 8 ≤ b - a) :
    a ≤ (choosePivot less data a b).1 ∧ (choosePivot less data a b).1 < b := by
  have hr : ∀ r : Nat × Nat,
      (if r.2 = 0 then (r.1, SortedHint.increasingHint)
        else if r.2 = 12 then (r.1, SortedHint.decreasingHint)
        else (r.1, SortedHint.unknownHint)).1 = r.1 := by
    intro r; split
    · rfl
    · split <;> rfl
  unfold choosePivot
  simp only []
  rw [hr, if_pos h]
  by_cases h50 : b - a ≥ 50
  · rw [if_pos h50]
    have m1 := median_mem less data (a + (b - a) / 4 * 1 - 1) (a + (b - a) / 4 * 1)
      (a + (b - a) / 4 * 1 + 1) 0
    unfold medianAdjacent
    generalize median less data (a + (b - a) / 4 * 1 - 1) (a + (b - a) / 4 * 1)
      (a + (b - a) / 4 * 1 + 1) 0 = ri at m1 ⊢
    have m2 := median_mem less data (a + (b - a) / 4 * 2 - 1) (a + (b - a) / 4 * 2)
      (a + (b - a) / 4 * 2 + 1) ri.2
    generalize median less data (a + (b - a) / 4 * 2 - 1) (a + (b - a) / 4 * 2)
      (a + (b - a) / 4 * 2 + 1) ri.2 = rj at m2 ⊢
    have m3 := median_mem less data (a + (b - a) / 4 * 3 - 1) (a + (b - a) / 4 * 3)
      (a + (b - a) / 4 * 3 + 1) rj.2
    generalize median less data (a + (b - a) / 4 * 3 - 1) (a + (b - a) / 4 * 3)
      (a + (b - a) / 4 * 3 + 1) rj.2 = rk at m3 ⊢
    have m4 := median_mem less data ri.1 rj.1 rk.1 rk.2
    generalize median less data ri.1 rj.1 rk.1 rk.2 = r at m4 ⊢
    omega
  · rw [if_neg h50]
    have m4 := median_mem less data (a + (b - a) / 4 * 1) (a + (b - a) / 4 * 2)
      (a + (b - a) / 4 * 3) 0
    generalize median less data (a + (b - a) / 4 * 1) (a + (b - a) / 4 * 2)
      (a + (b - a) / 4 * 3) 0 = r at m4 ⊢
    omega

end Helpers

section PartialInsertion
variable {α : Type} (key : α → Int) (less : α → α → Bool)

theorem sortedOn_of_adjacent (f : Nat → Int) (a b : Nat)
    (h : ∀ k, a < k → k < b → f (k - 1) ≤ f k) : SortedOn f a b := by
  intro i j hi hij hj
  induction j with
  | zero =>
    have : i = 0 := by omega
    subst this; exact le_refl _
  | succ j ih =>
    by_cases hij' : i = j + 1
    · subst hij'; exact le_refl _
    · have h1 := ih (by omega) (by omega)
      have h2 := h (j + 1) (by omega) hj
      simp only [Nat.add_sub_cancel] at h2
      exact le_trans h1 h2

theorem sortedScan_spec (hless : ∀ x y, less x y = decide (key x < key y)) (data : List α)
    (b : Nat) (hb : b ≤ data.length) :
    ∀ (n i : Nat), 1 ≤ i → i ≤ b → b - i ≤ n →
      i ≤ sortedScan less data b n i ∧ sortedScan less data b n i ≤ b ∧
      (∀ k, i ≤ k → k < sortedScan less data b n i →
        keyAt key data (k - 1) ≤ keyAt key data k) ∧
      (sortedScan less data b n i < b →
        keyAt key data (sortedScan less data b n i)
          < keyAt key data (sortedScan less data b n i - 1)) := by
  intro n
  induction n with
  | zero =>
    intro i h1 hib hn
    simp only [sortedScan]
    exact ⟨le_refl _, hib, fun k h1 h2 => by omega, fun h => by omega⟩
  | succ n ih =>
    intro i h1 hib hn
    simp only [sortedScan]
    by_cases hcond : (decide (i < b) && !Less less data i (i - 1)) = true
    · rw [if_pos hcond]
      simp only [Bool.and_eq_true, decide_eq_true_eq, Bool.not_eq_true'] at hcond
      obtain ⟨hlt, hnl⟩ := hcond
      rw [Less_eq key less hless data i (i - 1) (by omega) (by omega)] at hnl
      simp only [decide_eq_false_iff_not, not_lt] at hnl
      obtain ⟨r1, r2, r3, r4⟩ := ih (i + 1) (by omega) (by omega) (by omega)
      refine ⟨by omega, r2, ?_, r4⟩
      intro k hk1 hk2
      by_cases hki : k = i
      · subst hki; exact hnl
      · exact r3 k (by omega) hk2
    · rw [if_neg hcond]
      simp only [Bool.and_eq_true, decide_eq_true_eq, Bool.not_eq_true', not_and,
        Bool.not_eq_false] at hcond
      refine ⟨le_refl _, hib, fun k h1 h2 => by omega, ?_⟩
      intro hlt
      have := hcond hlt
      rw [Less_eq key less hless data i (i - 1) (by omega) (by omega)] at this
      simpa using this

theorem shiftLeft_eq (hless : ∀ x y, less x y = decide (key x < key y)) (a i : Nat) :
    ∀ (j : Nat) (data : List α), a ≤ j → j ≤ i → i < data.length →
      (a = 0 ∨ ∀ k, a ≤ k → k ≤ i → keyAt key data (a - 1) ≤ keyAt key data k) →
      shiftLeft less data j = insertionInner less a data j := by
  intro j
  induction j with
  | zero => intro data _ _ _ _; rfl
  | succ j ih =>
    intro data haj hji hlen hinv
    simp only [shiftLeft, insertionInner]
    by_cases hja : j + 1 > a
    · by_cases hl : Less less data (j + 1) j = true
      · simp only [hl, hja, decide_True, Bool.and_self, if_true, Bool.not_true,
          Bool.false_eq_true, if_false]
        apply ih (Swap data (j + 1) j) (by omega) (by omega) (by rw [Swap_length]; exact hlen)
        by_cases ha0 : a = 0
        · exact Or.inl ha0
        rcases hinv with h0 | hinv
        · exact Or.inl h0
        · right
          intro k hk1 hk2
          rw [keyAt_Swap key data (j + 1) j (a - 1) (by omega) (by omega),
            keyAt_Swap key data (j + 1) j k (by omega) (by omega),
            if_neg (by omega), if_neg (by omega)]
          split
          · exact hinv (j + 1) (by omega) (by omega)
          · split
            · exact hinv j (by omega) (by omega)
            · exact hinv k hk1 hk2
      · simp [hl]
    · have hja' : j + 1 = a := by omega
      have hnl : Less less data (j + 1) j = false := by
        rw [Less_eq key less hless data (j + 1) j (by omega) (by omega)]
        simp only [decide_eq_false_iff_not, not_lt]
        rcases hinv with h0 | hinv
        · omega
        · have := hinv a (le_refl _) (by omega)
          rw [← hja'] at this
          simpa using this
      simp [hnl, hja]

theorem shiftRight_spec (i b : Nat) :
    ∀ (n : Nat) (data : List α) (j : Nat), i + 1 ≤ j →
      SwapsIn i b data (shiftRight less b n data j) := by
  intro n
  induction n with
  | zero => intro data j _; exact SwapsIn.refl _
  | succ n ih =>
    intro data j hj
    simp only [shiftRight]
    split
    · rename_i hjb
      split
      · exact SwapsIn.refl _
      · exact (SwapsIn.swap data j (j - 1) ⟨by omega, hjb⟩ ⟨by omega, by omega⟩).trans
          (ih _ (j + 1) (by omega))
    · exact SwapsIn.refl _

theorem partialInsertionLoop_spec (hless : ∀ x y, less x y = decide (key x < key y))
    (a b : Nat) :
    ∀ (steps : Nat) (data : List α) (i : Nat), b ≤ data.length → a + 1 ≤ i → i ≤ b →
      SortedOn (keyAt key data) a i →
      (a = 0 ∨ ∀ k, a ≤ k → k < b → keyAt key data (a - 1) ≤ keyAt key data k) →
      SwapsIn a b data (partialInsertionLoop less a b steps data i).1 ∧
        ((partialInsertionLoop less a b steps data i).2 = true →
          SortedOn (keyAt key (partialInsertionLoop less a b steps data i).1) a b) := by
  intro steps
  induction steps with
  | zero =>
    intro data i _ _ _ _ _
    simp only [partialInsertionLoop]
    exact ⟨SwapsIn.refl _, fun h => by cases h⟩
  | succ steps ih =>
    intro data i hb hai hib hs hinv
    simp only [partialInsertionLoop]
    obtain ⟨c1, c2, c3, c4⟩ := sortedScan_spec key less hless data b hb (b - i) i (by omega) hib
      (le_refl _)
    generalize sortedScan less data b (b - i) i = i' at c1 c2 c3 c4 ⊢
    have hs' : SortedOn (keyAt key data) a i' := by
      apply sortedOn_of_adjacent
      intro k hk1 hk2
      by_cases hki : k < i
      · exact hs (k - 1) k (by omega) (by omega) hki
      · exact c3 k (by omega) hk2
    by_cases hend : i' = b
    · rw [if_pos hend]
      subst hend
      exact ⟨SwapsIn.refl _, fun _ => hs'⟩
    · rw [if_neg hend]
      by_cases hshort : b - a < 50
      · rw [if_pos hshort]
        exact ⟨SwapsIn.refl _, fun h => by cases h⟩
      · rw [if_neg hshort]
        -- the swap of the out-of-order pair
        have hsw1 : SwapsIn a b data (Swap data i' (i' - 1)) :=
          SwapsIn.swap data i' (i' - 1) ⟨by omega, by omega⟩ ⟨by omega, by omega⟩
        have hlen1 : b ≤ (Swap data i' (i' - 1)).length := by rw [Swap_length]; exact hb
        have hK1 : ∀ k, k < i' - 1 →
            keyAt key (Swap data i' (i' - 1)) k = keyAt key data k := by
          intro k hk
          rw [keyAt_Swap key data i' (i' - 1) k (by omega) (by omega), if_neg (by omega),
            if_neg (by omega)]
        have hinv1 : a = 0 ∨ ∀ k, a ≤ k → k < b →
            keyAt key (Swap data i' (i' - 1)) (a - 1) ≤ keyAt key (Swap data i' (i' - 1)) k := by
          by_cases ha0 : a = 0
          · exact Or.inl ha0
          rcases hinv with h0 | hinv
          · exact Or.inl h0
          · right
            intro k hk1 hk2
            rw [SwapsIn.keyAt_outside key hsw1 (a - 1) (Or.inl (by omega))]
            exact SwapsIn.forall_range key hsw1 (fun v => keyAt key data (a - 1) ≤ v) hinv k
              hk1 hk2
        generalize Swap data i' (i' - 1) = d1 at hsw1 hlen1 hK1 hinv1 ⊢
        -- the shift to the left
        have hleft : SwapsIn a b d1 (if i' - a ≥ 2 then shiftLeft less d1 (i' - 1) else d1) ∧
            SortedOn (keyAt key (if i' - a ≥ 2 then shiftLeft less d1 (i' - 1) else d1)) a i' := by
          by_cases h2 : i' - a ≥ 2
          · rw [if_pos h2]
            rw [shiftLeft_eq key less hless a (i' - 1) (i' - 1) d1 (by omega) (le_refl _)
              (by omega)
              (by
                rcases hinv1 with h0 | hinv1
                · exact Or.inl h0
                · exact Or.inr (fun k hk1 hk2 => hinv1 k hk1 (by omega)))]
            obtain ⟨q1, q2⟩ := insertionInner_spec key less hless a (i' - 1) (i' - 1) d1
              (by omega) (le_refl _) (by omega)
              (by
                intro p q hp hpq hq hpi hqi
                rw [hK1 p (by omega), hK1 q (by omega)]
                exact hs' p q hp (by omega) (by omega))
              (fun q h1 h2 => by omega)
            have e : i' - 1 + 1 = i' := by omega
            rw [e] at q1 q2
            exact ⟨q1.mono (le_refl _) (by omega), q2⟩
          · rw [if_neg h2]
            refine ⟨SwapsIn.refl _, ?_⟩
            intro p q hp hpq hq
            have : p = q := by omega
            subst this; exact le_refl _
        obtain ⟨hsw2, hs2⟩ := hleft
        have hlen2 : b ≤ (if i' - a ≥ 2 then shiftLeft less d1 (i' - 1) else d1).length := by
          rw [hsw2.length_eq]; exact hlen1
        generalize (if i' - a ≥ 2 then shiftLeft less d1 (i' - 1) else d1) = d2
          at hsw2 hs2 hlen2 ⊢
        -- the shift to the right
        have hright : SwapsIn i' b d2
            (if b - i' ≥ 2 then shiftRight less b (b - (i' + 1)) d2 (i' + 1) else d2) := by
          split
          · exact shiftRight_spec less i' b _ d2 (i' + 1) (le_refl _)
          · exact SwapsIn.refl _
        generalize (if b - i' ≥ 2 then shiftRight less b (b - (i' + 1)) d2 (i' + 1) else d2) = d3
          at hright ⊢
        have hsw3 : SwapsIn a b data d3 :=
          (hsw1.trans hsw2).trans (hright.mono (by omega) (le_refl _))
        obtain ⟨r1, r2⟩ := ih d3 i' (by rw [hsw3.length_eq]; exact hb) (by omega) c2
          (by
            intro p q hp hpq hq
            rw [SwapsIn.keyAt_outside key hright p (Or.inl (by omega)),
              SwapsIn.keyAt_outside key hright q (Or.inl (by omega))]
            exact hs2 p q hp hpq hq)
          (by
            by_cases ha0 : a = 0
            · exact Or.inl ha0
            rcases hinv with h0 | hinv
            · exact Or.inl h0
            · right
              intro k hk1 hk2
              rw [SwapsIn.keyAt_outside key hsw3 (a - 1) (Or.inl (by omega))]
              exact SwapsIn.forall_range key hsw3 (fun v => keyAt key data (a - 1) ≤ v) hinv k
                hk1 hk2)
        exact ⟨hsw3.trans r1, r2⟩

theorem partialInsertionSort_spec (hless : ∀ x y, less x y = decide (key x < key y))
    (a b : Nat) (data : List α) (hb : b ≤ data.length) (hab : a + 1 ≤ b)
    (hinv : a = 0 ∨ ∀ k, a ≤ k → k < b → keyAt key data (a - 1) ≤ keyAt key data k) :
    SwapsIn a b data (partialInsertionSort less data a b).1 ∧
      ((partialInsertionSort less data a b).2 = true →
        SortedOn (keyAt key (partialInsertionSort less data a b).1) a b) :=
  partialInsertionLoop_spec key less hless a b 5 data (a + 1) hb (le_refl _) hab
    (fun p q hp hpq hq => by
      have : p = q := by omega
      subst this; exact le_refl _)
    hinv

end PartialInsertion

section Pdqsort
variable {α : Type} (key : α → Int) (less : α → α → Bool)

theorem sortedOn_of_parts (f : Nat → Int) (a mid b : Nat)
    (hl : SortedOn f a mid) (hr : SortedOn f (mid + 1) b)
    (hlo : ∀ k, a ≤ k → k < mid → f k ≤ f mid) (hhi : ∀ k, mid < k → k < b → f mid ≤ f k) :
    SortedOn f a b := by
  intro i j hi hij hj
  by_cases h1 : j < mid
  · exact hl i j hi hij h1
  · by_cases h2 : i > mid
    · exact hr i j (by omega) hij hj
    · by_cases h3 : i = mid
      · by_cases h4 : j = mid
        · rw [h3, h4]
        · rw [h3]; exact hhi j (by omega) hj
      · by_cases h4 : j = mid
        · rw [h4]; exact hlo i hi (by omega)
        · exact le_trans (hlo i hi (by omega)) (hhi j (by omega) hj)

theorem inv_of_swapsIn {a b : Nat} {data out : List α} (h : SwapsIn a b data out)
    (hinv : a = 0 ∨ ∀ k, a ≤ k → k < b → keyAt key data (a - 1) ≤ keyAt key data k) :
    a = 0 ∨ ∀ k, a ≤ k → k < b → keyAt key out (a - 1) ≤ keyAt key out k := by
  by_cases ha0 : a = 0
  · exact Or.inl ha0
  rcases hinv with h0 | hinv
  · exact Or.inl h0
  · right
    intro k hk1 hk2
    rw [SwapsIn.keyAt_outside key h (a - 1) (Or.inl (by omega))]
    exact SwapsIn.forall_range key h (fun v => keyAt key data (a - 1) ≤ v) hinv k hk1 hk2

theorem pdqsort_spec (hless : ∀ x y, less x y = decide (key x < key y)) :
    ∀ (fuel : Nat) (data : List α) (a b limit : Nat) (wasBalanced wasPartitioned : Bool),
      a ≤ b → b ≤ data.length → b - a < fuel →
      (a = 0 ∨ ∀ k, a ≤ k → k < b → keyAt key data (a - 1) ≤ keyAt key data k) →
      SwapsIn a b data (pdqsort less fuel data a b limit wasBalanced wasPartitioned) ∧
        SortedOn (keyAt key (pdqsort less fuel data a b limit wasBalanced wasPartitioned))
          a b := by
  intro fuel
  induction fuel with
  | zero => intro data a b limit wb wp hab hb hfuel; omega
  | succ fuel ih =>
    intro data a b limit wb wp hab hb hfuel hinv
    simp only [pdqsort]
    by_cases h12 : b - a ≤ 12
    · rw [if_pos h12]
      exact insertionSort_spec key less hless a b data hb
    rw [if_neg h12]
    by_cases hlim : limit = 0
    · rw [if_pos hlim]
      exact heapSort_spec key less hless a b data hab hb
    rw [if_neg hlim]
    -- breakPatterns
    have h1 : SwapsIn a b data (if (!wb) = true then breakPatterns data a b else data) := by
      split
      · exact breakPatterns_spec a b data hab
      · exact SwapsIn.refl _
    generalize (if (!wb) = true then breakPatterns data a b else data) = d1 at h1 ⊢
    generalize (if (!wb) = true then limit - 1 else limit) = limit'
    -- choosePivot, reverseRange
    have hpv := choosePivot_bounds less d1 a b (by omega)
    generalize choosePivot less d1 a b = ph at hpv ⊢
    have h2 : SwapsIn a b d1 (if decide (ph.2 = SortedHint.decreasingHint) = true
        then reverseRange d1 a b else d1) := by
      split
      · exact reverseRange_spec a b d1 (by omega)
      · exact SwapsIn.refl _
    generalize (if decide (ph.2 = SortedHint.decreasingHint) = true
        then reverseRange d1 a b else d1) = d2 at h2 ⊢
    have hpiv : a ≤ (if decide (ph.2 = SortedHint.decreasingHint) = true
        then b - 1 - (ph.1 - a) else ph.1) ∧
        (if decide (ph.2 = SortedHint.decreasingHint) = true
          then b - 1 - (ph.1 - a) else ph.1) < b := by
      split <;> omega
    generalize (if decide (ph.2 = SortedHint.decreasingHint) = true
        then b - 1 - (ph.1 - a) else ph.1) = pivot at hpiv ⊢
    generalize (if decide (ph.2 = SortedHint.decreasingHint) = true
        then SortedHint.increasingHint else ph.2) = hint
    generalize (wb && wp && decide (hint = SortedHint.increasingHint)) = tryPartial
    -- partialInsertionSort
    have h12' : SwapsIn a b data d2 := h1.trans h2
    have hinv2 := inv_of_swapsIn key h12' hinv
    have hlen2 : b ≤ d2.length := by rw [h12'.length_eq]; exact hb
    have h3 : SwapsIn a b d2
          (if tryPartial = true then partialInsertionSort less d2 a b else (d2, false)).1 ∧
        ((if tryPartial = true then partialInsertionSort less d2 a b else (d2, false)).2 = true →
          SortedOn (keyAt key
            (if tryPartial = true then partialInsertionSort less d2 a b else (d2, false)).1)
            a b) := by
      split
      · exact partialInsertionSort_spec key less hless a b d2 hlen2 (by omega) hinv2
      · exact ⟨SwapsIn.refl _, fun h => by cases h⟩
    generalize (if tryPartial = true then partialInsertionSort less d2 a b else (d2, false)) = pr
      at h3 ⊢
    obtain ⟨h3a, h3b⟩ := h3
    have h123 : SwapsIn a b data pr.1 := h12'.trans h3a
    by_cases hdone : pr.2 = true
    · rw [if_pos hdone]
      exact ⟨h123, h3b hdone⟩
    rw [if_neg hdone]
    have hinv3 := inv_of_swapsIn key h123 hinv
    have hlen3 : b ≤ pr.1.length := by rw [h123.length_eq]; exact hb
    generalize pr.1 = d3 at h123 hinv3 hlen3 ⊢
    by_cases heq : (decide (a > 0) && !Less less d3 (a - 1) pivot) = true
    · rw [if_pos heq]
      simp only [Bool.and_eq_true, decide_eq_true_eq, Bool.not_eq_true'] at heq
      obtain ⟨ha0, hnl⟩ := heq
      rw [Less_eq key less hless d3 (a - 1) pivot (by omega) (by omega)] at hnl
      simp only [decide_eq_false_iff_not, not_lt] at hnl
      have hge : ∀ k, a ≤ k → k < b → keyAt key d3 pivot ≤ keyAt key d3 k := by
        intro k hk1 hk2
        rcases hinv3 with h0 | hinv3
        · omega
        · exact le_trans hnl (hinv3 k hk1 hk2)
      obtain ⟨e1, e2, e3, e4, e5⟩ := partitionEqual_spec key less hless a b pivot d3 hlen3
        hpiv.1 hpiv.2
      have hge' := SwapsIn.forall_range key e1 (fun v => keyAt key d3 pivot ≤ v) hge
      generalize partitionEqual less d3 a b pivot = r at e1 e2 e3 e4 e5 hge' ⊢
      obtain ⟨r1, r2⟩ := ih r.1 r.2 b limit' wb wp e3 (by rw [e1.length_eq]; exact hlen3)
        (by omega)
        (Or.inr (fun k hk1 hk2 =>
          le_trans (e4 (r.2 - 1) (by omega) (by omega)) (le_of_lt (e5 k hk1 hk2))))
      refine ⟨(h123.trans e1).trans (r1.mono (by omega) (le_refl _)), ?_⟩
      have hlt' := SwapsIn.forall_range key r1 (fun v => keyAt key d3 pivot < v) e5
      intro i j hi hij hj
      by_cases hj1 : j < r.2
      · rw [SwapsIn.keyAt_outside key r1 i (Or.inl (by omega)),
          SwapsIn.keyAt_outside key r1 j (Or.inl (by omega))]
        exact le_trans (e4 i hi (by omega)) (hge' j (by omega) hj)
      · by_cases hi1 : i < r.2
        · rw [SwapsIn.keyAt_outside key r1 i (Or.inl (by omega))]
          exact le_trans (e4 i hi hi1) (le_of_lt (hlt' j (by omega) hj))
        · exact r2 i j (by omega) hij hj
    · rw [if_neg heq]
      obtain ⟨p1, p2, p3, p4, p5⟩ := partition_spec key less hless a b pivot d3 hlen3
        hpiv.1 hpiv.2
      have hinv4 := inv_of_swapsIn key p1 hinv3
      generalize partition less d3 a b pivot = r at p1 p2 p3 p4 p5 hinv4 ⊢
      have hlen4 : b ≤ r.1.length := by rw [p1.length_eq]; exact hlen3
      have hinvL : a = 0 ∨ ∀ k, a ≤ k → k < r.2.1 → keyAt key r.1 (a - 1) ≤ keyAt key r.1 k := by
        rcases hinv4 with h0 | h4
        · exact Or.inl h0
        · exact Or.inr (fun k hk1 hk2 => h4 k hk1 (by omega))
      by_cases hside : r.2.1 - a < b - r.2.1
      · rw [if_pos hside]
        obtain ⟨l1, l2⟩ := ih r.1 a r.2.1 limit' true true p2 (by omega) (by omega) hinvL
        generalize pdqsort less fuel r.1 a r.2.1 limit' true true = d5 at l1 l2 ⊢
        have hmid5 : keyAt key d5 r.2.1 = keyAt key r.1 r.2.1 :=
          SwapsIn.keyAt_outside key l1 r.2.1 (Or.inr (le_refl _))
        have hlo5 := SwapsIn.forall_range key l1 (fun v => v < keyAt key r.1 r.2.1) p4
        have hhi5 : ∀ k, r.2.1 < k → k < b → keyAt key r.1 r.2.1 ≤ keyAt key d5 k := by
          intro k hk1 hk2
          rw [SwapsIn.keyAt_outside key l1 k (Or.inr (by omega))]
          exact p5 k hk1 hk2
        obtain ⟨q1, q2⟩ := ih d5 (r.2.1 + 1) b limit'
          (decide (r.2.1 - a ≥ (b - a) / 8)) r.2.2 (by omega)
          (by rw [l1.length_eq]; exact hlen4) (by omega)
          (Or.inr (fun k hk1 hk2 => by
            simp only [Nat.add_sub_cancel]
            rw [hmid5]; exact hhi5 k (by omega) hk2))
        generalize pdqsort less fuel d5 (r.2.1 + 1) b limit'
          (decide (r.2.1 - a ≥ (b - a) / 8)) r.2.2 = d6 at q1 q2 ⊢
        refine ⟨((h123.trans p1).trans (l1.mono (le_refl _) (by omega))).trans
          (q1.mono (by omega) (le_refl _)), ?_⟩
        have hmid6 : keyAt key d6 r.2.1 = keyAt key r.1 r.2.1 := by
          rw [SwapsIn.keyAt_outside key q1 r.2.1 (Or.inl (by omega)), hmid5]
        apply sortedOn_of_parts (keyAt key d6) a r.2.1 b
        · intro i j hi hij hj
          rw [SwapsIn.keyAt_outside key q1 i (Or.inl (by omega)),
            SwapsIn.keyAt_outside key q1 j (Or.inl (by omega))]
          exact l2 i j hi hij hj
        · exact q2
        · intro k hk1 hk2
          rw [hmid6, SwapsIn.keyAt_outside key q1 k (Or.inl (by omega))]
          exact le_of_lt (hlo5 k hk1 hk2)
        · intro k hk1 hk2
          rw [hmid6]
          exact SwapsIn.forall_range key q1 (fun v => keyAt key r.1 r.2.1 ≤ v)
            (fun k' h1 h2 => hhi5 k' (by omega) h2) k (by omega) hk2
      · rw [if_neg hside]
        obtain ⟨l1, l2⟩ := ih r.1 (r.2.1 + 1) b limit' true true (by omega) hlen4 (by omega)
          (Or.inr (fun k hk1 hk2 => by
            simp only [Nat.add_sub_cancel]
            exact p5 k (by omega) hk2))
        generalize pdqsort less fuel r.1 (r.2.1 + 1) b limit' true true = d5 at l1 l2 ⊢
        have hmid5 : keyAt key d5 r.2.1 = keyAt key r.1 r.2.1 :=
          SwapsIn.keyAt_outside key l1 r.2.1 (Or.inl (by omega))
        have hhi5 := SwapsIn.forall_range key l1 (fun v => keyAt key r.1 r.2.1 ≤ v)
          (fun k' h1 h2 => p5 k' (by omega) h2)
        have hlo5 : ∀ k, a ≤ k → k < r.2.1 → keyAt key d5 k < keyAt key r.1 r.2.1 := by
          intro k hk1 hk2
          rw [SwapsIn.keyAt_outside key l1 k (Or.inl (by omega))]
          exact p4 k hk1 hk2
        have hinv5 : a = 0 ∨ ∀ k, a ≤ k → k < r.2.1 →
            keyAt key d5 (a - 1) ≤ keyAt key d5 k := by
          by_cases ha0 : a = 0
          · exact Or.inl ha0
          rcases hinvL with h0 | hL
          · exact Or.inl h0
          · right
            intro k hk1 hk2
            rw [SwapsIn.keyAt_outside key l1 (a - 1) (Or.inl (by omega)),
              SwapsIn.keyAt_outside key l1 k (Or.inl (by omega))]
            exact hL k hk1 hk2
        obtain ⟨q1, q2⟩ := ih d5 a r.2.1 limit'
          (decide (b - r.2.1 ≥ (b - a) / 8)) r.2.2 p2
          (by rw [l1.length_eq]; omega) (by omega) hinv5
        generalize pdqsort less fuel d5 a r.2.1 limit'
          (decide (b - r.2.1 ≥ (b - a) / 8)) r.2.2 = d6 at q1 q2 ⊢
        refine ⟨((h123.trans p1).trans (l1.mono (by omega) (le_refl _))).trans
          (q1.mono (le_refl _) (by omega)), ?_⟩
        have hmid6 : keyAt key d6 r.2.1 = keyAt key r.1 r.2.1 := by
          rw [SwapsIn.keyAt_outside key q1 r.2.1 (Or.inr (le_refl _)), hmid5]
        apply sortedOn_of_parts (keyAt key d6) a r.2.1 b
        · exact q2
        · intro i j hi hij hj
          rw [SwapsIn.keyAt_outside key q1 i (Or.inr (by omega)),
            SwapsIn.keyAt_outside key q1 j (Or.inr (by omega))]
          exact l2 i j hi hij hj
        · intro k hk1 hk2
          rw [hmid6]
          exact le_of_lt (SwapsIn.forall_range key q1 (fun v => v < keyAt key r.1 r.2.1)
            hlo5 k hk1 hk2)
        · intro k hk1 hk2
          rw [hmid6, SwapsIn.keyAt_outside key q1 k (Or.inr (by omega))]
          exact hhi5 k (by omega) hk2

theorem Slice_spec (hless : ∀ x y, less x y = decide (key x < key y)) (data : List α) :
    (Slice less data).Perm data ∧ (Slice less data).Pairwise (fun x y => key x ≤ key y) := by
  obtain ⟨h1, h2⟩ := pdqsort_spec key less hless (data.length + 1) data 0 data.length
    (bitsLen data.length) true true (Nat.zero_le _) (le_refl _) (by omega) (Or.inl rfl)
  refine ⟨h1.perm, ?_⟩
  apply pairwise_of_SortedOn
  unfold Slice
  rw [h1.length_eq]
  exact h2

end Pdqsort

section Stability
variable {α : Type} (key : α → Int) (less : α → α → Bool)

theorem Swap_cons_succ (x : α) (xs : List α) (i j : Nat) :
    Swap (x :: xs) (i + 1) (j + 1) = x :: Swap xs i j := by
  simp only [Swap, List.getElem?_cons_succ]
  split <;> simp

theorem filter_Swap_adjacent (p : α → Bool) :
    ∀ (data : List α) (j : Nat),
      (∀ x y, data[j]? = some x → data[j + 1]? = some y → ¬ (p x = true ∧ p y = true)) →
      (Swap data (j + 1) j).filter p = data.filter p := by
  intro data
  induction data with
  | nil => intro j _; simp [Swap]
  | cons x xs ih =>
    intro j h
    cases j with
    | zero =>
      cases xs with
      | nil => simp [Swap]
      | cons y rest =>
        have hxy := h x y (by simp) (by simp)
        have : Swap (x :: y :: rest) 1 0 = y :: x :: rest := by simp [Swap]
        rw [this]
        by_cases hx : p x = true <;> by_cases hy : p y = true <;>
          simp_all [List.filter_cons]
    | succ j =>
      rw [Swap_cons_succ, List.filter_cons, List.filter_cons, ih j]
      intro a b ha hb
      exact h a b (by simpa using ha) (by simpa using hb)

theorem Less_true (hless : ∀ x y, less x y = decide (key x < key y)) (data : List α)
    (i j : Nat) (h : Less less data i j = true) :
    ∀ x y, data[j]? = some x → data[i]? = some y → key y < key x := by
  intro x y hx hy
  simp only [Less, hx, hy, hless, decide_eq_true_eq] at h
  exact h

theorem insertionInner_filter (hless : ∀ x y, less x y = decide (key x < key y)) (a : Nat)
    (s : Int) :
    ∀ (j : Nat) (data : List α),
      (insertionInner less a data j).filter (fun x => decide (key x = s))
        = data.filter (fun x => decide (key x = s)) := by
  intro j
  induction j with
  | zero => intro data; rfl
  | succ j ih =>
    intro data
    simp only [insertionInner]
    split
    · rename_i hcond
      simp only [Bool.and_eq_true, decide_eq_true_eq] at hcond
      rw [ih, filter_Swap_adjacent]
      intro x y hx hy hboth
      have := Less_true key less hless data (j + 1) j hcond.2 x y hx hy
      simp only [decide_eq_true_eq] at hboth
      omega
    · rfl

theorem insertionOuter_filter (hless : ∀ x y, less x y = decide (key x < key y)) (a : Nat)
    (s : Int) :
    ∀ (n : Nat) (data : List α) (i : Nat),
      (insertionOuter less a data i n).filter (fun x => decide (key x = s))
        = data.filter (fun x => decide (key x = s)) := by
  intro n
  induction n with
  | zero => intro data i; rfl
  | succ n ih =>
    intro data i
    simp only [insertionOuter]
    rw [ih, insertionInner_filter key less hless]

theorem Slice_small_filter (hless : ∀ x y, less x y = decide (key x < key y))
    (data : List α) (hlen : data.length ≤ 12) (s : Int) :
    (Slice less data).filter (fun x => decide (key x = s))
      = data.filter (fun x => decide (key x = s)) := by
  unfold Slice
  simp only [pdqsort]
  rw [if_pos (by omega)]
  unfold insertionSort
  exact insertionOuter_filter key less hless 0 s _ data _

end Stability


/-- C2: for every sequence of snapshots handed to the diff loop and every index
`i + 1`, the line with the change of the resource count is reported exactly when
`len(resources(i+1)) - len(resources(i))` is not zero, and it carries that
difference. -/
theorem resource_count_change (states : List StateFile) :
    ∃ blocks, diff states = some blocks ∧ blocks.length = states.length ∧
      ∀ i prev cur block, states[i]? = some prev → states[i + 1]? = some cur →
        blocks[i + 1]? = some block →
        ∀ d, Line.change d ∈ block ↔
          d = (cur.Resources.length : Int) - (prev.Resources.length : Int) ∧ d ≠ 0 := by
  obtain ⟨blocks, hb, hlen, hk⟩ := diff_spec states
  refine ⟨blocks, hb, hlen, ?_⟩
  intro i prev cur block hprev hcur hblock d
  obtain ⟨vars', hbody⟩ := hk (i + 1) cur block hcur hblock
  rw [take_succ_of_getElem? states i prev hprev, varsAfter_snoc] at hbody
  rw [loopBody_mem_change hbody]
  simp

/-- C2, the instance of the specification: resource counts 5, 5, 8, 8, 3 give
the changes 0, 3, 0, -5, of which the two non-zero ones are reported. -/
theorem resource_count_change_example :
    (diff exampleCounts).map (fun blocks => blocks.map changesOf)
      = some [[], [], [3], [], [-5]] := by
  decide

/-- C1 (as amended): for every sequence of snapshots handed to the diff loop
and every index `i + 1`: when the number of resources of snapshot `i + 1`
differs from that of snapshot `i`, the type changes reported are exactly the
types present in snapshot `i + 1` whose count differs from their count in
snapshot `i` (0 when absent), each with (current count, previous count); when
the two snapshots have the same number of resources, no type change is
reported. -/
theorem type_changes (states : List StateFile) :
    ∃ blocks, diff states = some blocks ∧ blocks.length = states.length ∧
      ∀ i prev cur block, states[i]? = some prev → states[i + 1]? = some cur →
        blocks[i + 1]? = some block →
        (cur.Resources.length ≠ prev.Resources.length →
          ∀ t c p, Line.typeChange t c p ∈ block ↔
            c = typeCount cur.Resources t ∧ p = typeCount prev.Resources t ∧
              typeCount cur.Resources t ≠ 0 ∧ c ≠ p) ∧
        (cur.Resources.length = prev.Resources.length →
          ∀ t c p, Line.typeChange t c p ∉ block) := by
  obtain ⟨blocks, hb, hlen, hk⟩ := diff_spec states
  refine ⟨blocks, hb, hlen, ?_⟩
  intro i prev cur block hprev hcur hblock
  obtain ⟨vars', hbody⟩ := hk (i + 1) cur block hcur hblock
  rw [take_succ_of_getElem? states i prev hprev, varsAfter_snoc] at hbody
  constructor
  · intro hne t c p
    rw [loopBody_mem_typeChange hbody, mem_typeChangeLines]
    have : (cur.Resources.length : Int) - (prev.Resources.length : Int) ≠ 0 := by omega
    simp [this]
  · intro heq t c p
    rw [loopBody_mem_typeChange hbody]
    simp [heq]

/-- C1 as stated fails: from one resource of type `a` to one resource of type
`b` the count of `b` goes from 0 to 1, yet no type change is reported, because
the number of resources is unchanged. The instance of the specification (two
more resources in the later snapshot) is reported as the claim says. -/
theorem type_changes_counterexample :
    (typeCount (snapshot "s-2.tfstate" 2 ["b"]).Resources "b" = 1 ∧
      typeCount (snapshot "s-1.tfstate" 1 ["a"]).Resources "b" = 0 ∧
      (diff [snapshot "s-1.tfstate" 1 ["a"], snapshot "s-2.tfstate" 2 ["b"]]).map
        (fun blocks => blocks.map typeChangesOf) = some [[], []]) ∧
    (diff [snapshot "s-1.tfstate" 1 ["aws_s3_bucket", "aws_iam_role", "aws_s3_bucket"],
        snapshot "s-2.tfstate" 2
          ["aws_s3_bucket", "aws_iam_role", "aws_vpc", "aws_iam_role", "aws_s3_bucket"]]).map
        (fun blocks => blocks.map typeChangesOf)
      = some [[], [("aws_iam_role", 2, 1), ("aws_vpc", 1, 0)]] := by
  decide

/-- C5 (as amended): for every sequence of snapshots handed to the diff loop
and every index `i`: no elapsed time is reported when the timestamp of snapshot
`i` does not parse, nor when no earlier snapshot had a timestamp that parsed;
when the timestamp of snapshot `i` parses and the most recent earlier timestamp
that parsed is not the zero instant, exactly the elapsed time `Sub` of the two is
reported, which is their difference whenever that fits a `Duration`. -/
theorem elapsed_time (states : List StateFile) :
    ∃ blocks, diff states = some blocks ∧ blocks.length = states.length ∧
      ∀ i cur block, states[i]? = some cur → blocks[i]? = some block →
        (capturedAt cur = none → ∀ d, Line.timeDelta d ∉ block) ∧
        (lastCaptured (states.take i) = none → ∀ d, Line.timeDelta d ∉ block) ∧
        (∀ t u, capturedAt cur = some t → lastCaptured (states.take i) = some u →
          u.IsZero = false →
          (∀ d, Line.timeDelta d ∈ block ↔ d = t.Sub u) ∧
          (minDuration ≤ t.nanosBetween u → t.nanosBetween u ≤ maxDuration →
            t.Sub u = t.nanosBetween u)) := by
  obtain ⟨blocks, hb, hlen, hk⟩ := diff_spec states
  refine ⟨blocks, hb, hlen, ?_⟩
  intro i cur block hcur hblock
  obtain ⟨vars', hbody⟩ := hk i cur block hcur hblock
  have hprev := varsAfter_prevTimestamp (states.take i) LoopVars.init
  refine ⟨?_, ?_, ?_⟩
  · intro hnone d
    rw [loopBody_mem_timeDelta hbody]
    simp [hnone]
  · intro hnone d
    rw [loopBody_mem_timeDelta hbody, hprev, hnone]
    simp [LoopVars.init, Time.zero, Time.IsZero]
  · intro t u ht hu hz
    constructor
    · intro d
      rw [loopBody_mem_timeDelta hbody, hprev, hu]
      simp [ht, hz]
    · intro hlo hhi
      simp only [Time.Sub]
      rw [if_neg (by omega), if_neg (by omega)]

/-- C5 as stated fails twice. A snapshot named after the zero instant
(0001-01-01T00:00:00Z) has a timestamp that parses, yet no elapsed time is
reported for the next snapshot. And between the years 1700 and 2024 the elapsed
time reported is the largest `Duration`, not the difference of the two
timestamps. The instance of the specification (one hour across an unparseable
name) is reported as the claim says. -/
theorem elapsed_time_counterexample :
    ((capturedAt (snapshot "s-00010101T000000Z.tfstate" 1 [])).isSome = true ∧
      (capturedAt (snapshot "s-20240101T000000Z.tfstate" 2 [])).isSome = true ∧
      (diff [snapshot "s-00010101T000000Z.tfstate" 1 [],
          snapshot "s-20240101T000000Z.tfstate" 2 []]).map (fun blocks => blocks.map elapsedOf)
        = some [[], []]) ∧
    ((capturedAt (snapshot "s-17000101T000000Z.tfstate" 1 [])).map
        (fun u => (Time.mk 63839664000 0).nanosBetween u) = some 10224403200000000000 ∧
      capturedAt (snapshot "s-20240101T000000Z.tfstate" 2 []) = some ⟨63839664000, 0⟩ ∧
      (diff [snapshot "s-17000101T000000Z.tfstate" 1 [],
          snapshot "s-20240101T000000Z.tfstate" 2 []]).map (fun blocks => blocks.map elapsedOf)
        = some [[], [9223372036854775807]]) ∧
    (diff [snapshot "s-20240101T000000Z.tfstate" 1 [], snapshot "s-BADSUFFIX.tfstate" 2 [],
        snapshot "s-20240101T010000Z.tfstate" 3 []]).map (fun blocks => blocks.map elapsedOf)
      = some [[], [], [3600000000000]] := by
  decide

theorem loopBody_mem {vars : LoopVars} {i : Nat} {state : StateFile} {block : List Line}
    {vars' : LoopVars} (h : loopBody vars i state = some (block, vars')) (l : Line) :
    l ∈ block ↔
      l = Line.file state.FileInfo.Name ∨ l = Line.serial state.Serial ∨
      l = Line.lineage state.Lineage ∨
      (∃ t, capturedAt state = some t ∧ (l = Line.timestamp t ∨
        (vars.prevTimestamp.IsZero = false ∧ l = Line.timeDelta (t.Sub vars.prevTimestamp)))) ∨
      (capturedAt state = none ∧ l = Line.timestampError) ∨
      (∃ u, callerIdentity state.Values = some u ∧ l = Line.callerId u) ∨
      l = Line.resourceCount (state.Resources.length : Int) ∨
      l ∈ changeLines i vars (state.Resources.length : Int) (countTypes state.Resources) ∨
      l = Line.separator := by
  rw [loopBody_eq] at h
  simp only [Option.some.injEq, Prod.mk.injEq] at h
  rw [← h.1]
  cases hc : capturedAt state <;> cases hi : callerIdentity state.Values <;>
    cases hz : vars.prevTimestamp.IsZero <;> simp [hz] <;> tauto

theorem reportLineages_eq (lineageMap : List (String × List StateFile)) :
    reportLineages lineageMap = some (lineageMap.flatMap (fun p =>
      [Line.lineageHeader p.1, Line.found p.2.length]
        ++ ((diff (sortBySerial p.2)).getD []).flatten)) := by
  induction lineageMap with
  | nil => rfl
  | cons p rest ih =>
    obtain ⟨lineage, states⟩ := p
    obtain ⟨blocks, hb, _, _⟩ := diff_spec (sortBySerial states)
    simp only [reportLineages, reportLineage, hb, ih, List.flatMap_cons, Option.getD_some]

/-- C9: for every sequence of snapshots handed to the diff loop, the loop yields
one block of lines per snapshot, in order: block `i` opens with the file name,
serial and lineage of snapshot `i` and closes with the only separator line in
it. The block of the first snapshot has no elapsed time, no change of the
resource count and no type change. In the whole report every lineage is
diffed from the zero values of the loop variables, whatever precedes it. -/
theorem one_record_per_snapshot (states : List StateFile) :
    (∃ blocks, diff states = some blocks ∧ blocks.length = states.length ∧
      (∀ (i : Nat) (cur : StateFile) (block : List Line),
        states[i]? = some cur → blocks[i]? = some block →
        ∃ mid, block = Line.file cur.FileInfo.Name :: Line.serial cur.Serial
            :: Line.lineage cur.Lineage :: (mid ++ [Line.separator]) ∧
          ∀ l ∈ mid, l ≠ Line.separator ∧ ∀ n, l ≠ Line.file n) ∧
      (∀ block, blocks[0]? = some block → ∀ l ∈ block, l.isDelta = false)) ∧
    ∀ lineageMap : List (String × List StateFile),
      reportLineages lineageMap = some (lineageMap.flatMap (fun p =>
        [Line.lineageHeader p.1, Line.found p.2.length]
          ++ ((diff (sortBySerial p.2)).getD []).flatten)) := by
  refine ⟨?_, reportLineages_eq⟩
  obtain ⟨blocks, hb, hlen, hk⟩ := diff_spec states
  refine ⟨blocks, hb, hlen, ?_, ?_⟩
  · intro i cur block hcur hblock
    obtain ⟨vars', hbody⟩ := hk i cur block hcur hblock
    rw [loopBody_eq] at hbody
    simp only [Option.some.injEq, Prod.mk.injEq] at hbody
    refine ⟨(match capturedAt cur with
            | some timestamp => [Line.timestamp timestamp] ++
                (if !(varsAfter LoopVars.init (List.take i states)).prevTimestamp.IsZero
                  then [Line.timeDelta
                    (timestamp.Sub (varsAfter LoopVars.init (List.take i states)).prevTimestamp)]
                  else [])
            | none => [Line.timestampError])
        ++ (match callerIdentity cur.Values with
            | some userId => [Line.callerId userId]
            | none => [])
        ++ [Line.resourceCount (cur.Resources.length : Int)]
        ++ changeLines i (varsAfter LoopVars.init (List.take i states))
            (cur.Resources.length : Int) (countTypes cur.Resources), ?_, ?_⟩
    · rw [← hbody.1]
      cases capturedAt cur <;> cases callerIdentity cur.Values <;> simp
    · intro l hl
      simp only [List.mem_append, List.mem_singleton] at hl
      rcases hl with ((hl | hl) | hl) | hl
      · revert hl
        cases capturedAt cur <;>
          cases (varsAfter LoopVars.init (List.take i states)).prevTimestamp.IsZero <;>
          simp <;> aesop
      · revert hl
        cases callerIdentity cur.Values <;> simp
        intro h
        subst h
        exact ⟨by simp, by simp⟩
      · subst hl; exact ⟨by simp, by simp⟩
      · rcases changeLines_cases _ _ _ _ _ hl with ⟨_, rfl⟩ | rfl | ⟨_, _, _, rfl⟩ <;>
          exact ⟨by simp, by simp⟩
  · intro block hblock l hl
    cases states with
    | nil => simp at hlen; subst hlen; simp at hblock
    | cons s rest =>
      obtain ⟨vars', hbody⟩ := hk 0 s block (by simp) hblock
      rw [loopBody_mem hbody] at hl
      simp only [List.take_zero, varsAfter, changeLines_zero, List.not_mem_nil, false_or] at hl
      rcases hl with rfl | rfl | rfl | ⟨t, _, hl⟩ | ⟨_, rfl⟩ | ⟨u, _, rfl⟩ | rfl | rfl
      · rfl
      · rfl
      · rfl
      · rcases hl with rfl | ⟨hz, _⟩
        · rfl
        · simp [LoopVars.init, Time.zero, Time.IsZero] at hz
      · rfl
      · rfl
      · rfl
      · rfl

/-- C8: identity extraction is a total function of the values document (a nil
document included). An identity is reported exactly when `values["data"]`,
then `["aws_caller_identity"]`, then `["current"]` are present and are maps and
`["user_id"]` is present and is a string, and it is that string. The lines a
snapshot reports are those it reports without a values document, with the
identity line, if any, inserted; the loop variables do not depend on it. -/
theorem identity_extraction (values : Option (List (String × JVal))) :
    (∀ u, callerIdentity values = some u ↔
      ∃ vals data aws current, values = some vals ∧
        mapGet vals "data" = some (JVal.object data) ∧
        mapGet data "aws_caller_identity" = some (JVal.object aws) ∧
        mapGet aws "current" = some (JVal.object current) ∧
        mapGet current "user_id" = some (JVal.str u)) ∧
    ∀ (vars : LoopVars) (i : Nat) (state : StateFile), state.Values = values →
      ∃ before after vars',
        loopBody vars i { state with Values := none } = some (before ++ after, vars') ∧
        loopBody vars i state = some
          (before ++ (match callerIdentity values with
            | some u => [Line.callerId u]
            | none => []) ++ after, vars') ∧
        ∀ l ∈ before ++ after, ∀ u, l ≠ Line.callerId u := by
  constructor
  · intro u
    constructor
    · intro h
      unfold callerIdentity at h
      split at h
      · simp at h
      rename_i vals
      split at h
      · simp at h
      rename_i data hdata
      split at h
      · simp at h
      rename_i aws haws
      split at h
      · simp at h
      rename_i current hcurrent
      refine ⟨vals, data, aws, current, rfl, ?_, ?_, ?_, ?_⟩
      · revert hdata; unfold asObject; split <;> simp_all
      · revert haws; unfold asObject; split <;> simp_all
      · revert hcurrent; unfold asObject; split <;> simp_all
      · revert h; unfold asString; split <;> simp_all
    · rintro ⟨vals, data, aws, current, rfl, h1, h2, h3, h4⟩
      simp [callerIdentity, asObject, asString, h1, h2, h3, h4]
  · intro vars i state hv
    have h1 : loopBody vars i { state with Values := none } = some
        (([Line.file state.FileInfo.Name, Line.serial state.Serial, Line.lineage state.Lineage]
          ++ (match capturedAt state with
              | some timestamp => [Line.timestamp timestamp] ++
                  (if !vars.prevTimestamp.IsZero
                    then [Line.timeDelta (timestamp.Sub vars.prevTimestamp)] else [])
              | none => [Line.timestampError]))
          ++ ([Line.resourceCount (state.Resources.length : Int)]
            ++ changeLines i vars (state.Resources.length : Int) (countTypes state.Resources)
            ++ [Line.separator]),
          ⟨(state.Resources.length : Int), countTypes state.Resources,
            (capturedAt state).getD vars.prevTimestamp⟩) := by
      rw [loopBody_eq]
      simp only [callerIdentity, List.append_nil, List.append_assoc]
      rfl
    refine ⟨_, _, _, h1, ?_, ?_⟩
    · rw [loopBody_eq, hv]
      simp only [List.append_assoc]
    · intro l hl u hlu
      subst hlu
      have := (loopBody_mem_callerId h1 u).1 hl
      simp [callerIdentity] at this

/-- C7 (as amended): for every file name, the slice expression of line 115 is in
range; the string handed to the parser is the part of the stem after the last
hyphen, which is the whole stem when the stem has no hyphen; and whenever that
string matches neither `YYYYMMDDThhmmssZ` nor that pattern with a fractional
second, the timestamp is absent: the parse-error note is reported and
`prevTimestamp` keeps its value. -/
theorem timestamp_derivation (name : List Char) :
    ∃ part, timestampStr name = some part ∧
      part = afterLastHyphen (TrimSuffix name (Ext name)) ∧
      ((∀ c ∈ TrimSuffix name (Ext name), c ≠ '-') → part = TrimSuffix name (Ext name)) ∧
      (matchesPattern part = false → matchesPatternWithFraction part = false →
        parseTimestamp part = none ∧
          ∀ prev, timestampLines prev part = ([Line.timestampError], prev)) := by
  refine ⟨_, timestampStr_eq name, rfl, afterLastHyphen_of_no_hyphen _, ?_⟩
  intro h1 h2
  have hnone : parseTimestamp (afterLastHyphen (TrimSuffix name (Ext name))) = none := by
    cases hp : parseTimestamp (afterLastHyphen (TrimSuffix name (Ext name))) with
    | none => rfl
    | some t =>
      rcases parseTimestamp_some_matches hp with h | h
      · rw [h1] at h; cases h
      · rw [h2] at h; cases h
  exact ⟨hnone, fun prev => by simp [timestampLines, hnone]⟩

/-- C7 as stated fails: a file name without any hyphen whose stem is a
timestamp yields that timestamp; and a part after the last hyphen that does not
match `YYYYMMDDThhmmssZ` because it carries a fractional second is parsed as
well. -/
theorem timestamp_derivation_counterexample :
    ('-' ∉ "20240101T000000Z.tfstate".toList ∧
      (timestampStr "20240101T000000Z.tfstate".toList).bind parseTimestamp
        = some ⟨63839664000, 0⟩) ∧
    (timestampStr "state-20240101T000000.5Z.tfstate".toList
        = some "20240101T000000.5Z".toList ∧
      matchesPattern "20240101T000000.5Z".toList = false ∧
      parseTimestamp "20240101T000000.5Z".toList = some ⟨63839664000, 500000000⟩) := by
  decide

theorem isDigitChar_ne {c : Char} (h : isDigitChar c = true) :
    c ≠ '-' ∧ c ≠ '.' ∧ c ≠ '/' := by
  refine ⟨?_, ?_, ?_⟩ <;> rintro rfl <;> simp [isDigitChar] at h

theorem matchesPattern_chars {ts : List Char} (h : matchesPattern ts = true) :
    ∀ c ∈ ts, c ≠ '-' ∧ c ≠ '.' ∧ c ≠ '/' := by
  unfold matchesPattern at h
  split at h
  · simp only [List.all_cons, List.all_nil, Bool.and_true, Bool.and_eq_true, beq_iff_eq] at h
    obtain ⟨⟨⟨h1, h2, h3, h4, h5, h6, h7, h8, h9, h10, h11, h12, h13, h14⟩, rfl⟩, rfl⟩ := h
    intro c hc
    simp only [List.mem_cons, List.not_mem_nil, or_false] at hc
    rcases hc with rfl | rfl | rfl | rfl | rfl | rfl | rfl | rfl | rfl | rfl | rfl | rfl | rfl
      | rfl | rfl | rfl
    all_goals first | exact isDigitChar_ne (by assumption) | decide
  · simp at h

/-- C10: for every version id `v` (hyphens and periods allowed in it) and every
`ts` of the form `YYYYMMDDThhmmssZ`, the analyzer's extraction applied to the
downloader's file name `v + "-" + ts + ".tfstate"` yields exactly `ts`. -/
theorem download_analyze_roundtrip (v ts : List Char) (hts : matchesPattern ts = true) :
    timestampStr (outputFileName v ts) = some ts := by
  have hchars := matchesPattern_chars hts
  rw [timestampStr_eq]
  have hname : outputFileName v ts = (v ++ '-' :: ts) ++ '.' :: "tfstate".toList := by
    simp [outputFileName]
  have hext : Ext ((v ++ '-' :: ts) ++ '.' :: "tfstate".toList) = '.' :: "tfstate".toList :=
    Ext_append _ _ (by decide)
  rw [hname, hext, TrimSuffix_append, afterLastHyphen_append v ts (fun c hc => (hchars c hc).1)]

/-- C10 at a version id that contains a hyphen and a period. -/
theorem download_analyze_roundtrip_witness :
    matchesPattern "20240315T101530Z".toList = true ∧
      timestampStr (outputFileName "3HL4kqtJ-vBz.xQ".toList "20240315T101530Z".toList)
        = some "20240315T101530Z".toList :=
  ⟨by decide, download_analyze_roundtrip _ _ (by decide)⟩

/-! ## The directory walk: lemmas -/

theorem Walk_append (unmarshal : List UInt8 → Option StateFile) (xs ys : List WalkEntry) :
    ∀ m, Walk unmarshal m (xs ++ ys) =
      match Walk unmarshal m xs with
      | Except.ok m' => Walk unmarshal m' ys
      | Except.error e => Except.error e := by
  induction xs with
  | nil => intro m; rfl
  | cons x xs ih =>
    intro m
    simp only [List.cons_append, Walk]
    cases walkFn unmarshal m x with
    | error e => rfl
    | ok m' => exact ih m'

theorem walkFn_ok {unmarshal : List UInt8 → Option StateFile}
    {m m' : List (String × List StateFile)} {entry : WalkEntry}
    (h : walkFn unmarshal m entry = Except.ok m') :
    (parsedSnapshots unmarshal [entry] = [] ∧ m' = m) ∨
    ∃ state, parsedSnapshots unmarshal [entry] = [state] ∧
      m' = mapSet m state.Lineage ((mapGet m state.Lineage).getD [] ++ [state]) := by
  unfold walkFn at h
  have e : ".tfstate".toList = ['.', 't', 'f', 's', 't', 'a', 't', 'e'] := rfl
  rw [e] at h
  simp only [parsedSnapshots, List.filterMap_cons, List.filterMap_nil, e]
  split at h
  · cases h
  split at h
  · rename_i hdir
    simp only [Except.ok.injEq] at h
    left; simp [hdir, h]
  split at h
  · rename_i hdir hext
    simp only [Except.ok.injEq] at h
    left; simp [hdir, hext, h]
  rename_i hdir hext
  split at h
  · cases h
  rename_i data hdata
  split at h
  · cases h
  rename_i parsed hparsed
  simp only [Except.ok.injEq] at h
  right
  refine ⟨{ parsed with FileInfo := entry.info }, ?_, h.symm⟩
  simp [hdir, hext, hdata, hparsed]

theorem parsedSnapshots_cons (unmarshal : List UInt8 → Option StateFile) (entry : WalkEntry)
    (rest : List WalkEntry) :
    parsedSnapshots unmarshal (entry :: rest)
      = parsedSnapshots unmarshal [entry] ++ parsedSnapshots unmarshal rest := by
  simp only [parsedSnapshots, List.filterMap_cons, List.filterMap_nil]
  split <;> simp

theorem Walk_groups (unmarshal : List UInt8 → Option StateFile) (entries : List WalkEntry) :
    ∀ m m', Walk unmarshal m entries = Except.ok m' →
      (∀ l, (mapGet m' l).getD []
          = (mapGet m l).getD [] ++ (parsedSnapshots unmarshal entries).filter
              (fun s => s.Lineage = l)) ∧
      ((m.map Prod.fst).Nodup → (m'.map Prod.fst).Nodup) ∧
      (∀ l, l ∈ m'.map Prod.fst ↔
        l ∈ m.map Prod.fst ∨ ∃ s ∈ parsedSnapshots unmarshal entries, s.Lineage = l) := by
  induction entries with
  | nil =>
    intro m m' h
    simp only [Walk, Except.ok.injEq] at h
    subst h
    simp [parsedSnapshots]
  | cons entry rest ih =>
    intro m m' h
    simp only [Walk] at h
    cases hfn : walkFn unmarshal m entry with
    | error e => rw [hfn] at h; cases h
    | ok m1 =>
      rw [hfn] at h
      obtain ⟨ih1, ih2, ih3⟩ := ih m1 m' h
      rw [parsedSnapshots_cons]
      rcases walkFn_ok hfn with ⟨hnil, rfl⟩ | ⟨state, hone, rfl⟩
      · rw [hnil]
        exact ⟨fun l => by simpa using ih1 l, ih2, fun l => by simpa using ih3 l⟩
      · rw [hone]
        refine ⟨?_, ?_, ?_⟩
        · intro l
          rw [ih1 l, mapGet_mapSet]
          by_cases hl : state.Lineage = l
          · simp [hl, List.filter_cons]
          · simp [hl, List.filter_cons]
        · intro hnd
          exact ih2 (mapSet_nodup m _ _ hnd)
        · intro l
          rw [ih3 l, mapSet_keys]
          simp only [List.singleton_append, List.mem_cons, exists_eq_or_imp]
          constructor
          · rintro ((h1 | h1) | h1)
            · exact Or.inr (Or.inl h1.symm)
            · exact Or.inl h1
            · exact Or.inr (Or.inr h1)
          · rintro (h1 | h1 | h1)
            · exact Or.inl (Or.inr h1)
            · exact Or.inl (Or.inl h1.symm)
            · exact Or.inr h1

/-- C4: when the walk succeeds, the lineage map is the partition by lineage of
the snapshots it decoded: its keys are distinct, they are exactly the lineages
that occur (the empty string included), and the group stored under a key is
the subsequence of the decoded snapshots with that lineage, in walk order and
without deduplication; a lineage that is no key has no snapshot. -/
theorem lineage_partition (unmarshal : List UInt8 → Option StateFile)
    (entries : List WalkEntry) (lineageMap : List (String × List StateFile))
    (h : Walk unmarshal [] entries = Except.ok lineageMap) :
    (lineageMap.map Prod.fst).Nodup ∧
    (∀ l group, (l, group) ∈ lineageMap ↔
      group = (parsedSnapshots unmarshal entries).filter (fun s => s.Lineage = l) ∧
        group ≠ []) ∧
    (∀ l, (mapGet lineageMap l).getD []
      = (parsedSnapshots unmarshal entries).filter (fun s => s.Lineage = l)) := by
  obtain ⟨h1, h2, h3⟩ := Walk_groups unmarshal entries [] lineageMap h
  have hnd : (lineageMap.map Prod.fst).Nodup := h2 (by simp)
  have hget : ∀ l, (mapGet lineageMap l).getD []
      = (parsedSnapshots unmarshal entries).filter (fun s => s.Lineage = l) := by
    intro l; simpa [mapGet] using h1 l
  refine ⟨hnd, ?_, hget⟩
  intro l group
  rw [mem_iff_mapGet _ hnd]
  have hkey := h3 l
  simp only [List.map_nil, List.not_mem_nil, false_or] at hkey
  constructor
  · intro hg
    have := hget l
    rw [hg] at this
    simp only [Option.getD_some] at this
    refine ⟨this, ?_⟩
    have hmem : l ∈ lineageMap.map Prod.fst :=
      List.mem_map_of_mem Prod.fst ((mem_iff_mapGet _ hnd l group).2 hg)
    obtain ⟨s, hs, hsl⟩ := hkey.1 hmem
    rw [this]
    intro hempty
    have : s ∈ (parsedSnapshots unmarshal entries).filter (fun s => s.Lineage = l) := by
      simp [List.mem_filter, hs, hsl]
    rw [hempty] at this
    cases this
  · rintro ⟨hg, hne⟩
    cases hm : mapGet lineageMap l with
    | none =>
      have := hget l
      rw [hm] at this
      simp only [Option.getD_none] at this
      rw [← this] at hg
      exact absurd hg hne
    | some g =>
      have := hget l
      rw [hm] at this
      simp only [Option.getD_some] at this
      rw [hg, this]

/-- C4 on three files of two lineages. -/
theorem lineage_partition_witness :
    Walk exampleUnmarshal [] exampleEntries = Except.ok exampleLineageMap ∧
    ((exampleLineageMap.map Prod.fst).Nodup ∧
    (∀ l group, (l, group) ∈ exampleLineageMap ↔
      group = (parsedSnapshots exampleUnmarshal exampleEntries).filter
          (fun s => s.Lineage = l) ∧ group ≠ []) ∧
    (∀ l, (mapGet exampleLineageMap l).getD []
      = (parsedSnapshots exampleUnmarshal exampleEntries).filter (fun s => s.Lineage = l))) :=
  ⟨rfl, lineage_partition exampleUnmarshal exampleEntries exampleLineageMap rfl⟩

/-- C6 (as amended): when a regular `.tfstate` file is read but does not decode,
and the entries before it are processed without error, the walk stops at that
file with a parse error for its path, and the analyzer exits with status 1 for
that error: no snapshot is reported, neither of the files before nor of the
files after it. -/
theorem parse_failure_aborts (unmarshal : List UInt8 → Option StateFile) (env : Env)
    (before after : List WalkEntry) (bad : WalkEntry) (data : List UInt8)
    (lineageMap : List (String × List StateFile))
    (hdotenv : env.dotenvOk = true) (hdir : env.statesDir ≠ "")
    (hentries : env.entries = before ++ bad :: after)
    (hbefore : Walk unmarshal [] before = Except.ok lineageMap)
    (hwalk : bad.walkErr = false) (hfile : bad.info.IsDir = false)
    (hext : Ext bad.path = ".tfstate".toList)
    (hread : bad.contents = some data) (hparse : unmarshal data = none) :
    Walk unmarshal [] env.entries = Except.error (WalkError.parsing bad.path) ∧
      analyze unmarshal env = Outcome.exited 1 (some (WalkError.parsing bad.path)) := by
  have hfn : walkFn unmarshal lineageMap bad = Except.error (WalkError.parsing bad.path) := by
    simp [walkFn, hwalk, hfile, hext, hread, hparse]
  have hw : Walk unmarshal [] env.entries = Except.error (WalkError.parsing bad.path) := by
    rw [hentries, Walk_append, hbefore]
    simp only [Walk, hfn]
  refine ⟨hw, ?_⟩
  simp [analyze, hdotenv, hdir, hw]

/-- C6 on a valid file, a file that does not decode, and a second valid file. -/
theorem parse_failure_aborts_witness :
    Walk exampleUnmarshal [] exampleBadEnv.entries
        = Except.error (WalkError.parsing "d/x-2.tfstate".toList) ∧
      analyze exampleUnmarshal exampleBadEnv
        = Outcome.exited 1 (some (WalkError.parsing "d/x-2.tfstate".toList)) :=
  parse_failure_aborts exampleUnmarshal exampleBadEnv
    [fileEntry "d/x-1.tfstate" "x-1.tfstate" [1, 0]]
    [fileEntry "d/x-3.tfstate" "x-3.tfstate" [3, 0]]
    (fileEntry "d/x-2.tfstate" "x-2.tfstate" []) []
    [("a", [{ (snapshot "x-1.tfstate" 1 []) with Lineage := "a" }])]
    rfl (by decide) rfl rfl rfl rfl (by decide) rfl rfl

/-- C6 as stated fails: with two valid blobs around one blob that is not valid
JSON, the two valid snapshots are decodable, yet the run ends with exit status
1 and the parse error of the bad file instead of a report. -/
theorem parse_failure_counterexample :
    (parsedSnapshots exampleUnmarshal exampleBadEnv.entries).length = 2 ∧
      (∀ report, analyze exampleUnmarshal exampleBadEnv ≠ Outcome.finished report) ∧
      analyze exampleUnmarshal exampleBadEnv
        = Outcome.exited 1 (some (WalkError.parsing "d/x-2.tfstate".toList)) := by
  refine ⟨by decide, ?_, by decide⟩
  intro report h
  have h2 : analyze exampleUnmarshal exampleBadEnv
      = Outcome.exited 1 (some (WalkError.parsing "d/x-2.tfstate".toList)) := by decide
  rw [h2] at h
  cases h

/-- C3 (as amended): for every group of snapshots, the ordering step
(`sort.Slice` with `less = Serial(i) < Serial(j)`) returns a permutation of the
group in which the serials are non-decreasing; and for a group of at most 12
snapshots, which `sort.Slice` sorts by insertion, snapshots of equal serial keep
their relative order, so that the result is the stable ascending sort. -/
theorem ordering_step (states : List StateFile) :
    (sortBySerial states).Perm states ∧
      (sortBySerial states).Pairwise (fun x y => x.Serial ≤ y.Serial) ∧
      (states.length ≤ 12 → IsStableSortBySerial states (sortBySerial states)) := by
  have h := Slice_spec (fun s : StateFile => s.Serial)
    (fun x y => decide (x.Serial < y.Serial)) (fun _ _ => rfl) states
  have hs := Slice_small_filter (fun s : StateFile => s.Serial)
    (fun x y => decide (x.Serial < y.Serial)) (fun _ _ => rfl) states
  unfold IsStableSortBySerial sortBySerial
  exact ⟨h.1, h.2, fun hlen => ⟨h.1, h.2, fun serial => hs hlen serial⟩⟩

/-- C3 as stated fails: of thirteen snapshots that all have serial 0 except the
seventh, the ordering step moves `f09` in front of `f00` and `f00` behind
`f08`, so snapshots of equal serial do not keep their relative order. -/
theorem ordering_step_counterexample :
    fileNames (sortBySerial exampleTies)
        = ["f09", "f01", "f02", "f03", "f04", "f05", "f07", "f08", "f00", "f10", "f11",
            "f12", "f06"] ∧
      ¬ IsStableSortBySerial exampleTies (sortBySerial exampleTies) := by
  refine ⟨by decide!, ?_⟩
  rintro ⟨_, _, h⟩
  have h0 := congrArg fileNames (h 0)
  revert h0
  decide!

end StateAnalysis
